import Mathlib

/-!
# QmlProfiler::QmlEvent (src/plugins/qmlprofiler/qmlevent.h)

A shallow embedding of the event record: the 8-byte union `m_data`, the heap
block it may point to, the width selector (`assignNumbers` / `squeeze`), the
typed accessors and the copy / destroy operations.

Platform assumptions of the embedding (those of the x86-64 builds of the
program): two's complement integers, narrowing conversions reduce modulo
`2^bits`, little-endian byte order, `sizeof(void *) = 8`, `char` is signed.

Memory is modelled in blocks: the union of a record is a list of eight memory
values, the heap is a list of blocks addressed by their position. A memory
value is an initialised byte, an indeterminate byte, or one byte of a stored
pointer. Operations that the C++ leaves undefined (reading outside an object,
reading an indeterminate value as a number, freeing a dead block, reaching
`Q_UNREACHABLE`) return a `Fault`.
-/

namespace QmlProfiler

/-! ## Faults -/

/-- The ways in which an operation leaves defined behaviour. -/
inductive Fault
  | outOfBounds
  | indeterminate
  | invalidPointer
  | overflow
  | unreachable
  | assertion
  deriving DecidableEq

deriving instance DecidableEq for Except

/-! ## Machine integers -/

/-- The signed integer types a payload can be read or written at: the
template parameter `Number` ranges over these four. -/
inductive NumType
  | qint8
  | qint16
  | qint32
  | qint64
  deriving DecidableEq

/-- The value of `sizeof(Number)`. -/
def NumType.size : NumType → Nat
  | .qint8 => 1
  | .qint16 => 2
  | .qint32 => 4
  | .qint64 => 8

/-- Width of the type in bits, `sizeof(Number) * 8`. -/
def NumType.bits (T : NumType) : Nat := T.size * 8

/-- Conversion of an integer to the signed type of `bits` bits (`static_cast`):
reduction modulo `2^bits` into `[-2^(bits-1), 2^(bits-1))`. -/
def wrapSigned (bits : Nat) (x : Int) : Int :=
  let m := x % (2 : Int) ^ bits
  if m < (2 : Int) ^ (bits - 1) then m else m - (2 : Int) ^ bits

/-- The values of the signed type of `bits` bits. -/
def InRange (bits : Nat) (x : Int) : Prop :=
  -(2 : Int) ^ (bits - 1) ≤ x ∧ x < (2 : Int) ^ (bits - 1)

instance (bits : Nat) (x : Int) : Decidable (InRange bits x) := by
  unfold InRange
  exact inferInstance

/-- The function `squeezable<Big, Small>` for signed `Big` and `Small`:
`static_cast<Small>(source) == source`. -/
def squeezable (small : NumType) (source : Int) : Bool :=
  wrapSigned small.bits source == source

/-- The instance `squeezable<size_t, quint16>`:
`static_cast<quint16>(source) == source`. -/
def squeezableSize (source : Nat) : Bool :=
  source % 65536 == source

/-! ## Memory -/

/-- One byte of memory. -/
inductive MemVal
  | undef
  | byte (b : Fin 256)
  | ptr (p : Nat) (k : Nat)
  deriving DecidableEq

/-- Little-endian bytes of a natural number, `n` of them. -/
def toBytes : Nat → Nat → List (Fin 256)
  | 0, _ => []
  | n + 1, v => Fin.ofNat (v % 256) :: toBytes n (v / 256)

/-- The natural number with the given little-endian bytes. -/
def fromBytes : List (Fin 256) → Nat
  | [] => 0
  | b :: bs => b.val + 256 * fromBytes bs

/-- Object representation of a value of type `T`. -/
def encode (T : NumType) (v : Int) : List MemVal :=
  (toBytes T.size (v % (2 : Int) ^ T.bits).toNat).map MemVal.byte

/-- The initialised bytes of a memory range, or the fault of reading them: an
indeterminate byte has no value, and the value of a pointer byte is not known
to the model. -/
def initialised : List MemVal → Except Fault (List (Fin 256))
  | [] => .ok []
  | .byte b :: rest =>
    match initialised rest with
    | .ok bs => .ok (b :: bs)
    | .error f => .error f
  | _ :: _ => .error .indeterminate

/-- The value of type `T` with the given object representation. -/
def decode (T : NumType) (bs : List (Fin 256)) : Int :=
  wrapSigned T.bits (fromBytes bs)

/-- Read of `static_cast<T *>(mem)[i]`. -/
def readNumber (T : NumType) (mem : List MemVal) (i : Int) : Except Fault Int :=
  if i < 0 then .error .outOfBounds
  else if mem.length < (i.toNat + 1) * T.size then .error .outOfBounds
  else
    match initialised ((mem.drop (i.toNat * T.size)).take T.size) with
    | .ok bs => .ok (decode T bs)
    | .error f => .error f

/-- Write of `static_cast<T *>(mem)[i] = v`. -/
def writeNumber (T : NumType) (mem : List MemVal) (i : Nat) (v : Int) :
    Except Fault (List MemVal) :=
  if mem.length < (i + 1) * T.size then .error .outOfBounds
  else .ok (mem.take (i * T.size) ++ encode T v ++ mem.drop ((i + 1) * T.size))

/-- Object representation of the pointer to block `p`. -/
def storePtr (p : Nat) : List MemVal :=
  (List.range 8).map (MemVal.ptr p)

/-- The pointer whose object representation is `mem`. -/
def loadPtr (mem : List MemVal) : Except Fault Nat :=
  match mem with
  | .ptr p 0 :: _ => if mem = storePtr p then .ok p else .error .indeterminate
  | _ => .error .indeterminate

/-- An event in the life of the heap. -/
inductive HeapEvent
  | alloc (p : Nat) (size : Nat)
  | free (p : Nat)
  deriving DecidableEq

/-- The heap: block `p` is `blocks[p]`, `none` once freed; `trace` lists the
calls of `malloc` and `free`, oldest first. -/
structure Heap where
  blocks : List (Option (List MemVal))
  trace : List HeapEvent
  deriving DecidableEq

/-- The call `malloc(size)`: a new block of indeterminate bytes. The call
always succeeds (the program does not test its result). -/
def Heap.malloc (h : Heap) (size : Nat) : Nat × Heap :=
  (h.blocks.length,
    { blocks := h.blocks ++ [some (List.replicate size MemVal.undef)],
      trace := h.trace ++ [HeapEvent.alloc h.blocks.length size] })

/-- The contents of the live block `p`. -/
def Heap.load (h : Heap) (p : Nat) : Except Fault (List MemVal) :=
  match h.blocks[p]? with
  | some (some blk) => .ok blk
  | _ => .error .invalidPointer

/-- Replaces the contents of the live block `p`. -/
def Heap.store (h : Heap) (p : Nat) (blk : List MemVal) : Except Fault Heap :=
  match h.blocks[p]? with
  | some (some _) => .ok { h with blocks := h.blocks.set p (some blk) }
  | _ => .error .invalidPointer

/-- The call `free(p)`. -/
def Heap.free (h : Heap) (p : Nat) : Except Fault Heap :=
  match h.blocks[p]? with
  | some (some _) =>
    .ok { blocks := h.blocks.set p none, trace := h.trace ++ [HeapEvent.free p] }
  | _ => .error .invalidPointer

/-! ## The record -/

/-- The flag `External` of `enum Type`. -/
def External : Nat := 1
/-- Enumerator `Inline8Bit`. -/
def Inline8Bit : Nat := 8
/-- Enumerator `External8Bit`. -/
def External8Bit : Nat := Inline8Bit ||| External
/-- Enumerator `Inline16Bit`. -/
def Inline16Bit : Nat := 16
/-- Enumerator `External16Bit`. -/
def External16Bit : Nat := Inline16Bit ||| External
/-- Enumerator `Inline32Bit`. -/
def Inline32Bit : Nat := 32
/-- Enumerator `External32Bit`. -/
def External32Bit : Nat := Inline32Bit ||| External
/-- Enumerator `Inline64Bit`. -/
def Inline64Bit : Nat := 64
/-- Enumerator `External64Bit`. -/
def External64Bit : Nat := Inline64Bit ||| External

/-- The constant `s_internalDataLength`, also `sizeof(m_data)`. -/
def s_internalDataLength : Nat := 8

/-- The data members of `struct QmlEvent`; `m_data` is the object
representation of the union. -/
structure QmlEvent where
  m_timestamp : Int
  m_duration : Int
  m_data : List MemVal
  m_typeIndex : Int
  m_dataType : Nat
  m_dataLength : Nat
  deriving DecidableEq

/-- State of the program as far as one member function sees it. -/
abbrev St := Heap × QmlEvent

namespace QmlEvent

/-- The loop `quint16 i = 0; foreach (Number item, numbers) data[i++] = item;`
of `assignNumbers`, from index `i` on. -/
def storeNumbers (T : NumType) : List Int → Nat → List MemVal → Except Fault (List MemVal)
  | [], _, mem => .ok mem
  | item :: rest, i, mem =>
    match writeNumber T mem i (wrapSigned T.bits item) with
    | .ok mem1 => storeNumbers T rest ((i + 1) % 65536) mem1
    | .error f => .error f

/-- The member `clearPointer`. -/
def clearPointer (s : St) : Except Fault St :=
  if s.2.m_dataType &&& External ≠ 0 then
    match loadPtr s.2.m_data with
    | .ok p =>
      match s.1.free p with
      | .ok h1 => .ok (h1, s.2)
      | .error f => .error f
    | .error f => .error f
  else .ok s

/-- Body of `assignNumbers<Container, Number>` for `Number = T`, given the
instance `squeeze<Container, Number>`. -/
def assignNumbersWith (T : NumType)
    (squeeze : List Int → St → Except Fault (Bool × St))
    (numbers : List Int) (s : St) : Except Fault St :=
  let e1 : QmlEvent := { s.2 with
    m_dataLength := if squeezableSize numbers.length then numbers.length % 65536 else 65535 }
  if e1.m_dataLength > s_internalDataLength / T.size then
    match squeeze numbers (s.1, e1) with
    | .error f => .error f
    | .ok (true, s2) => .ok s2
    | .ok (false, s2) =>
      let e3 : QmlEvent := { s2.2 with m_dataType := (T.size * 8) ||| External }
      let (p, h3) := s2.1.malloc (e3.m_dataLength * T.size)
      let e4 : QmlEvent := { e3 with m_data := storePtr p }
      match loadPtr e4.m_data with
      | .error f => .error f
      | .ok data =>
        match h3.load data with
        | .error f => .error f
        | .ok blk =>
          match storeNumbers T numbers 0 blk with
          | .error f => .error f
          | .ok blk1 =>
            match h3.store data blk1 with
            | .error f => .error f
            | .ok h4 => .ok (h4, e4)
  else
    let e2 : QmlEvent := { e1 with m_dataType := T.size * 8 }
    if e2.m_dataType &&& External ≠ 0 then
      match loadPtr e2.m_data with
      | .error f => .error f
      | .ok data =>
        match s.1.load data with
        | .error f => .error f
        | .ok blk =>
          match storeNumbers T numbers 0 blk with
          | .error f => .error f
          | .ok blk1 =>
            match s.1.store data blk1 with
            | .error f => .error f
            | .ok h4 => .ok (h4, e2)
    else
      match storeNumbers T numbers 0 e2.m_data with
      | .error f => .error f
      | .ok mem => .ok (s.1, { e2 with m_data := mem })

/-- Body of `squeeze<Container, Number>` for `sizeof(Number) > 1`, where
`Small` is `small` and `assignSmall` is `assignNumbers<Container, Small>`. -/
def squeezeWith (T small : NumType) (assignSmall : List Int → St → Except Fault St)
    (numbers : List Int) (s : St) : Except Fault (Bool × St) :=
  if numbers.all (fun item => squeezable small (wrapSigned T.bits item)) then
    match assignSmall numbers s with
    | .ok s1 => .ok (true, s1)
    | .error f => .error f
  else .ok (false, s)

/-- Instance `squeeze<Container, qint8>` (`sizeof(Number) <= 1`). -/
def squeeze8 (_numbers : List Int) (s : St) : Except Fault (Bool × St) :=
  .ok (false, s)

/-- Instance `assignNumbers<Container, qint8>`. -/
def assignNumbers8 : List Int → St → Except Fault St :=
  assignNumbersWith .qint8 squeeze8

/-- Instance `squeeze<Container, qint16>`. -/
def squeeze16 : List Int → St → Except Fault (Bool × St) :=
  squeezeWith .qint16 .qint8 assignNumbers8

/-- Instance `assignNumbers<Container, qint16>`. -/
def assignNumbers16 : List Int → St → Except Fault St :=
  assignNumbersWith .qint16 squeeze16

/-- Instance `squeeze<Container, qint32>`. -/
def squeeze32 : List Int → St → Except Fault (Bool × St) :=
  squeezeWith .qint32 .qint16 assignNumbers16

/-- Instance `assignNumbers<Container, qint32>`. -/
def assignNumbers32 : List Int → St → Except Fault St :=
  assignNumbersWith .qint32 squeeze32

/-- Instance `squeeze<Container, qint64>`. -/
def squeeze64 : List Int → St → Except Fault (Bool × St) :=
  squeezeWith .qint64 .qint32 assignNumbers32

/-- Instance `assignNumbers<Container, qint64>`. -/
def assignNumbers64 : List Int → St → Except Fault St :=
  assignNumbersWith .qint64 squeeze64

/-- The member template `squeeze<Container, Number>`. -/
def squeeze : NumType → List Int → St → Except Fault (Bool × St)
  | .qint8 => squeeze8
  | .qint16 => squeeze16
  | .qint32 => squeeze32
  | .qint64 => squeeze64

/-- The member template `assignNumbers<Container, Number>`; the container is
given by the list of its elements. -/
def assignNumbers : NumType → List Int → St → Except Fault St
  | .qint8 => assignNumbers8
  | .qint16 => assignNumbers16
  | .qint32 => assignNumbers32
  | .qint64 => assignNumbers64

/-- The member template `number<Number>` for `Number = T`. -/
def number (T : NumType) (s : St) (i : Int) : Except Fault Int :=
  if i ≥ s.2.m_dataLength then .ok 0
  else if s.2.m_dataType = Inline8Bit then
    (readNumber .qint8 s.2.m_data i).map (wrapSigned T.bits)
  else if s.2.m_dataType = Inline16Bit then
    (readNumber .qint16 s.2.m_data i).map (wrapSigned T.bits)
  else if s.2.m_dataType = Inline32Bit then
    (readNumber .qint32 s.2.m_data i).map (wrapSigned T.bits)
  else if s.2.m_dataType = Inline64Bit then
    (readNumber .qint64 s.2.m_data i).map (wrapSigned T.bits)
  else if s.2.m_dataType = External8Bit then
    match loadPtr s.2.m_data with
    | .error f => .error f
    | .ok p =>
      match s.1.load p with
      | .error f => .error f
      | .ok blk => (readNumber .qint8 blk i).map (wrapSigned T.bits)
  else if s.2.m_dataType = External16Bit then
    match loadPtr s.2.m_data with
    | .error f => .error f
    | .ok p =>
      match s.1.load p with
      | .error f => .error f
      | .ok blk => (readNumber .qint16 blk i).map (wrapSigned T.bits)
  else if s.2.m_dataType = External32Bit then
    match loadPtr s.2.m_data with
    | .error f => .error f
    | .ok p =>
      match s.1.load p with
      | .error f => .error f
      | .ok blk => (readNumber .qint32 blk i).map (wrapSigned T.bits)
  else if s.2.m_dataType = External64Bit then
    match loadPtr s.2.m_data with
    | .error f => .error f
    | .ok p =>
      match s.1.load p with
      | .error f => .error f
      | .ok blk => (readNumber .qint64 blk i).map (wrapSigned T.bits)
  else .ok 0

/-- The loop of `numbers<Container, Number>`: appends `number<Number>(i)` for
`i` from `i` up to `i + n`. -/
def numbersFrom (T : NumType) (s : St) : Nat → Nat → Except Fault (List Int)
  | _, 0 => .ok []
  | i, n + 1 =>
    match number T s i with
    | .error f => .error f
    | .ok v =>
      match numbersFrom T s (i + 1) n with
      | .error f => .error f
      | .ok vs => .ok (v :: vs)

/-- The member template `numbers<Container, Number>`. -/
def numbers (T : NumType) (s : St) : Except Fault (List Int) :=
  numbersFrom T s 0 s.2.m_dataLength

/-- The member template `setNumbers<Container, Number>`. -/
def setNumbers (T : NumType) (numbers : List Int) (s : St) : Except Fault St :=
  match clearPointer s with
  | .error f => .error f
  | .ok s1 => assignNumbers T numbers s1

/-- The member template `setNumber<Number>`; `i` is an `int`. -/
def setNumber (T : NumType) (i : Int) (number : Int) (s : St) : Except Fault St :=
  match numbers T s with
  | .error f => .error f
  | .ok nums =>
    let prevSize : Int := nums.length
    if i < 0 then .error .outOfBounds
    else if i ≥ prevSize ∧ i + 1 > 2147483647 then .error .overflow
    else
      let nums1 :=
        if i ≥ prevSize then nums ++ List.replicate (i.toNat + 1 - nums.length) 0 else nums
      setNumbers T (nums1.set i.toNat number) s

/-- The bytes a C string read starts with: up to the first NUL. -/
def cstring : List MemVal → Except Fault (List (Fin 256))
  | [] => .error .outOfBounds
  | .byte b :: rest =>
    if b = 0 then .ok []
    else
      match cstring rest with
      | .ok bs => .ok (b :: bs)
      | .error f => .error f
  | _ :: _ => .error .indeterminate

/-- The member `string`; a text is given by its UTF-8 bytes, the argument of
`QString::fromUtf8`. -/
def string (s : St) : Except Fault (List (Fin 256)) :=
  if s.2.m_dataType = External8Bit then
    match loadPtr s.2.m_data with
    | .error f => .error f
    | .ok p =>
      match s.1.load p with
      | .error f => .error f
      | .ok blk => cstring blk
  else if s.2.m_dataType = Inline8Bit then cstring s.2.m_data
  else .error .unreachable

/-- The elements of the `QByteArray` `data.toUtf8()`, of type `char`. -/
def toUtf8 (data : List (Fin 256)) : List Int :=
  data.map (fun b => wrapSigned 8 b.val)

/-- The member `setString`; it instantiates `assignNumbers` at `char`, which
has the size and the values of `qint8`. -/
def setString (data : List (Fin 256)) (s : St) : Except Fault St :=
  match clearPointer s with
  | .error f => .error f
  | .ok s1 => assignNumbers .qint8 (toUtf8 data) s1

/-- The member `rangeStage`; a `Message` is given by its integer value. -/
def rangeStage (s : St) : Except Fault Int :=
  if s.2.m_dataType ≠ Inline8Bit then .error .assertion
  else readNumber .qint8 s.2.m_data 0

/-- The member `setRangeStage`. -/
def setRangeStage (stage : Int) (s : St) : Except Fault St :=
  match clearPointer s with
  | .error f => .error f
  | .ok s1 =>
    let e2 : QmlEvent := { s1.2 with m_dataType := Inline8Bit, m_dataLength := 1 }
    match writeNumber .qint8 e2.m_data 0 (wrapSigned 8 stage) with
    | .error f => .error f
    | .ok mem => .ok (s1.1, { e2 with m_data := mem })

/-- The member `isValid`. -/
def isValid (e : QmlEvent) : Bool :=
  e.m_timestamp != -1

/-- The member `setTimestamp`. -/
def setTimestamp (timestamp : Int) (e : QmlEvent) : QmlEvent :=
  { e with m_timestamp := timestamp }

/-- The member `setDuration`. -/
def setDuration (duration : Int) (e : QmlEvent) : QmlEvent :=
  { e with m_duration := duration }

/-- The member `setTypeIndex`. -/
def setTypeIndex (typeIndex : Int) (e : QmlEvent) : QmlEvent :=
  { e with m_typeIndex := typeIndex }

/-- A union the constructor has not written yet. -/
def uninitialised : List MemVal :=
  List.replicate s_internalDataLength MemVal.undef

/-- The constructor `QmlEvent()`. -/
def init : QmlEvent :=
  { m_timestamp := -1, m_duration := 0, m_data := uninitialised, m_typeIndex := -1,
    m_dataType := Inline8Bit, m_dataLength := 0 }

/-- The record after the member initialisers of a data constructor: the tag,
the length and the union are not initialised (they are written before they are
read; 0 stands for the indeterminate tag and length). -/
def header (timestamp duration typeIndex : Int) : QmlEvent :=
  { m_timestamp := timestamp, m_duration := duration, m_data := uninitialised,
    m_typeIndex := typeIndex, m_dataType := 0, m_dataLength := 0 }

/-- The constructors from `std::initializer_list<Number>` and from
`QVector<Number>`. -/
def ofNumbers (T : NumType) (timestamp duration typeIndex : Int) (list : List Int)
    (h : Heap) : Except Fault St :=
  assignNumbers T list (h, header timestamp duration typeIndex)

/-- The constructor from `QString`. -/
def ofString (timestamp duration typeIndex : Int) (data : List (Fin 256))
    (h : Heap) : Except Fault St :=
  assignNumbers .qint8 (toUtf8 data) (h, header timestamp duration typeIndex)

/-- The member `assignData`: `s` holds the record under construction. -/
def assignData (other : QmlEvent) (s : St) : Except Fault St :=
  if s.2.m_dataType &&& External ≠ 0 then
    let length := s.2.m_dataLength * (other.m_dataType / 8)
    let (p, h1) := s.1.malloc length
    let e1 : QmlEvent := { s.2 with m_data := storePtr p }
    match loadPtr other.m_data with
    | .error f => .error f
    | .ok src =>
      match h1.load src with
      | .error f => .error f
      | .ok blk =>
        if blk.length < length then .error .outOfBounds
        else
          match h1.store p (blk.take length) with
          | .error f => .error f
          | .ok h2 => .ok (h2, e1)
  else .ok (s.1, { s.2 with m_data := other.m_data })

/-- The copy constructor. -/
def copy (other : QmlEvent) (h : Heap) : Except Fault St :=
  assignData other (h,
    { m_timestamp := other.m_timestamp, m_duration := other.m_duration,
      m_data := uninitialised, m_typeIndex := other.m_typeIndex,
      m_dataType := other.m_dataType, m_dataLength := other.m_dataLength })

/-- The copy assignment `operator=` for `this != &other`. -/
def assign (other : QmlEvent) (s : St) : Except Fault St :=
  match clearPointer s with
  | .error f => .error f
  | .ok s1 =>
    assignData other (s1.1,
      { s1.2 with
        m_timestamp := other.m_timestamp, m_duration := other.m_duration,
        m_typeIndex := other.m_typeIndex, m_dataType := other.m_dataType,
        m_dataLength := other.m_dataLength })

/-- The destructor. -/
def destroy (s : St) : Except Fault Heap :=
  match clearPointer s with
  | .error f => .error f
  | .ok s1 => .ok s1.1

end QmlEvent


/-! ## Program states and reachable records -/

/-- A state of the program: the heap and the records alive in it. -/
structure Config where
  heap : Heap
  objs : List QmlEvent

/-- The constructors that build a record from data. -/
inductive Ctor
  | init
  | ofNumbers (T : NumType) (timestamp duration typeIndex : Int) (list : List Int)
  | ofString (timestamp duration typeIndex : Int) (data : List (Fin 256))

/-- Runs a constructor over heap `h`. -/
def Ctor.run : Ctor → Heap → Except Fault St
  | .init, h => .ok (h, QmlEvent.init)
  | .ofNumbers T timestamp duration typeIndex list, h =>
    QmlEvent.ofNumbers T timestamp duration typeIndex list h
  | .ofString timestamp duration typeIndex data, h =>
    QmlEvent.ofString timestamp duration typeIndex data h

/-- The non-const member functions of a record. -/
inductive Method
  | setTimestamp (timestamp : Int)
  | setDuration (duration : Int)
  | setTypeIndex (typeIndex : Int)
  | setNumber (T : NumType) (i : Int) (number : Int)
  | setNumbers (T : NumType) (numbers : List Int)
  | setString (data : List (Fin 256))
  | setRangeStage (stage : Int)

/-- Runs a member function on the record of `s`. -/
def Method.run : Method → St → Except Fault St
  | .setTimestamp timestamp, s => .ok (s.1, s.2.setTimestamp timestamp)
  | .setDuration duration, s => .ok (s.1, s.2.setDuration duration)
  | .setTypeIndex typeIndex, s => .ok (s.1, s.2.setTypeIndex typeIndex)
  | .setNumber T i number, s => QmlEvent.setNumber T i number s
  | .setNumbers T numbers, s => QmlEvent.setNumbers T numbers s
  | .setString data, s => QmlEvent.setString data s
  | .setRangeStage stage, s => QmlEvent.setRangeStage stage s

/-- The states a program reaches that creates records with the constructors,
calls their member functions, copies them and destroys them, each step within
defined behaviour. The program starts with no record, over any heap. -/
inductive Reachable : Config → Prop
  | start (h : Heap) : Reachable { heap := h, objs := [] }
  | construct {c : Config} (ctor : Ctor) (s : St) :
      Reachable c → ctor.run c.heap = .ok s →
      Reachable { heap := s.1, objs := c.objs ++ [s.2] }
  | copy {c : Config} (k : Nat) (other : QmlEvent) (s : St) :
      Reachable c → c.objs[k]? = some other → QmlEvent.copy other c.heap = .ok s →
      Reachable { heap := s.1, objs := c.objs ++ [s.2] }
  | call {c : Config} (k : Nat) (e : QmlEvent) (m : Method) (s : St) :
      Reachable c → c.objs[k]? = some e → m.run (c.heap, e) = .ok s →
      Reachable { heap := s.1, objs := c.objs.set k s.2 }
  | assign {c : Config} (k j : Nat) (e other : QmlEvent) (s : St) :
      Reachable c → c.objs[k]? = some e → c.objs[j]? = some other → j ≠ k →
      QmlEvent.assign other (c.heap, e) = .ok s →
      Reachable { heap := s.1, objs := c.objs.set k s.2 }
  | destroy {c : Config} (k : Nat) (e : QmlEvent) (h : Heap) :
      Reachable c → c.objs[k]? = some e → QmlEvent.destroy (c.heap, e) = .ok h →
      Reachable { heap := h, objs := c.objs.eraseIdx k }

/-! ## Vocabulary of the statements -/

/-- The record has the flag `External` set. -/
def QmlEvent.isExternal (e : QmlEvent) : Prop :=
  e.m_dataType &&& External ≠ 0

instance (e : QmlEvent) : Decidable e.isExternal := by
  unfold QmlEvent.isExternal
  exact inferInstance

/-- Stored element width in bits: the tag without the flag `External`. -/
def QmlEvent.storedWidth (e : QmlEvent) : Nat :=
  e.m_dataType - (e.m_dataType &&& External)

/-- Object representation of consecutive values of type `T`. -/
def encodeAll (T : NumType) : List Int → List MemVal
  | [] => []
  | v :: vs => encode T v ++ encodeAll T vs

/-- The record `e` over heap `h` stores the values `vs` at type `T`: inline in
the first bytes of the union, or in the heap block the union points to. -/
def Holds (h : Heap) (e : QmlEvent) (T : NumType) (vs : List Int) : Prop :=
  e.m_dataLength = vs.length ∧ vs.length ≤ 65535 ∧ (∀ v ∈ vs, InRange T.bits v) ∧
  e.m_data.length = 8 ∧
  ((e.m_dataType = T.size * 8 ∧ vs.length * T.size ≤ 8 ∧
      ∃ rest, e.m_data = encodeAll T vs ++ rest) ∨
   (e.m_dataType = T.size * 8 ||| External ∧ 8 < vs.length * T.size ∧
      ∃ p, e.m_data = storePtr p ∧ h.blocks[p]? = some (some (encodeAll T vs))))

/-- The record owns heap block `p`. -/
def Owns (e : QmlEvent) (p : Nat) : Prop :=
  e.isExternal ∧ e.m_data = storePtr p

/-- Heap `h1` keeps every live block of `h` that is not owned according to `own`. -/
def Heap.Keeps (h h1 : Heap) (own : Nat → Prop) : Prop :=
  ∀ q blk, h.blocks[q]? = some (some blk) → ¬ own q → h1.blocks[q]? = some (some blk)

/-- Invariant of the reachable states: every record stores a list of values,
and no two records own the same block. -/
def Config.Inv (c : Config) : Prop :=
  (∀ e ∈ c.objs, ∃ T vs, Holds c.heap e T vs) ∧
  (∀ (j k : Nat) (ej ek : QmlEvent) (p : Nat), j ≠ k →
    c.objs[j]? = some ej → c.objs[k]? = some ek → Owns ej p → ¬ Owns ek p)

/-- A step on record `e` over heap `h` that ends in state `s` is sound: the
record of `s` stores a list of values, the blocks other records own are kept,
and a block the record owns afterwards was its own before or is new. -/
def Sound (h : Heap) (e : QmlEvent) (s : St) : Prop :=
  (∃ T vs, Holds s.1 s.2 T vs) ∧ h.Keeps s.1 (Owns e) ∧
  (∀ p, Owns s.2 p → Owns e p ∨ h.blocks.length ≤ p)

/-- What `assignNumbers<Container, T>(xs)` leaves from state `s`: the values
at a type `w` chosen by the width selector, inline in the union or in a new
heap block; the other members as they were. -/
def Assigned (T : NumType) (xs : List Int) (s s1 : St) (w : NumType) : Prop :=
  w.size ≤ T.size ∧ (∀ x ∈ xs, InRange w.bits (wrapSigned T.bits x)) ∧
  s1.2.m_timestamp = s.2.m_timestamp ∧ s1.2.m_duration = s.2.m_duration ∧
  s1.2.m_typeIndex = s.2.m_typeIndex ∧ s1.2.m_dataLength = xs.length ∧
  ((xs.length * w.size ≤ 8 ∧ (w = T ∨ 8 < xs.length * (2 * w.size)) ∧
      s1.1 = s.1 ∧ s1.2.m_dataType = w.size * 8 ∧
      s1.2.m_data = encodeAll w xs ++ s.2.m_data.drop (xs.length * w.size)) ∨
   (8 < xs.length * w.size ∧
      (w = .qint8 ∨ ∃ x ∈ xs, ¬ InRange (w.bits / 2) (wrapSigned T.bits x)) ∧
      s1.1 = { blocks := s.1.blocks ++ [some (encodeAll w xs)],
               trace := s.1.trace ++ [HeapEvent.alloc s.1.blocks.length (xs.length * w.size)] } ∧
      s1.2.m_dataType = w.size * 8 ||| External ∧
      s1.2.m_data = storePtr s.1.blocks.length))

/-! ## Example states -/

/-- A heap in which nothing was ever allocated. -/
def emptyHeap : Heap := { blocks := [], trace := [] }

/-- The default-constructed record over the empty heap. -/
def defaultConfig : Config := { heap := emptyHeap, objs := [QmlEvent.init] }

/-- The record built from the eight `qint8` values 100, ..., 106, 0. -/
def bytesEvent : QmlEvent :=
  { m_timestamp := 0, m_duration := 0,
    m_data := [.byte 100, .byte 101, .byte 102, .byte 103, .byte 104, .byte 105, .byte 106,
      .byte 0],
    m_typeIndex := 0, m_dataType := 8, m_dataLength := 8 }

/-- The record `bytesEvent` over the empty heap. -/
def bytesConfig : Config := { heap := emptyHeap, objs := [bytesEvent] }

/-- The heap after the `qint32` values 1000, -5, 130000 were stored in block 0. -/
def externalHeap : Heap :=
  { blocks := [some [.byte 232, .byte 3, .byte 0, .byte 0, .byte 251, .byte 255, .byte 255,
      .byte 255, .byte 208, .byte 251, .byte 1, .byte 0]],
    trace := [HeapEvent.alloc 0 12] }

/-- The record built from the `qint32` values 1000, -5, 130000. -/
def externalEvent : QmlEvent :=
  { m_timestamp := 0, m_duration := 0, m_data := storePtr 0, m_typeIndex := 0,
    m_dataType := 33, m_dataLength := 3 }

/-- The record `externalEvent` over its heap. -/
def externalConfig : Config := { heap := externalHeap, objs := [externalEvent] }


/-! ## Vocabulary of the later statements -/

/-- State `s` holds a copy of record `r` of heap `h`: the same header, tag and
length, the same answer of `number` at every type and index, and, when `r` is
external, a block of its own with the bytes of the block of `r`, of
`len * (w / 8)` bytes. -/
def IsCopy (h : Heap) (r : QmlEvent) (s : St) : Prop :=
  s.2.m_timestamp = r.m_timestamp ∧ s.2.m_duration = r.m_duration ∧
  s.2.m_typeIndex = r.m_typeIndex ∧ s.2.m_dataType = r.m_dataType ∧
  s.2.m_dataLength = r.m_dataLength ∧
  (∀ (U : NumType) (i : Int), QmlEvent.number U s i = QmlEvent.number U (h, r) i) ∧
  (r.isExternal → ∃ (p q : Nat) (blk : List MemVal), Owns r p ∧ Owns s.2 q ∧ q ≠ p ∧
    h.blocks[p]? = some (some blk) ∧ s.1.blocks[p]? = some (some blk) ∧
    s.1.blocks[q]? = some (some blk) ∧
    blk.length = r.m_dataLength * (r.storedWidth / 8))

/-! ## The serialization codec -/

/-- Modelled from the spec: the bytes of one integer of type `T` in the
serialized form, its `sizeof(T)` bytes in a fixed (little-endian) order; the
codec of the record is not under src/. -/
def toWire (T : NumType) (v : Int) : List (Fin 256) :=
  toBytes T.size (v % (2 : Int) ^ T.bits).toNat

/-- Modelled from the spec: the element type that an `element_width_code` of
8, 16, 32 or 64 stands for; the codec of the record is not under src/. -/
def NumType.ofBits : Nat → Option NumType
  | 8 => some .qint8
  | 16 => some .qint16
  | 32 => some .qint32
  | 64 => some .qint64
  | _ => none

/-- Modelled from the spec: the payload of the serialized form, every element
at the width of the width code; the codec of the record is not under src/. -/
def payloadBytes (T : NumType) : List Int → List (Fin 256)
  | [] => []
  | v :: vs => toWire T v ++ payloadBytes T vs

/-- Modelled from the spec: `operator<<(QDataStream &, const QmlEvent &)`, which
qmlevent.h declares and no file under src/ defines. It returns the bytes written
to the stream, in the layout of the spec: timestamp (8 bytes), duration
(8 bytes), type index (4 bytes), element width code (1 byte, one of 8, 16, 32,
64), length (2 bytes, unsigned), then every element at the width of the code,
whether the record is inline or external. -/
def QmlEvent.operatorOut (s : St) : Except Fault (List (Fin 256)) :=
  match NumType.ofBits s.2.storedWidth with
  | none => .error .unreachable
  | some T =>
    match QmlEvent.numbers T s with
    | .error f => .error f
    | .ok vs =>
      .ok (toWire .qint64 s.2.m_timestamp ++ toWire .qint64 s.2.m_duration ++
        toWire .qint32 s.2.m_typeIndex ++ [Fin.ofNat T.bits] ++ toBytes 2 s.2.m_dataLength ++
        payloadBytes T vs)

/-- Modelled from the spec: reads `n` bytes from the stream; the codec of the
record is not under src/. -/
def takeBytes (n : Nat) (stream : List (Fin 256)) :
    Except Fault (List (Fin 256) × List (Fin 256)) :=
  if stream.length < n then .error .outOfBounds else .ok (stream.take n, stream.drop n)

/-- Modelled from the spec: reads `n` elements of type `T` from the stream; the
codec of the record is not under src/. -/
def readElements (T : NumType) : Nat → List (Fin 256) →
    Except Fault (List Int × List (Fin 256))
  | 0, stream => .ok ([], stream)
  | n + 1, stream =>
    match takeBytes T.size stream with
    | .error f => .error f
    | .ok (bs, stream1) =>
      match readElements T n stream1 with
      | .error f => .error f
      | .ok (vs, stream2) => .ok (decode T bs :: vs, stream2)

/-- Modelled from the spec: `operator>>(QDataStream &, QmlEvent &)`, which
qmlevent.h declares and no file under src/ defines. It reads the fields in the
order `operatorOut` writes them, sets the header of the record and assigns the
elements through the width selector, at the type of the width code; it returns
the new state and the rest of the stream. -/
def QmlEvent.operatorIn (stream : List (Fin 256)) (s : St) :
    Except Fault (St × List (Fin 256)) :=
  match takeBytes 8 stream with
  | .error f => .error f
  | .ok (timestamp, stream1) =>
    match takeBytes 8 stream1 with
    | .error f => .error f
    | .ok (duration, stream2) =>
      match takeBytes 4 stream2 with
      | .error f => .error f
      | .ok (typeIndex, stream3) =>
        match takeBytes 1 stream3 with
        | .error f => .error f
        | .ok (code, stream4) =>
          match NumType.ofBits (fromBytes code) with
          | none => .error .assertion
          | some T =>
            match takeBytes 2 stream4 with
            | .error f => .error f
            | .ok (len, stream5) =>
              match readElements T (fromBytes len) stream5 with
              | .error f => .error f
              | .ok (numbers, stream6) =>
                match QmlEvent.setNumbers T numbers (s.1,
                  { s.2 with m_timestamp := decode .qint64 timestamp,
                             m_duration := decode .qint64 duration,
                             m_typeIndex := decode .qint32 typeIndex }) with
                | .error f => .error f
                | .ok s1 => .ok (s1, stream6)

/-! ## More example states -/

/-- The heap after `externalEvent` was copied: block 1 holds the copied bytes. -/
def copiedHeap : Heap :=
  { blocks := [some [.byte 232, .byte 3, .byte 0, .byte 0, .byte 251, .byte 255, .byte 255,
      .byte 255, .byte 208, .byte 251, .byte 1, .byte 0],
      some [.byte 232, .byte 3, .byte 0, .byte 0, .byte 251, .byte 255, .byte 255,
      .byte 255, .byte 208, .byte 251, .byte 1, .byte 0]],
    trace := [HeapEvent.alloc 0 12, HeapEvent.alloc 1 12] }

/-- The copy of `externalEvent`. -/
def copiedEvent : QmlEvent :=
  { m_timestamp := 0, m_duration := 0, m_data := storePtr 1, m_typeIndex := 0,
    m_dataType := 33, m_dataLength := 3 }


/-! ## Vocabulary of the frame statements -/

/-- Records `e` and `e1` have the same timestamp, duration and type index. -/
def SameHeader (e e1 : QmlEvent) : Prop :=
  e1.m_timestamp = e.m_timestamp ∧ e1.m_duration = e.m_duration ∧
  e1.m_typeIndex = e.m_typeIndex

/-- Records `e` and `e1` have the same tag and length, and `number` returns the
same on both, over every heap, at every type and index. -/
def SamePayload (e e1 : QmlEvent) : Prop :=
  e1.m_dataType = e.m_dataType ∧ e1.m_dataLength = e.m_dataLength ∧
  ∀ (h : Heap) (U : NumType) (i : Int),
    QmlEvent.number U (h, e1) i = QmlEvent.number U (h, e) i

/-- An external record stores its values at the narrowest type that
represents them all: the type is `qint8`, or some value is not representable
at half the width. -/
def Tight (h : Heap) (e : QmlEvent) : Prop :=
  ∃ (T : NumType) (vs : List Int), Holds h e T vs ∧
    (e.isExternal → T = .qint8 ∨ ∃ v ∈ vs, ¬ InRange (T.bits / 2) v)

/-! ## Reference definition of the width selector -/

/-- The descending chain `W, W/2, ..., 8` of element types. -/
def NumType.chain : NumType → List NumType
  | .qint8 => [.qint8]
  | .qint16 => [.qint16, .qint8]
  | .qint32 => [.qint32, .qint16, .qint8]
  | .qint64 => [.qint64, .qint32, .qint16, .qint8]

/-- Reference, after the words of the spec: the selector stops at width `w`
when the `len` elements fit the 8 inline bytes at `w`, or `w` is 8, or some
element is not representable as a signed integer of `w / 2` bits. -/
def selectorStops (len : Nat) (xs : List Int) (w : NumType) : Bool :=
  decide (len * w.size ≤ 8) || decide (w = .qint8) ||
    xs.any (fun x => !decide (InRange (w.bits / 2) x))

/-- Reference, after the words of the spec: the stored width for a container
`xs` of source type `W` is the first width of the chain `W, W/2, ..., 8` at
which the selector stops, with `len = min(|xs|, 65535)`. -/
def referenceWidth (W : NumType) (xs : List Int) : NumType :=
  (W.chain.find? (selectorStops (min xs.length 65535) xs)).getD .qint8

/-- Reference, after the words of the spec: the flag `External` is set exactly
when `len * (w / 8) > 8` at the selected width. -/
def referenceExternal (W : NumType) (xs : List Int) : Bool :=
  decide (8 < min xs.length 65535 * (referenceWidth W xs).size)

/-! ## Vocabulary of the ownership statements -/

/-- The states a program reaches that starts with no record over heap `h0`:
the relation `Reachable`, with the heap of the start named. -/
inductive ReachableFrom (h0 : Heap) : Config → Prop
  | start : ReachableFrom h0 { heap := h0, objs := [] }
  | construct {c : Config} (ctor : Ctor) (s : St) :
      ReachableFrom h0 c → ctor.run c.heap = .ok s →
      ReachableFrom h0 { heap := s.1, objs := c.objs ++ [s.2] }
  | copy {c : Config} (k : Nat) (other : QmlEvent) (s : St) :
      ReachableFrom h0 c → c.objs[k]? = some other → QmlEvent.copy other c.heap = .ok s →
      ReachableFrom h0 { heap := s.1, objs := c.objs ++ [s.2] }
  | call {c : Config} (k : Nat) (e : QmlEvent) (m : Method) (s : St) :
      ReachableFrom h0 c → c.objs[k]? = some e → m.run (c.heap, e) = .ok s →
      ReachableFrom h0 { heap := s.1, objs := c.objs.set k s.2 }
  | assign {c : Config} (k j : Nat) (e other : QmlEvent) (s : St) :
      ReachableFrom h0 c → c.objs[k]? = some e → c.objs[j]? = some other → j ≠ k →
      QmlEvent.assign other (c.heap, e) = .ok s →
      ReachableFrom h0 { heap := s.1, objs := c.objs.set k s.2 }
  | destroy {c : Config} (k : Nat) (e : QmlEvent) (h : Heap) :
      ReachableFrom h0 c → c.objs[k]? = some e → QmlEvent.destroy (c.heap, e) = .ok h →
      ReachableFrom h0 { heap := h, objs := c.objs.eraseIdx k }

/-- The blocks the record owns: the block its union points to when the flag
`External` is set, none when the flag is clear. -/
def QmlEvent.owned (e : QmlEvent) : List Nat :=
  if e.m_dataType &&& External ≠ 0 then
    match loadPtr e.m_data with
    | .ok p => [p]
    | .error _ => []
  else []

/-- The blocks the records of a list own, record by record. -/
def ownedBy : List QmlEvent → List Nat
  | [] => []
  | e :: es => e.owned ++ ownedBy es

/-- The calls of `free` that release what the record owns. -/
def released (e : QmlEvent) : List HeapEvent :=
  e.owned.map HeapEvent.free

/-- The calls of `malloc` that return what the record owns: a block of
`m_dataLength` elements of the size the tag says. -/
def acquired (e : QmlEvent) : List HeapEvent :=
  e.owned.map (fun p => HeapEvent.alloc p (e.m_dataLength * (e.m_dataType / 8)))

/-- The live allocations after one more event. -/
def HeapEvent.apply (live : List Nat) : HeapEvent → List Nat
  | .alloc p _ => live ++ [p]
  | .free p => live.erase p

/-- The live allocations after trace `t`, from the live allocations `live`. -/
def liveAfter (live : List Nat) (t : List HeapEvent) : List Nat :=
  t.foldl HeapEvent.apply live

/-- Trace `t` is disciplined from the live allocations `live`: every `free`
releases a live allocation (no block is freed twice, none that was not
allocated), and `malloc` returns no block that is live. -/
def disciplined : List Nat → List HeapEvent → Bool
  | _, [] => true
  | live, .alloc p size :: t =>
    !live.contains p && disciplined (HeapEvent.apply live (.alloc p size)) t
  | live, .free p :: t =>
    live.contains p && disciplined (HeapEvent.apply live (.free p)) t

/-- The step from record `e` over heap `h` to state `s` releases what `e`
owns and then acquires what the record of `s` owns, a block that is new. -/
def Replaces (h : Heap) (e : QmlEvent) (s : St) : Prop :=
  s.1.trace = h.trace ++ released e ++ acquired s.2 ∧
  ∀ p ∈ s.2.owned, p = h.blocks.length

/-- The run from heap `h0` to state `c` kept the discipline of the heap: the
trace of `c` is the trace of `h0` and then a disciplined trace `t`, and the
allocations live after `t` are the blocks the records of `c` own, each once. -/
def Tracked (h0 : Heap) (c : Config) : Prop :=
  ∃ t, c.heap.trace = h0.trace ++ t ∧ disciplined [] t = true ∧
    (liveAfter [] t).Perm (ownedBy c.objs) ∧ (ownedBy c.objs).Nodup


/-! ## Arithmetic of the integer conversions -/

theorem NumType.bits_pos (T : NumType) : 0 < T.bits := by
  cases T <;> decide

theorem NumType.size_pos (T : NumType) : 0 < T.size := by
  cases T <;> decide

theorem NumType.pow_size (T : NumType) : 256 ^ T.size = 2 ^ T.bits := by
  cases T <;> decide

theorem two_pow_pred (bits : Nat) (hb : 0 < bits) :
    (2 : Int) ^ bits = 2 * (2 : Int) ^ (bits - 1) := by
  obtain ⟨k, rfl⟩ : ∃ k, bits = k + 1 := ⟨bits - 1, by omega⟩
  simp [pow_succ, mul_comm]

theorem wrapSigned_inRange (bits : Nat) (hb : 0 < bits) (x : Int) :
    InRange bits (wrapSigned bits x) := by
  have h2 := two_pow_pred bits hb
  have hpos : (0 : Int) < (2 : Int) ^ (bits - 1) := by positivity
  have hm0 : 0 ≤ x % (2 : Int) ^ bits := Int.emod_nonneg _ (by positivity)
  have hm1 : x % (2 : Int) ^ bits < (2 : Int) ^ bits := Int.emod_lt_of_pos _ (by positivity)
  unfold InRange wrapSigned
  simp only
  split <;> constructor <;> omega

theorem wrapSigned_of_inRange (bits : Nat) (hb : 0 < bits) (x : Int) (hx : InRange bits x) :
    wrapSigned bits x = x := by
  have h2 := two_pow_pred bits hb
  have hpos : (0 : Int) < (2 : Int) ^ (bits - 1) := by positivity
  obtain ⟨hlo, hhi⟩ := hx
  unfold wrapSigned
  simp only
  by_cases hx0 : 0 ≤ x
  · have : x % (2 : Int) ^ bits = x := Int.emod_eq_of_lt hx0 (by omega)
    rw [this, if_pos hhi]
  · have : x % (2 : Int) ^ bits = x + (2 : Int) ^ bits := by
      have h1 : (x + (2 : Int) ^ bits) % (2 : Int) ^ bits = x + (2 : Int) ^ bits :=
        Int.emod_eq_of_lt (by omega) (by omega)
      rw [← h1, Int.add_emod_self]
    rw [this, if_neg (by omega)]
    omega

theorem wrapSigned_eq_self_iff (bits : Nat) (hb : 0 < bits) (x : Int) :
    wrapSigned bits x = x ↔ InRange bits x := by
  constructor
  · intro h
    rw [← h]
    exact wrapSigned_inRange bits hb x
  · exact wrapSigned_of_inRange bits hb x

theorem squeezable_iff (small : NumType) (x : Int) :
    squeezable small x = true ↔ InRange small.bits x := by
  unfold squeezable
  rw [beq_iff_eq]
  exact wrapSigned_eq_self_iff _ small.bits_pos x

theorem wrapSigned_emod (bits : Nat) (x : Int) :
    wrapSigned bits (x % (2 : Int) ^ bits) = wrapSigned bits x := by
  unfold wrapSigned
  simp only [Int.emod_emod_of_dvd _ (dvd_refl _)]

theorem wrapSigned_idem (bits : Nat) (hb : 0 < bits) (x : Int) :
    wrapSigned bits (wrapSigned bits x) = wrapSigned bits x :=
  wrapSigned_of_inRange bits hb _ (wrapSigned_inRange bits hb x)

theorem wrapSigned_emod_eq (bits : Nat) (x : Int) :
    wrapSigned bits x % (2 : Int) ^ bits = x % (2 : Int) ^ bits := by
  unfold wrapSigned
  simp only
  split
  · exact Int.emod_emod_of_dvd _ (dvd_refl _)
  · rw [Int.sub_emod, Int.emod_self, sub_zero, Int.emod_emod_of_dvd _ (dvd_refl _),
      Int.emod_emod_of_dvd _ (dvd_refl _)]

theorem InRange.mono {a b : Nat} (hab : a ≤ b) (ha : 0 < a) {x : Int} (hx : InRange a x) :
    InRange b x := by
  have hle : (2 : Int) ^ (a - 1) ≤ (2 : Int) ^ (b - 1) :=
    pow_le_pow_right₀ (by norm_num) (by omega)
  obtain ⟨h1, h2⟩ := hx
  constructor <;> omega

/-! ## Bytes -/

theorem toBytes_length (n v : Nat) : (toBytes n v).length = n := by
  induction n generalizing v with
  | zero => rfl
  | succ n ih => simp [toBytes, ih]

theorem fromBytes_toBytes (n v : Nat) : fromBytes (toBytes n v) = v % 256 ^ n := by
  induction n generalizing v with
  | zero => simp [toBytes, fromBytes, Nat.mod_one]
  | succ n ih =>
    simp only [toBytes, fromBytes, ih]
    have h1 : (Fin.ofNat (v % 256) : Fin 256).val = v % 256 := by
      simp [Fin.ofNat]
    rw [h1, pow_succ, mul_comm (256 ^ n) 256, Nat.mod_mul]

theorem fromBytes_lt (bs : List (Fin 256)) : fromBytes bs < 256 ^ bs.length := by
  induction bs with
  | nil => simp [fromBytes]
  | cons b bs ih =>
    simp only [fromBytes, List.length_cons, pow_succ]
    have := b.isLt
    omega

theorem encode_length (T : NumType) (v : Int) : (encode T v).length = T.size := by
  simp [encode, toBytes_length]

theorem initialised_map_byte (bs : List (Fin 256)) :
    initialised (bs.map MemVal.byte) = .ok bs := by
  induction bs with
  | nil => rfl
  | cons b bs ih => simp [initialised, ih]

theorem decode_toBytes (T : NumType) (v : Int) :
    decode T (toBytes T.size (v % (2 : Int) ^ T.bits).toNat) = wrapSigned T.bits v := by
  unfold decode
  rw [fromBytes_toBytes, T.pow_size]
  have hm0 : 0 ≤ v % (2 : Int) ^ T.bits := Int.emod_nonneg _ (by positivity)
  have hm1 : v % (2 : Int) ^ T.bits < (2 : Int) ^ T.bits := Int.emod_lt_of_pos _ (by positivity)
  have hlt : (v % (2 : Int) ^ T.bits).toNat < 2 ^ T.bits := by
    have : ((2 ^ T.bits : Nat) : Int) = (2 : Int) ^ T.bits := by push_cast; rfl
    omega
  rw [Nat.mod_eq_of_lt hlt, Int.toNat_of_nonneg hm0, wrapSigned_emod]


/-! ## Reads and writes of numbers -/

theorem encodeAll_length (T : NumType) (vs : List Int) :
    (encodeAll T vs).length = vs.length * T.size := by
  induction vs with
  | nil => simp [encodeAll]
  | cons v vs ih => simp [encodeAll, encode_length, ih]; ring

theorem encodeAll_append (T : NumType) (us vs : List Int) :
    encodeAll T (us ++ vs) = encodeAll T us ++ encodeAll T vs := by
  induction us with
  | nil => simp [encodeAll]
  | cons u us ih => simp [encodeAll, ih]

theorem encode_congr (T : NumType) (u v : Int)
    (h : u % (2 : Int) ^ T.bits = v % (2 : Int) ^ T.bits) : encode T u = encode T v := by
  unfold encode
  rw [h]

theorem encode_wrapSigned (T : NumType) (v : Int) :
    encode T (wrapSigned T.bits v) = encode T v :=
  encode_congr T _ _ (wrapSigned_emod_eq _ _)

theorem writeNumber_append (T : NumType) (pre old rest : List MemVal) (i : Nat) (v : Int)
    (hpre : pre.length = i * T.size) (hold : old.length = T.size) :
    writeNumber T (pre ++ old ++ rest) i v = .ok (pre ++ encode T v ++ rest) := by
  unfold writeNumber
  have hlen : ¬ (pre ++ old ++ rest).length < (i + 1) * T.size := by
    simp only [List.length_append, hpre, hold]
    have : (i + 1) * T.size = i * T.size + T.size := by ring
    omega
  rw [if_neg hlen]
  have h1 : (pre ++ old ++ rest).take (i * T.size) = pre := by
    rw [List.append_assoc]
    exact List.take_left' hpre
  have h2 : (pre ++ old ++ rest).drop ((i + 1) * T.size) = rest := by
    apply List.drop_left'
    simp only [List.length_append, hpre, hold]
    ring
  rw [h1, h2]

theorem storeNumbers_append (T : NumType) (xs : List Int) :
    ∀ (i : Nat) (pre old rest : List MemVal), i + xs.length ≤ 65536 →
      pre.length = i * T.size → old.length = xs.length * T.size →
      QmlEvent.storeNumbers T xs i (pre ++ old ++ rest) = .ok (pre ++ encodeAll T xs ++ rest) := by
  induction xs with
  | nil =>
    intro i pre old rest _ _ hold
    have : old = [] := List.length_eq_zero.mp (by simpa using hold)
    subst this
    simp [QmlEvent.storeNumbers, encodeAll]
  | cons x xs ih =>
    intro i pre old rest hi hpre hold
    have hsplit : old = old.take T.size ++ old.drop T.size := (List.take_append_drop _ _).symm
    have hl1 : (old.take T.size).length = T.size := by
      rw [List.length_take, hold]
      simp only [List.length_cons]
      have : (xs.length + 1) * T.size = xs.length * T.size + T.size := by ring
      omega
    have hl2 : (old.drop T.size).length = xs.length * T.size := by
      rw [List.length_drop, hold]
      simp only [List.length_cons]
      have : (xs.length + 1) * T.size = xs.length * T.size + T.size := by ring
      omega
    have hw : writeNumber T (pre ++ old ++ rest) i (wrapSigned T.bits x) =
        .ok (pre ++ encode T x ++ (old.drop T.size ++ rest)) := by
      have := writeNumber_append T pre (old.take T.size) (old.drop T.size ++ rest) i
        (wrapSigned T.bits x) hpre hl1
      rw [encode_wrapSigned] at this
      rw [← this]
      congr 1
      rw [List.append_assoc, List.append_assoc, ← List.append_assoc (old.take T.size),
        List.take_append_drop]
    simp only [QmlEvent.storeNumbers, hw]
    by_cases hxs : xs = []
    · subst hxs
      have : old.drop T.size = [] := List.length_eq_zero.mp (by simpa using hl2)
      simp [QmlEvent.storeNumbers, encodeAll, this]
    · have hpos : 0 < xs.length := List.length_pos.mpr hxs
      simp only [List.length_cons] at hi
      have hmod : (i + 1) % 65536 = i + 1 := Nat.mod_eq_of_lt (by omega)
      rw [hmod]
      have := ih (i + 1) (pre ++ encode T x) (old.drop T.size) rest (by omega)
        (by simp [hpre, encode_length]; ring) hl2
      rw [List.append_assoc (pre ++ encode T x)] at this
      rw [this]
      simp [encodeAll]

theorem storeNumbers_zero (T : NumType) (xs : List Int) (mem : List MemVal)
    (hxs : xs.length ≤ 65536) (hmem : xs.length * T.size ≤ mem.length) :
    QmlEvent.storeNumbers T xs 0 mem =
      .ok (encodeAll T xs ++ mem.drop (xs.length * T.size)) := by
  have := storeNumbers_append T xs 0 [] (mem.take (xs.length * T.size))
    (mem.drop (xs.length * T.size)) (by omega) (by simp)
    (by rw [List.length_take]; omega)
  simpa using this

theorem readNumber_append (T : NumType) (pre rest : List MemVal) (i : Nat) (v : Int)
    (hpre : pre.length = i * T.size) :
    readNumber T (pre ++ encode T v ++ rest) (i : Int) = .ok (wrapSigned T.bits v) := by
  unfold readNumber
  have h0 : ¬ ((i : Int) < 0) := by omega
  rw [if_neg h0]
  simp only [Int.toNat_ofNat]
  have hlen : ¬ (pre ++ encode T v ++ rest).length < (i + 1) * T.size := by
    simp only [List.length_append, hpre, encode_length]
    have : (i + 1) * T.size = i * T.size + T.size := by ring
    omega
  rw [if_neg hlen]
  have h1 : ((pre ++ encode T v ++ rest).drop (i * T.size)).take T.size = encode T v := by
    rw [List.append_assoc, List.drop_left' hpre]
    exact List.take_left' (encode_length T v)
  rw [h1]
  unfold encode
  rw [initialised_map_byte]
  simp only
  rw [decode_toBytes]

theorem readNumber_encodeAll (T : NumType) (vs : List Int) (rest : List MemVal) (i : Nat)
    (hi : i < vs.length) :
    readNumber T (encodeAll T vs ++ rest) (i : Int) = .ok (wrapSigned T.bits (vs.get ⟨i, hi⟩)) := by
  have hsplit : vs = vs.take i ++ vs.get ⟨i, hi⟩ :: vs.drop (i + 1) := by
    rw [List.get_eq_getElem, ← List.drop_eq_getElem_cons hi, List.take_append_drop]
  have henc : encodeAll T vs ++ rest =
      encodeAll T (vs.take i) ++ encode T (vs.get ⟨i, hi⟩) ++
        (encodeAll T (vs.drop (i + 1)) ++ rest) := by
    conv_lhs => rw [hsplit]
    simp only [encodeAll_append, encodeAll, List.append_assoc]
  rw [henc]
  apply readNumber_append
  rw [encodeAll_length, List.length_take]
  congr 1
  omega


/-! ## Pointers and the heap -/

theorem storePtr_eq (p : Nat) :
    storePtr p = [.ptr p 0, .ptr p 1, .ptr p 2, .ptr p 3, .ptr p 4, .ptr p 5, .ptr p 6,
      .ptr p 7] := rfl

theorem storePtr_length (p : Nat) : (storePtr p).length = 8 := rfl

theorem loadPtr_storePtr (p : Nat) : loadPtr (storePtr p) = .ok p := by
  rw [storePtr_eq]
  unfold loadPtr
  simp [storePtr_eq]

theorem storePtr_inj {p q : Nat} (h : storePtr p = storePtr q) : p = q := by
  rw [storePtr_eq, storePtr_eq] at h
  simp at h
  exact h

theorem loadPtr_eq_ok {mem : List MemVal} {p : Nat} (h : loadPtr mem = .ok p) :
    mem = storePtr p := by
  unfold loadPtr at h
  split at h
  · split at h
    · rename_i heq
      cases h
      exact heq
    · cases h
  · cases h

theorem Heap.load_malloc (h : Heap) (n : Nat) :
    (h.malloc n).2.load (h.malloc n).1 = .ok (List.replicate n MemVal.undef) := by
  simp [Heap.malloc, Heap.load]

theorem Heap.store_malloc (h : Heap) (n : Nat) (blk : List MemVal) :
    (h.malloc n).2.store (h.malloc n).1 blk =
      .ok { blocks := h.blocks ++ [some blk],
            trace := h.trace ++ [HeapEvent.alloc h.blocks.length n] } := by
  simp [Heap.malloc, Heap.store]

/-! ## The width selector -/

theorem Assigned.congr {T : NumType} {xs : List Int} {s s' s1 : St} {w : NumType}
    (h : Assigned T xs s s1 w) (h1 : s'.1 = s.1) (h2 : s'.2.m_timestamp = s.2.m_timestamp)
    (h3 : s'.2.m_duration = s.2.m_duration) (h4 : s'.2.m_typeIndex = s.2.m_typeIndex)
    (h5 : s'.2.m_data = s.2.m_data) : Assigned T xs s' s1 w := by
  unfold Assigned at *
  rw [h1, h2, h3, h4, h5]
  exact h

theorem encodeAll_congr (T : NumType) (xs : List Int) (f : Int → Int)
    (hf : ∀ x ∈ xs, f x % (2 : Int) ^ T.bits = x % (2 : Int) ^ T.bits) :
    encodeAll T (xs.map f) = encodeAll T xs := by
  induction xs with
  | nil => rfl
  | cons x xs ih =>
    simp only [List.map_cons, encodeAll]
    rw [encode_congr T _ _ (hf x (List.mem_cons_self _ _)),
      ih (fun y hy => hf y (List.mem_cons_of_mem _ hy))]

theorem storeNumbers_encodeAll (T : NumType) (xs : List Int) (mem : List MemVal)
    (hxs : xs.length ≤ 65536) (hmem : xs.length * T.size ≤ mem.length) :
    QmlEvent.storeNumbers T xs 0 mem =
      .ok (encodeAll T xs ++ mem.drop (xs.length * T.size)) :=
  storeNumbers_zero T xs mem hxs hmem

theorem squeezableSize_of_le {n : Nat} (h : n ≤ 65535) : squeezableSize n = true := by
  unfold squeezableSize
  rw [beq_iff_eq]
  exact Nat.mod_eq_of_lt (by omega)

theorem assignNumbersWith_spec (T : NumType)
    (squeeze : List Int → St → Except Fault (Bool × St)) (xs : List Int) (s : St)
    (hdata : s.2.m_data.length = 8) (hlen : xs.length ≤ 65535)
    (hsq : 8 < xs.length * T.size →
      (squeeze xs (s.1, { s.2 with m_dataLength := xs.length }) =
          .ok (false, (s.1, { s.2 with m_dataLength := xs.length })) ∧
        (T = .qint8 ∨ ∃ x ∈ xs, ¬ InRange (T.bits / 2) (wrapSigned T.bits x))) ∨
      (∃ s1 w, squeeze xs (s.1, { s.2 with m_dataLength := xs.length }) = .ok (true, s1) ∧
        Assigned T xs s s1 w)) :
    ∃ s1 w, QmlEvent.assignNumbersWith T squeeze xs s = .ok s1 ∧ Assigned T xs s s1 w := by
  have hmod : xs.length % 65536 = xs.length := Nat.mod_eq_of_lt (by omega)
  have hin : ∀ x ∈ xs, InRange T.bits (wrapSigned T.bits x) :=
    fun x _ => wrapSigned_inRange _ T.bits_pos x
  unfold QmlEvent.assignNumbersWith
  simp only [squeezableSize_of_le hlen, if_true, hmod]
  by_cases hover : xs.length > s_internalDataLength / T.size
  · have hover' : 8 < xs.length * T.size := by
      revert hover
      cases T <;> simp [s_internalDataLength, NumType.size] <;> omega
    rw [if_pos hover]
    rcases hsq hover' with ⟨hfalse, hwhy⟩ | ⟨s1, w, htrue, hass⟩
    · rw [hfalse]
      simp only
      rw [loadPtr_storePtr]
      simp only
      rw [Heap.load_malloc]
      simp only
      rw [storeNumbers_encodeAll T xs _ (by omega) (by simp)]
      simp only
      rw [Heap.store_malloc]
      refine ⟨_, T, rfl, ?_⟩
      refine ⟨le_refl _, hin, rfl, rfl, rfl, rfl, Or.inr ⟨hover', hwhy, ?_, rfl, rfl⟩⟩
      simp
    · rw [htrue]
      exact ⟨s1, w, rfl, hass⟩
  · have hfit : xs.length * T.size ≤ 8 := by
      revert hover
      cases T <;> simp [s_internalDataLength, NumType.size] <;> omega
    rw [if_neg hover]
    have hflag : ¬ (T.size * 8 &&& External ≠ 0) := by
      cases T <;> decide
    simp only [hflag, if_false]
    rw [storeNumbers_encodeAll T xs _ (by omega) (by omega)]
    exact ⟨_, T, rfl, le_refl _, hin, rfl, rfl, rfl, rfl,
      Or.inl ⟨hfit, Or.inl rfl, rfl, rfl, rfl⟩⟩


theorem wrapSigned_congr (bits : Nat) (x y : Int)
    (h : x % (2 : Int) ^ bits = y % (2 : Int) ^ bits) : wrapSigned bits x = wrapSigned bits y := by
  unfold wrapSigned
  rw [h]

theorem wrapSigned_emod_le (a b : Nat) (hab : a ≤ b) (x : Int) :
    wrapSigned b x % (2 : Int) ^ a = x % (2 : Int) ^ a := by
  have hdvd : (2 : Int) ^ a ∣ (2 : Int) ^ b := pow_dvd_pow 2 hab
  rw [← Int.emod_emod_of_dvd (wrapSigned b x) hdvd, wrapSigned_emod_eq,
    Int.emod_emod_of_dvd x hdvd]

theorem wrapSigned_wrapSigned_of_le (a b : Nat) (hab : a ≤ b) (x : Int) :
    wrapSigned a (wrapSigned b x) = wrapSigned a x :=
  wrapSigned_congr a _ _ (wrapSigned_emod_le a b hab x)

theorem NumType.bits_le_of_size_le {a b : NumType} (h : a.size ≤ b.size) : a.bits ≤ b.bits := by
  unfold NumType.bits
  omega

theorem squeezeWith_spec (T small : NumType) (hsz : T.size = 2 * small.size)
    (assignSmall : List Int → St → Except Fault St) (xs : List Int) (s : St)
    (hover : 8 < xs.length * T.size)
    (hassign : ∃ s1 w, assignSmall xs s = .ok s1 ∧ Assigned small xs s s1 w) :
    (QmlEvent.squeezeWith T small assignSmall xs s = .ok (false, s) ∧
      (T = .qint8 ∨ ∃ x ∈ xs, ¬ InRange (T.bits / 2) (wrapSigned T.bits x))) ∨
    (∃ s1 w, QmlEvent.squeezeWith T small assignSmall xs s = .ok (true, s1) ∧
      Assigned T xs s s1 w) := by
  have hbits : T.bits / 2 = small.bits := by
    unfold NumType.bits
    omega
  have hle : small.bits ≤ T.bits := by
    unfold NumType.bits
    omega
  unfold QmlEvent.squeezeWith
  by_cases hall : (xs.all fun item => squeezable small (wrapSigned T.bits item)) = true
  · right
    rw [if_pos hall]
    obtain ⟨s1, w, hrun, hw, hin, h1, h2, h3, h4, hcase⟩ := hassign
    rw [List.all_eq_true] at hall
    have hsame : ∀ x ∈ xs, wrapSigned small.bits x = wrapSigned T.bits x := by
      intro x hx
      rw [← wrapSigned_wrapSigned_of_le small.bits T.bits hle x]
      exact wrapSigned_of_inRange _ small.bits_pos _ ((squeezable_iff small _).mp (hall x hx))
    refine ⟨s1, w, by rw [hrun], by omega, ?_, h1, h2, h3, h4, ?_⟩
    · intro x hx
      rw [← hsame x hx]
      exact hin x hx
    · rcases hcase with ⟨hfit, hwhy, hrest⟩ | ⟨hbig, hwhy, hrest⟩
      · refine Or.inl ⟨hfit, ?_, hrest⟩
        rcases hwhy with rfl | h
        · right
          rw [← hsz]
          exact hover
        · exact Or.inr h
      · refine Or.inr ⟨hbig, ?_, hrest⟩
        rcases hwhy with h | ⟨x, hx, hnot⟩
        · exact Or.inl h
        · exact Or.inr ⟨x, hx, by rw [← hsame x hx]; exact hnot⟩
  · left
    rw [if_neg hall]
    refine ⟨rfl, Or.inr ?_⟩
    rw [List.all_eq_true] at hall
    push_neg at hall
    obtain ⟨x, hx, hnot⟩ := hall
    refine ⟨x, hx, ?_⟩
    rw [hbits]
    intro hin
    exact hnot ((squeezable_iff small _).mpr hin)

theorem assignNumbers8_spec (xs : List Int) (s : St)
    (hdata : s.2.m_data.length = 8) (hlen : xs.length ≤ 65535) :
    ∃ s1 w, QmlEvent.assignNumbers8 xs s = .ok s1 ∧ Assigned .qint8 xs s s1 w :=
  assignNumbersWith_spec .qint8 QmlEvent.squeeze8 xs s hdata hlen
    (fun _ => Or.inl ⟨rfl, Or.inl rfl⟩)

theorem assignNumbers16_spec (xs : List Int) (s : St)
    (hdata : s.2.m_data.length = 8) (hlen : xs.length ≤ 65535) :
    ∃ s1 w, QmlEvent.assignNumbers16 xs s = .ok s1 ∧ Assigned .qint16 xs s s1 w := by
  apply assignNumbersWith_spec .qint16 QmlEvent.squeeze16 xs s hdata hlen
  intro hover
  rcases squeezeWith_spec .qint16 .qint8 rfl QmlEvent.assignNumbers8 xs
      (s.1, { s.2 with m_dataLength := xs.length }) hover
      (assignNumbers8_spec xs _ hdata hlen) with h | ⟨s1, w, hrun, hass⟩
  · exact Or.inl h
  · exact Or.inr ⟨s1, w, hrun, hass.congr rfl rfl rfl rfl rfl⟩

theorem assignNumbers32_spec (xs : List Int) (s : St)
    (hdata : s.2.m_data.length = 8) (hlen : xs.length ≤ 65535) :
    ∃ s1 w, QmlEvent.assignNumbers32 xs s = .ok s1 ∧ Assigned .qint32 xs s s1 w := by
  apply assignNumbersWith_spec .qint32 QmlEvent.squeeze32 xs s hdata hlen
  intro hover
  rcases squeezeWith_spec .qint32 .qint16 rfl QmlEvent.assignNumbers16 xs
      (s.1, { s.2 with m_dataLength := xs.length }) hover
      (assignNumbers16_spec xs _ hdata hlen) with h | ⟨s1, w, hrun, hass⟩
  · exact Or.inl h
  · exact Or.inr ⟨s1, w, hrun, hass.congr rfl rfl rfl rfl rfl⟩

theorem assignNumbers64_spec (xs : List Int) (s : St)
    (hdata : s.2.m_data.length = 8) (hlen : xs.length ≤ 65535) :
    ∃ s1 w, QmlEvent.assignNumbers64 xs s = .ok s1 ∧ Assigned .qint64 xs s s1 w := by
  apply assignNumbersWith_spec .qint64 QmlEvent.squeeze64 xs s hdata hlen
  intro hover
  rcases squeezeWith_spec .qint64 .qint32 rfl QmlEvent.assignNumbers32 xs
      (s.1, { s.2 with m_dataLength := xs.length }) hover
      (assignNumbers32_spec xs _ hdata hlen) with h | ⟨s1, w, hrun, hass⟩
  · exact Or.inl h
  · exact Or.inr ⟨s1, w, hrun, hass.congr rfl rfl rfl rfl rfl⟩

/-- The width selector returns, and leaves the values at a selected type. -/
theorem assignNumbers_spec (T : NumType) (xs : List Int) (s : St)
    (hdata : s.2.m_data.length = 8) (hlen : xs.length ≤ 65535) :
    ∃ s1 w, QmlEvent.assignNumbers T xs s = .ok s1 ∧ Assigned T xs s s1 w := by
  cases T
  · exact assignNumbers8_spec xs s hdata hlen
  · exact assignNumbers16_spec xs s hdata hlen
  · exact assignNumbers32_spec xs s hdata hlen
  · exact assignNumbers64_spec xs s hdata hlen


/-! ## Records that store a list of values -/

theorem tag_inline (T : NumType) : ¬ (T.size * 8 &&& External ≠ 0) := by
  cases T <;> decide

theorem tag_external (T : NumType) : (T.size * 8 ||| External) &&& External ≠ 0 := by
  cases T <;> decide

theorem Holds.isExternal_iff {h : Heap} {e : QmlEvent} {T : NumType} {vs : List Int}
    (hh : Holds h e T vs) : e.isExternal ↔ 8 < vs.length * T.size := by
  obtain ⟨_, _, _, _, ⟨htag, hfit, _⟩ | ⟨htag, hbig, _⟩⟩ := hh
  · unfold QmlEvent.isExternal
    rw [htag]
    constructor
    · intro h1
      exact absurd h1 (tag_inline T)
    · intro h1
      omega
  · unfold QmlEvent.isExternal
    rw [htag]
    exact ⟨fun _ => hbig, fun _ => tag_external T⟩

theorem Holds.ownedBlock {h : Heap} {e : QmlEvent} {T : NumType} {vs : List Int}
    (hh : Holds h e T vs) {p : Nat} (hp : Owns e p) :
    h.blocks[p]? = some (some (encodeAll T vs)) := by
  have hext := hh.isExternal_iff.mp hp.1
  obtain ⟨_, _, _, _, ⟨_, hfit, _⟩ | ⟨_, _, q, hq, hblk⟩⟩ := hh
  · omega
  · have : p = q := storePtr_inj (hp.2.symm.trans hq)
    rw [this]
    exact hblk

theorem Holds.owns_lt {h : Heap} {e : QmlEvent} {T : NumType} {vs : List Int}
    (hh : Holds h e T vs) {p : Nat} (hp : Owns e p) : p < h.blocks.length := by
  have := hh.ownedBlock hp
  by_contra hge
  rw [List.getElem?_eq_none (by omega)] at this
  cases this

theorem Holds.frame {h h1 : Heap} {e : QmlEvent} {T : NumType} {vs : List Int}
    {own : Nat → Prop} (hh : Holds h e T vs) (hk : h.Keeps h1 own)
    (hown : ∀ p, Owns e p → ¬ own p) : Holds h1 e T vs := by
  have hext := hh.isExternal_iff
  obtain ⟨h1', h2, h3, h4, hin | ⟨htag, hbig, q, hq, hblk⟩⟩ := hh
  · exact ⟨h1', h2, h3, h4, Or.inl hin⟩
  · refine ⟨h1', h2, h3, h4, Or.inr ⟨htag, hbig, q, hq, ?_⟩⟩
    exact hk q _ hblk (hown q ⟨hext.mpr hbig, hq⟩)

theorem Holds.header {h : Heap} {e e1 : QmlEvent} {T : NumType} {vs : List Int}
    (hh : Holds h e T vs) (h1 : e1.m_data = e.m_data) (h2 : e1.m_dataType = e.m_dataType)
    (h3 : e1.m_dataLength = e.m_dataLength) : Holds h e1 T vs := by
  unfold Holds at *
  rw [h1, h2, h3]
  exact hh

theorem Assigned.toHolds {T : NumType} {xs : List Int} {s s1 : St} {w : NumType}
    (ha : Assigned T xs s s1 w) (hdata : s.2.m_data.length = 8) (hlen : xs.length ≤ 65535) :
    Holds s1.1 s1.2 w (xs.map (wrapSigned T.bits)) := by
  obtain ⟨hw, hin, _, _, _, hl, hcase⟩ := ha
  have henc : encodeAll w (xs.map (wrapSigned T.bits)) = encodeAll w xs :=
    encodeAll_congr w xs _ (fun x _ =>
      wrapSigned_emod_le w.bits T.bits (NumType.bits_le_of_size_le hw) x)
  refine ⟨by simpa using hl, by simpa using hlen, ?_, ?_, ?_⟩
  · intro v hv
    rw [List.mem_map] at hv
    obtain ⟨x, hx, rfl⟩ := hv
    exact hin x hx
  · rcases hcase with ⟨hfit, _, _, _, hd⟩ | ⟨_, _, _, _, hd⟩
    · rw [hd, List.length_append, encodeAll_length, List.length_drop, hdata]
      omega
    · rw [hd]
      rfl
  · rcases hcase with ⟨hfit, _, _, htag, hd⟩ | ⟨hbig, _, hheap, htag, hd⟩
    · exact Or.inl ⟨htag, by simpa using hfit, _, by rw [henc]; exact hd⟩
    · refine Or.inr ⟨htag, by simpa using hbig, _, hd, ?_⟩
      rw [hheap, henc]
      simp

theorem number_ge (U : NumType) (s : St) (i : Int) (hi : (s.2.m_dataLength : Int) ≤ i) :
    QmlEvent.number U s i = .ok 0 := by
  unfold QmlEvent.number
  rw [if_pos hi]

theorem number_inline (T U : NumType) (s : St) (i : Int) (hi : i < s.2.m_dataLength)
    (htag : s.2.m_dataType = T.size * 8) :
    QmlEvent.number U s i = (readNumber T s.2.m_data i).map (wrapSigned U.bits) := by
  unfold QmlEvent.number
  rw [if_neg (by omega), htag]
  cases T <;>
    simp [NumType.size, Inline8Bit, Inline16Bit, Inline32Bit, Inline64Bit, External8Bit,
      External16Bit, External32Bit, External64Bit, External]

theorem number_external (T U : NumType) (s : St) (i : Int) (hi : i < s.2.m_dataLength)
    (htag : s.2.m_dataType = T.size * 8 ||| External) (p : Nat) (blk : List MemVal)
    (hp : s.2.m_data = storePtr p) (hblk : s.1.blocks[p]? = some (some blk)) :
    QmlEvent.number U s i = (readNumber T blk i).map (wrapSigned U.bits) := by
  unfold QmlEvent.number
  have hload : s.1.load p = .ok blk := by
    unfold Heap.load
    rw [hblk]
  rw [if_neg (by omega), htag, hp, loadPtr_storePtr]
  simp only [hload]
  cases T <;>
    simp [NumType.size, Inline8Bit, Inline16Bit, Inline32Bit, Inline64Bit, External8Bit,
      External16Bit, External32Bit, External64Bit, External]

/-- A record that stores `vs` returns `vs[i]`, converted to the type asked for. -/
theorem Holds.number_lt {h : Heap} {e : QmlEvent} {T : NumType} {vs : List Int}
    (hh : Holds h e T vs) (U : NumType) (i : Nat) (hi : i < vs.length) :
    QmlEvent.number U (h, e) (i : Int) = .ok (wrapSigned U.bits (vs.get ⟨i, hi⟩)) := by
  obtain ⟨hl, _, hin, _, ⟨htag, _, rest, hd⟩ | ⟨htag, _, p, hp, hblk⟩⟩ := hh
  · rw [number_inline T U (h, e) i (by simp only [hl]; omega) htag]
    simp only [hd]
    rw [readNumber_encodeAll T vs rest i hi,
      wrapSigned_of_inRange _ T.bits_pos _ (hin _ (List.get_mem _ _ _))]
    rfl
  · rw [number_external T U (h, e) i (by simp only [hl]; omega) htag p _ hp hblk]
    have := readNumber_encodeAll T vs [] i hi
    rw [List.append_nil] at this
    rw [this, wrapSigned_of_inRange _ T.bits_pos _ (hin _ (List.get_mem _ _ _))]
    rfl


/-! ## Containers of more than 65535 elements -/

theorem writeNumber_length {T : NumType} {mem mem1 : List MemVal} {i : Nat} {v : Int}
    (h : writeNumber T mem i v = .ok mem1) : mem1.length = mem.length := by
  unfold writeNumber at h
  split at h
  · cases h
  · rename_i hlen
    cases h
    have h1 : (i + 1) * T.size = i * T.size + T.size := by ring
    simp only [List.length_append, List.length_take, List.length_drop, encode_length]
    omega

theorem storeNumbers_overflow (T : NumType) (xs : List Int) :
    ∀ (i : Nat) (mem : List MemVal), i ≤ 65535 → 65535 < i + xs.length →
      mem.length < 65536 * T.size → ∃ f, QmlEvent.storeNumbers T xs i mem = .error f := by
  induction xs with
  | nil =>
    intro i mem hi hlen _
    simp at hlen
    omega
  | cons x xs ih =>
    intro i mem hi hlen hmem
    simp only [QmlEvent.storeNumbers]
    cases hw : writeNumber T mem i (wrapSigned T.bits x) with
    | error f => exact ⟨f, rfl⟩
    | ok mem1 =>
      simp only
      have hl := writeNumber_length hw
      by_cases hlast : i = 65535
      · exfalso
        unfold writeNumber at hw
        rw [if_pos (by rw [hlast]; exact hmem)] at hw
        cases hw
      · have hmod : (i + 1) % 65536 = i + 1 := Nat.mod_eq_of_lt (by omega)
        rw [hmod]
        simp only [List.length_cons] at hlen
        exact ih (i + 1) mem1 (by omega) (by omega) (by omega)

theorem squeezableSize_of_gt {n : Nat} (h : 65535 < n) : squeezableSize n = false := by
  unfold squeezableSize
  rw [beq_eq_false_iff_ne]
  have := Nat.mod_lt n (show 65536 > 0 by decide)
  omega

theorem assignNumbersWith_long (T : NumType)
    (squeeze : List Int → St → Except Fault (Bool × St)) (xs : List Int) (s : St)
    (hlen : 65535 < xs.length)
    (hsq : ∀ s0, (∃ f, squeeze xs s0 = .error f) ∨ squeeze xs s0 = .ok (false, s0)) :
    ∃ f, QmlEvent.assignNumbersWith T squeeze xs s = .error f := by
  unfold QmlEvent.assignNumbersWith
  simp only [squeezableSize_of_gt hlen]
  have hover : 65535 > s_internalDataLength / T.size := by
    cases T <;> decide
  simp only [Bool.false_eq_true, if_false, if_pos hover]
  rcases hsq (s.1, { s.2 with m_dataLength := 65535 }) with ⟨f, hf⟩ | hfalse
  · rw [hf]
    exact ⟨f, rfl⟩
  · rw [hfalse]
    simp only
    rw [loadPtr_storePtr]
    simp only
    rw [Heap.load_malloc]
    simp only
    obtain ⟨f, hf⟩ := storeNumbers_overflow T xs 0 (List.replicate (65535 * T.size) MemVal.undef)
      (by omega) (by omega) (by
        have := T.size_pos
        simp only [List.length_replicate]
        omega)
    rw [hf]
    exact ⟨f, rfl⟩

theorem squeezeWith_long (T small : NumType) (assignSmall : List Int → St → Except Fault St)
    (xs : List Int) (hassign : ∀ s0, ∃ f, assignSmall xs s0 = .error f) (s : St) :
    (∃ f, QmlEvent.squeezeWith T small assignSmall xs s = .error f) ∨
      QmlEvent.squeezeWith T small assignSmall xs s = .ok (false, s) := by
  unfold QmlEvent.squeezeWith
  split
  · obtain ⟨f, hf⟩ := hassign s
    rw [hf]
    exact Or.inl ⟨f, rfl⟩
  · exact Or.inr rfl

/-- A container of more than 65535 elements makes the copy loop of
`assignNumbers` write behind the end of the allocated block. -/
theorem assignNumbers_long (T : NumType) (xs : List Int) (hlen : 65535 < xs.length) (s : St) :
    ∃ f, QmlEvent.assignNumbers T xs s = .error f := by
  have h8 : ∀ s0, ∃ f, QmlEvent.assignNumbers8 xs s0 = .error f := fun s0 =>
    assignNumbersWith_long .qint8 _ xs s0 hlen (fun _ => Or.inr rfl)
  have h16 : ∀ s0, ∃ f, QmlEvent.assignNumbers16 xs s0 = .error f := fun s0 =>
    assignNumbersWith_long .qint16 _ xs s0 hlen (squeezeWith_long _ _ _ xs h8)
  have h32 : ∀ s0, ∃ f, QmlEvent.assignNumbers32 xs s0 = .error f := fun s0 =>
    assignNumbersWith_long .qint32 _ xs s0 hlen (squeezeWith_long _ _ _ xs h16)
  have h64 : ∀ s0, ∃ f, QmlEvent.assignNumbers64 xs s0 = .error f := fun s0 =>
    assignNumbersWith_long .qint64 _ xs s0 hlen (squeezeWith_long _ _ _ xs h32)
  cases T
  · exact h8 s
  · exact h16 s
  · exact h32 s
  · exact h64 s

theorem assignNumbers_ok {T : NumType} {xs : List Int} {s s1 : St}
    (hrun : QmlEvent.assignNumbers T xs s = .ok s1) (hdata : s.2.m_data.length = 8) :
    xs.length ≤ 65535 ∧ ∃ w, Assigned T xs s s1 w := by
  have hlen : xs.length ≤ 65535 := by
    by_contra hgt
    obtain ⟨f, hf⟩ := assignNumbers_long T xs (by omega) s
    rw [hf] at hrun
    cases hrun
  obtain ⟨s2, w, hrun2, hass⟩ := assignNumbers_spec T xs s hdata hlen
  rw [hrun] at hrun2
  cases hrun2
  exact ⟨hlen, w, hass⟩

/-! ## Release of the owned block -/

theorem clearPointer_spec {h : Heap} {e : QmlEvent} {T : NumType} {vs : List Int}
    (hh : Holds h e T vs) :
    ∃ h1, QmlEvent.clearPointer (h, e) = .ok (h1, e) ∧
      h1.blocks.length = h.blocks.length ∧ h.Keeps h1 (Owns e) ∧
      (¬ e.isExternal → h1 = h) ∧
      (e.isExternal → ∃ p, Owns e p ∧
        h1 = { blocks := h.blocks.set p none, trace := h.trace ++ [HeapEvent.free p] }) := by
  unfold QmlEvent.clearPointer
  by_cases hext : e.isExternal
  · have hext' : e.m_dataType &&& External ≠ 0 := hext
    have hbig := hh.isExternal_iff.mp hext
    obtain ⟨_, _, _, _, ⟨_, hfit, _⟩ | ⟨_, _, p, hp, hblk⟩⟩ := hh
    · omega
    · simp only [hext', ne_eq, not_false_eq_true, if_true, hp, loadPtr_storePtr, Heap.free, hblk]
      refine ⟨_, rfl, by simp, ?_, fun hn => absurd hext hn, fun _ => ⟨p, ⟨hext, hp⟩, rfl⟩⟩
      intro q blk hq hown
      have hne : p ≠ q := by
        intro heq
        exact hown ⟨hext, heq ▸ hp⟩
      simp only [List.getElem?_set_ne hne]
      exact hq
  · have hext' : ¬ (e.m_dataType &&& External ≠ 0) := hext
    rw [if_neg hext']
    exact ⟨h, rfl, rfl, fun q blk hq _ => hq, fun _ => rfl, fun hx => absurd hx hext⟩


/-! ## Soundness of the member functions -/

theorem Heap.Keeps.trans {h h1 h2 : Heap} {own : Nat → Prop}
    (h01 : h.Keeps h1 own) (h12 : h1.Keeps h2 (fun _ => False)) : h.Keeps h2 own :=
  fun q blk hq hown => h12 q blk (h01 q blk hq hown) (fun hf => hf)

theorem Heap.Keeps.refl (h : Heap) (own : Nat → Prop) : h.Keeps h own :=
  fun _ _ hq _ => hq

theorem Heap.keeps_append (h : Heap) (b : Option (List MemVal)) (tr : List HeapEvent) :
    h.Keeps { blocks := h.blocks ++ [b], trace := tr } (fun _ => False) := by
  intro q blk hq _
  have hlt : q < h.blocks.length := by
    by_contra hge
    rw [List.getElem?_eq_none (by omega)] at hq
    cases hq
  simp only [List.getElem?_append_left hlt]
  exact hq

theorem Assigned.keeps {T : NumType} {xs : List Int} {s s1 : St} {w : NumType}
    (ha : Assigned T xs s s1 w) : s.1.Keeps s1.1 (fun _ => False) := by
  obtain ⟨_, _, _, _, _, _, ⟨_, _, hheap, _, _⟩ | ⟨_, _, hheap, _, _⟩⟩ := ha
  · rw [hheap]
    exact Heap.Keeps.refl _ _
  · rw [hheap]
    exact Heap.keeps_append _ _ _

theorem Assigned.ownsNew {T : NumType} {xs : List Int} {s s1 : St} {w : NumType}
    (ha : Assigned T xs s s1 w) {p : Nat} (hp : Owns s1.2 p) : p = s.1.blocks.length := by
  obtain ⟨_, _, _, _, _, _, ⟨_, _, _, htag, _⟩ | ⟨_, _, _, _, hd⟩⟩ := ha
  · exfalso
    have := hp.1
    unfold QmlEvent.isExternal at this
    rw [htag] at this
    exact tag_inline w this
  · exact storePtr_inj (hp.2.symm.trans hd)

theorem Holds.data_length {h : Heap} {e : QmlEvent} {T : NumType} {vs : List Int}
    (hh : Holds h e T vs) : e.m_data.length = 8 := hh.2.2.2.1

theorem setNumbers_spec {h : Heap} {e : QmlEvent} {T0 : NumType} {vs0 : List Int}
    (hh : Holds h e T0 vs0) (T : NumType) (xs : List Int) (hlen : xs.length ≤ 65535) :
    ∃ h1 s1 w, QmlEvent.clearPointer (h, e) = .ok (h1, e) ∧
      QmlEvent.setNumbers T xs (h, e) = .ok s1 ∧ Assigned T xs (h1, e) s1 w := by
  obtain ⟨h1, hclear, _⟩ := clearPointer_spec hh
  obtain ⟨s1, w, hrun, hass⟩ := assignNumbers_spec T xs (h1, e) hh.data_length hlen
  refine ⟨h1, s1, w, hclear, ?_, hass⟩
  unfold QmlEvent.setNumbers
  rw [hclear]
  exact hrun

theorem setNumbers_ok {h : Heap} {e : QmlEvent} {T0 : NumType} {vs0 : List Int}
    (hh : Holds h e T0 vs0) {T : NumType} {xs : List Int} {s : St}
    (hrun : QmlEvent.setNumbers T xs (h, e) = .ok s) :
    xs.length ≤ 65535 ∧ ∃ h1 w, QmlEvent.clearPointer (h, e) = .ok (h1, e) ∧
      Assigned T xs (h1, e) s w := by
  obtain ⟨h1, hclear, _⟩ := clearPointer_spec hh
  unfold QmlEvent.setNumbers at hrun
  rw [hclear] at hrun
  obtain ⟨hlen, w, hass⟩ := assignNumbers_ok hrun hh.data_length
  exact ⟨hlen, h1, w, hclear, hass⟩

theorem sound_of_assigned {h h1 : Heap} {e : QmlEvent} {T0 : NumType} {vs0 : List Int}
    (hh : Holds h e T0 vs0) (hclear : QmlEvent.clearPointer (h, e) = .ok (h1, e))
    {T : NumType} {xs : List Int} {s : St} {w : NumType} (hlen : xs.length ≤ 65535)
    (hass : Assigned T xs (h1, e) s w) : Sound h e s := by
  obtain ⟨h1', hclear', hl, hkeep, _⟩ := clearPointer_spec hh
  rw [hclear] at hclear'
  cases hclear'
  refine ⟨⟨w, _, hass.toHolds hh.data_length hlen⟩, hkeep.trans hass.keeps, ?_⟩
  intro p hp
  right
  rw [hass.ownsNew hp]
  exact le_of_eq hl.symm

theorem setNumbers_sound {h : Heap} {e : QmlEvent} {T0 : NumType} {vs0 : List Int}
    (hh : Holds h e T0 vs0) {T : NumType} {xs : List Int} {s : St}
    (hrun : QmlEvent.setNumbers T xs (h, e) = .ok s) : Sound h e s := by
  obtain ⟨hlen, h1, w, hclear, hass⟩ := setNumbers_ok hh hrun
  exact sound_of_assigned hh hclear hlen hass

theorem setNumber_sound {h : Heap} {e : QmlEvent} {T0 : NumType} {vs0 : List Int}
    (hh : Holds h e T0 vs0) {T : NumType} {i v : Int} {s : St}
    (hrun : QmlEvent.setNumber T i v (h, e) = .ok s) : Sound h e s := by
  unfold QmlEvent.setNumber at hrun
  split at hrun
  · cases hrun
  · simp only at hrun
    split at hrun
    · cases hrun
    · split at hrun
      · cases hrun
      · exact setNumbers_sound hh hrun

theorem writeNumber_qint8_zero (mem : List MemVal) (v : Int) (hmem : mem.length = 8) :
    writeNumber .qint8 mem 0 v = .ok (encode .qint8 v ++ mem.drop 1) := by
  unfold writeNumber
  have : ¬ (mem.length < (0 + 1) * NumType.qint8.size) := by
    rw [hmem]
    decide
  rw [if_neg this]
  simp [NumType.size]

theorem setRangeStage_spec {h : Heap} {e : QmlEvent} {T0 : NumType} {vs0 : List Int}
    (hh : Holds h e T0 vs0) (stage : Int) :
    ∃ h1, QmlEvent.clearPointer (h, e) = .ok (h1, e) ∧
      QmlEvent.setRangeStage stage (h, e) = .ok (h1,
        { e with m_dataType := Inline8Bit, m_dataLength := 1,
                 m_data := encode .qint8 (wrapSigned 8 stage) ++ e.m_data.drop 1 }) ∧
      Holds h1 { e with m_dataType := Inline8Bit, m_dataLength := 1,
                        m_data := encode .qint8 (wrapSigned 8 stage) ++ e.m_data.drop 1 }
        .qint8 [wrapSigned 8 stage] := by
  obtain ⟨h1, hclear, _⟩ := clearPointer_spec hh
  refine ⟨h1, hclear, ?_, ?_⟩
  · unfold QmlEvent.setRangeStage
    rw [hclear]
    simp only
    rw [writeNumber_qint8_zero _ _ hh.data_length]
  · refine ⟨rfl, by simp, ?_, ?_, Or.inl ⟨rfl, by simp [NumType.size], e.m_data.drop 1, ?_⟩⟩
    · intro v hv
      rw [List.mem_singleton] at hv
      rw [hv]
      exact wrapSigned_inRange 8 (by decide) stage
    · simp only [List.length_append, encode_length, List.length_drop, hh.data_length]
      rfl
    · simp only [encodeAll, List.append_nil]

theorem setRangeStage_sound {h : Heap} {e : QmlEvent} {T0 : NumType} {vs0 : List Int}
    (hh : Holds h e T0 vs0) {stage : Int} {s : St}
    (hrun : QmlEvent.setRangeStage stage (h, e) = .ok s) : Sound h e s := by
  obtain ⟨h1, hclear, hrun', hholds⟩ := setRangeStage_spec hh stage
  obtain ⟨h1', hclear', _, hkeep, _⟩ := clearPointer_spec hh
  rw [hclear] at hclear'
  cases hclear'
  rw [hrun] at hrun'
  cases hrun'
  refine ⟨⟨_, _, hholds⟩, hkeep, ?_⟩
  intro p hp
  have hnot : ¬ (Inline8Bit &&& External ≠ 0) := by decide
  exact absurd hp.1 hnot

theorem method_sound {h : Heap} {e : QmlEvent} {T0 : NumType} {vs0 : List Int}
    (hh : Holds h e T0 vs0) (m : Method) {s : St} (hrun : m.run (h, e) = .ok s) :
    Sound h e s := by
  cases m with
  | setTimestamp t =>
    cases hrun
    exact ⟨⟨T0, vs0, hh.header rfl rfl rfl⟩, Heap.Keeps.refl _ _, fun p hp => Or.inl hp⟩
  | setDuration d =>
    cases hrun
    exact ⟨⟨T0, vs0, hh.header rfl rfl rfl⟩, Heap.Keeps.refl _ _, fun p hp => Or.inl hp⟩
  | setTypeIndex t =>
    cases hrun
    exact ⟨⟨T0, vs0, hh.header rfl rfl rfl⟩, Heap.Keeps.refl _ _, fun p hp => Or.inl hp⟩
  | setNumber T i v => exact setNumber_sound hh hrun
  | setNumbers T xs => exact setNumbers_sound hh hrun
  | setString data => exact setNumbers_sound (T := .qint8) hh hrun
  | setRangeStage stage => exact setRangeStage_sound hh hrun


/-! ## Copies -/

theorem tag_div (T : NumType) : (T.size * 8 ||| External) / 8 = T.size := by
  cases T <;> decide

theorem assignData_spec {h1 : Heap} {e1 other : QmlEvent} {T : NumType} {vs : List Int}
    (hh : Holds h1 other T vs) (htag : e1.m_dataType = other.m_dataType)
    (hlen : e1.m_dataLength = other.m_dataLength) :
    ∃ s, QmlEvent.assignData other (h1, e1) = .ok s ∧ Holds s.1 s.2 T vs ∧
      s.2.m_timestamp = e1.m_timestamp ∧ s.2.m_duration = e1.m_duration ∧
      s.2.m_typeIndex = e1.m_typeIndex ∧ s.2.m_dataType = other.m_dataType ∧
      s.2.m_dataLength = other.m_dataLength ∧
      h1.Keeps s.1 (fun _ => False) ∧ (∀ p, Owns s.2 p → p = h1.blocks.length) ∧
      (other.isExternal →
        s.1 = { blocks := h1.blocks ++ [some (encodeAll T vs)],
                trace := h1.trace ++
                  [HeapEvent.alloc h1.blocks.length (vs.length * T.size)] } ∧
        s.2.m_data = storePtr h1.blocks.length) ∧
      (¬ other.isExternal → s.1 = h1 ∧ s.2.m_data = other.m_data) := by
  have hext := hh.isExternal_iff
  obtain ⟨hl, hle, hin, hdl, ⟨hotag, hfit, rest, hd⟩ | ⟨hotag, hbig, q, hq, hblk⟩⟩ := hh
  · have hnot : ¬ (e1.m_dataType &&& External ≠ 0) := by
      rw [htag, hotag]
      exact tag_inline T
    have hnot' : ¬ other.isExternal := fun hx => by
      have := hext.mp hx
      omega
    refine ⟨(h1, { e1 with m_data := other.m_data }), ?_, ?_, rfl, rfl, rfl, htag, hlen,
      Heap.Keeps.refl _ _, ?_, fun hx => absurd hx hnot', fun _ => ⟨rfl, rfl⟩⟩
    · unfold QmlEvent.assignData
      rw [if_neg hnot]
    · exact ⟨hlen.trans hl, hle, hin, hdl, Or.inl ⟨htag.trans hotag, hfit, rest, hd⟩⟩
    · intro p hp
      exact absurd hp.1 hnot
  · have hyes : e1.m_dataType &&& External ≠ 0 := by
      rw [htag, hotag]
      exact tag_external T
    have hqlt : q < h1.blocks.length := by
      by_contra hge
      rw [List.getElem?_eq_none (by omega)] at hblk
      cases hblk
    have hsize : e1.m_dataLength * (other.m_dataType / 8) = vs.length * T.size := by
      rw [hlen, hl, hotag, tag_div]
    refine ⟨({ blocks := h1.blocks ++ [some (encodeAll T vs)],
               trace := h1.trace ++ [HeapEvent.alloc h1.blocks.length (vs.length * T.size)] },
             { e1 with m_data := storePtr h1.blocks.length }), ?_, ?_, rfl, rfl, rfl, htag, hlen,
      Heap.keeps_append _ _ _, ?_, fun _ => ⟨rfl, rfl⟩, fun hx => absurd (hext.mpr hbig) hx⟩
    · unfold QmlEvent.assignData
      rw [if_pos hyes]
      simp only [hsize, Heap.malloc, hq, loadPtr_storePtr, Heap.load,
        List.getElem?_append_left hqlt, hblk, encodeAll_length, lt_irrefl, if_false,
        Heap.store, List.getElem?_concat_length]
      have htake : (encodeAll T vs).take (vs.length * T.size) = encodeAll T vs :=
        List.take_of_length_le (by rw [encodeAll_length])
      rw [htake]
      simp
    · refine ⟨hlen.trans hl, hle, hin, rfl, Or.inr ⟨htag.trans hotag, hbig, _, rfl, ?_⟩⟩
      simp
    · intro p hp
      exact storePtr_inj hp.2.symm

theorem copy_spec {h : Heap} {other : QmlEvent} {T : NumType} {vs : List Int}
    (hh : Holds h other T vs) :
    ∃ s, QmlEvent.copy other h = .ok s ∧ Holds s.1 s.2 T vs ∧
      s.2.m_timestamp = other.m_timestamp ∧ s.2.m_duration = other.m_duration ∧
      s.2.m_typeIndex = other.m_typeIndex ∧ s.2.m_dataType = other.m_dataType ∧
      s.2.m_dataLength = other.m_dataLength ∧
      h.Keeps s.1 (fun _ => False) ∧ (∀ p, Owns s.2 p → p = h.blocks.length) := by
  obtain ⟨s, hrun, hholds, h1, h2, h3, h4, h5, h6, h7, _⟩ :=
    assignData_spec hh
      (show (QmlEvent.mk other.m_timestamp other.m_duration QmlEvent.uninitialised
        other.m_typeIndex other.m_dataType other.m_dataLength).m_dataType = other.m_dataType
        from rfl) rfl
  exact ⟨s, hrun, hholds, h1, h2, h3, h4, h5, h6, h7⟩

theorem assign_spec {h : Heap} {e other : QmlEvent} {T0 T : NumType} {vs0 vs : List Int}
    (hh : Holds h e T0 vs0) (ho : Holds h other T vs)
    (hdis : ∀ p, Owns other p → ¬ Owns e p) :
    ∃ s, QmlEvent.assign other (h, e) = .ok s ∧ Holds s.1 s.2 T vs ∧
      s.2.m_timestamp = other.m_timestamp ∧ s.2.m_duration = other.m_duration ∧
      s.2.m_typeIndex = other.m_typeIndex ∧ s.2.m_dataType = other.m_dataType ∧
      s.2.m_dataLength = other.m_dataLength ∧ Sound h e s := by
  obtain ⟨h1, hclear, hl, hkeep, _⟩ := clearPointer_spec hh
  have ho1 : Holds h1 other T vs := ho.frame hkeep hdis
  obtain ⟨s, hrun, hholds, h1', h2, h3, h4, h5, h6, h7, _⟩ :=
    assignData_spec ho1
      (show (QmlEvent.mk other.m_timestamp other.m_duration e.m_data
        other.m_typeIndex other.m_dataType other.m_dataLength).m_dataType = other.m_dataType
        from rfl) rfl
  refine ⟨s, ?_, hholds, h1', h2, h3, h4, h5, ⟨_, _, hholds⟩, hkeep.trans h6, ?_⟩
  · unfold QmlEvent.assign
    rw [hclear]
    exact hrun
  · intro p hp
    right
    rw [h7 p hp]
    exact le_of_eq hl.symm

/-! ## Constructors -/

theorem uninitialised_length : QmlEvent.uninitialised.length = 8 := rfl

theorem ctor_sound (ctor : Ctor) (h : Heap) {s : St} (hrun : ctor.run h = .ok s) :
    (∃ T vs, Holds s.1 s.2 T vs) ∧ h.Keeps s.1 (fun _ => False) ∧
      (∀ p, Owns s.2 p → p = h.blocks.length) := by
  cases ctor with
  | init =>
    cases hrun
    refine ⟨⟨.qint8, [], rfl, by simp, by simp, rfl, Or.inl ⟨rfl, by simp, _, rfl⟩⟩,
      Heap.Keeps.refl _ _, ?_⟩
    intro p hp
    have hnot : ¬ (Inline8Bit &&& External ≠ 0) := by decide
    exact absurd hp.1 hnot
  | ofNumbers T ts d ti xs =>
    obtain ⟨hlen, w, hass⟩ := assignNumbers_ok (s := (h, QmlEvent.header ts d ti)) hrun rfl
    exact ⟨⟨w, _, hass.toHolds rfl hlen⟩, hass.keeps, fun p hp => hass.ownsNew hp⟩
  | ofString ts d ti data =>
    have hrun' : QmlEvent.assignNumbers .qint8 (QmlEvent.toUtf8 data)
        (h, QmlEvent.header ts d ti) = .ok s := hrun
    obtain ⟨hlen, w, hass⟩ := assignNumbers_ok hrun' rfl
    exact ⟨⟨w, _, hass.toHolds rfl hlen⟩, hass.keeps, fun p hp => hass.ownsNew hp⟩


/-! ## The invariant of the reachable states -/

theorem Config.Inv.holdsAt {c : Config} (hc : c.Inv) {k : Nat} {e : QmlEvent}
    (hk : c.objs[k]? = some e) : ∃ T vs, Holds c.heap e T vs :=
  hc.1 e (List.mem_iff_getElem?.mpr ⟨k, hk⟩)

theorem Config.Inv.set {c : Config} (hc : c.Inv) {k : Nat} {e : QmlEvent}
    (hk : c.objs[k]? = some e) {s : St} (hs : Sound c.heap e s) :
    Config.Inv { heap := s.1, objs := c.objs.set k s.2 } := by
  obtain ⟨hholds, hkeep, hnew⟩ := hs
  have hother : ∀ (j : Nat) (x : QmlEvent), j ≠ k → c.objs[j]? = some x →
      ∀ p, Owns x p → ¬ Owns e p :=
    fun j x hj hx p hp => hc.2 j k x e p hj hx hk hp
  constructor
  · intro x hx
    obtain ⟨j, hj⟩ := List.mem_iff_getElem?.mp hx
    simp only [List.getElem?_set] at hj
    split at hj
    · split at hj
      · cases hj
        exact hholds
      · cases hj
    · rename_i hne
      obtain ⟨T, vs, hxh⟩ := hc.holdsAt hj
      exact ⟨T, vs, hxh.frame hkeep (hother j x (fun h => hne h.symm) hj)⟩
  · intro j k' ej ek p hjk hj hk' hoj hok
    simp only [List.getElem?_set] at hj hk'
    have hfresh : ∀ (i : Nat) (x : QmlEvent), i ≠ k → c.objs[i]? = some x →
        Owns x p → Owns s.2 p → False := by
      intro i x hi hx hox hos
      obtain ⟨T, vs, hxh⟩ := hc.holdsAt hx
      rcases hnew p hos with hold | hge
      · exact hother i x hi hx p hox hold
      · have := hxh.owns_lt hox
        omega
    split at hj
    · rename_i hkj
      split at hj
      · cases hj
        split at hk'
        · omega
        · rename_i hne
          exact hfresh k' ek (fun h => hne h.symm) hk' hok hoj
      · cases hj
    · rename_i hne
      split at hk'
      · split at hk'
        · cases hk'
          exact hfresh j ej (fun h => hne h.symm) hj hoj hok
        · cases hk'
      · exact hc.2 j k' ej ek p hjk hj hk' hoj hok

theorem Config.Inv.append {c : Config} (hc : c.Inv) {s : St}
    (hholds : ∃ T vs, Holds s.1 s.2 T vs) (hkeep : c.heap.Keeps s.1 (fun _ => False))
    (hnew : ∀ p, Owns s.2 p → p = c.heap.blocks.length) :
    Config.Inv { heap := s.1, objs := c.objs ++ [s.2] } := by
  have hfresh : ∀ (i : Nat) (x : QmlEvent) (p : Nat),
      c.objs[i]? = some x → Owns x p → Owns s.2 p → False := by
    intro i x p hx hox hos
    obtain ⟨T, vs, hxh⟩ := hc.holdsAt hx
    have h1 := hxh.owns_lt hox
    have h2 := hnew p hos
    omega
  have hget : ∀ (i : Nat) (x : QmlEvent), (c.objs ++ [s.2])[i]? = some x →
      (i < c.objs.length ∧ c.objs[i]? = some x) ∨ (i = c.objs.length ∧ x = s.2) := by
    intro i x hi
    by_cases hlt : i < c.objs.length
    · rw [List.getElem?_append_left hlt] at hi
      exact Or.inl ⟨hlt, hi⟩
    · rw [List.getElem?_append_right (by omega)] at hi
      right
      have h0 : i - c.objs.length = 0 := by
        by_contra hne
        rw [List.getElem?_eq_none (by simp; omega)] at hi
        cases hi
      rw [h0] at hi
      simp at hi
      exact ⟨by omega, hi.symm⟩
  constructor
  · intro x hx
    rw [List.mem_append] at hx
    rcases hx with hx | hx
    · obtain ⟨T, vs, hxh⟩ := hc.1 x hx
      exact ⟨T, vs, hxh.frame hkeep (fun _ _ hf => hf)⟩
    · rw [List.mem_singleton] at hx
      rw [hx]
      exact hholds
  · intro j k ej ek p hjk hj hk hoj hok
    rcases hget j ej hj with ⟨_, hj'⟩ | ⟨hj1, hj2⟩
    · rcases hget k ek hk with ⟨_, hk'⟩ | ⟨hk1, hk2⟩
      · exact hc.2 j k ej ek p hjk hj' hk' hoj hok
      · rw [hk2] at hok
        exact hfresh j ej p hj' hoj hok
    · rcases hget k ek hk with ⟨_, hk'⟩ | ⟨hk1, hk2⟩
      · rw [hj2] at hoj
        exact hfresh k ek p hk' hok hoj
      · omega

theorem Config.Inv.erase {c : Config} (hc : c.Inv) {k : Nat} {e : QmlEvent}
    (hk : c.objs[k]? = some e) {h : Heap} (hkeep : c.heap.Keeps h (Owns e)) :
    Config.Inv { heap := h, objs := c.objs.eraseIdx k } := by
  have hget : ∀ (i : Nat) (x : QmlEvent), (c.objs.eraseIdx k)[i]? = some x →
      ∃ i', i' ≠ k ∧ c.objs[i']? = some x ∧ (i' = i ∨ i' = i + 1) ∧ (i' = i ↔ i < k) := by
    intro i x hi
    rw [List.getElem?_eraseIdx] at hi
    split at hi
    · rename_i hlt
      exact ⟨i, by omega, hi, Or.inl rfl, by simp [hlt]⟩
    · rename_i hge
      exact ⟨i + 1, by omega, hi, Or.inr rfl, by constructor <;> intro <;> omega⟩
  constructor
  · intro x hx
    obtain ⟨i, hi⟩ := List.mem_iff_getElem?.mp hx
    obtain ⟨i', hne, hi', _⟩ := hget i x hi
    obtain ⟨T, vs, hxh⟩ := hc.holdsAt hi'
    exact ⟨T, vs, hxh.frame hkeep (fun p hp => hc.2 i' k x e p hne hi' hk hp)⟩
  · intro j k' ej ek p hjk hj hk' hoj hok
    obtain ⟨j', _, hj', hjc, hjiff⟩ := hget j ej hj
    obtain ⟨k2, _, hk2, hkc, hkiff⟩ := hget k' ek hk'
    refine hc.2 j' k2 ej ek p ?_ hj' hk2 hoj hok
    intro heq
    rcases hjc with h1 | h1 <;> rcases hkc with h2 | h2
    · omega
    · have := hjiff.mp h1
      have := hkiff.not.mp (by omega)
      omega
    · have := hkiff.mp h2
      have := hjiff.not.mp (by omega)
      omega
    · omega

/-- Every reachable state satisfies the invariant. -/
theorem Reachable.inv {c : Config} (hr : Reachable c) : c.Inv := by
  induction hr with
  | start h =>
    constructor
    · intro e he
      cases he
    · intro j k ej ek p _ hj
      simp at hj
  | construct ctor s _ hrun ih =>
    obtain ⟨hholds, hkeep, hnew⟩ := ctor_sound ctor _ hrun
    exact ih.append hholds hkeep hnew
  | copy k other s _ hk hrun ih =>
    obtain ⟨T, vs, hh⟩ := ih.holdsAt hk
    obtain ⟨s', hrun', hholds, _, _, _, _, _, hkeep, hnew⟩ := copy_spec hh
    rw [hrun] at hrun'
    cases hrun'
    exact ih.append ⟨T, vs, hholds⟩ hkeep hnew
  | call k e m s _ hk hrun ih =>
    obtain ⟨T, vs, hh⟩ := ih.holdsAt hk
    exact ih.set hk (method_sound hh m hrun)
  | assign k j e other s _ hk hj hne hrun ih =>
    obtain ⟨T0, vs0, hh⟩ := ih.holdsAt hk
    obtain ⟨T, vs, ho⟩ := ih.holdsAt hj
    obtain ⟨s', hrun', _, _, _, _, _, _, hsound⟩ :=
      assign_spec hh ho (fun p hp => ih.2 j k other e p hne hj hk hp)
    rw [hrun] at hrun'
    cases hrun'
    exact ih.set hk hsound
  | destroy k e h _ hk hrun ih =>
    obtain ⟨T, vs, hh⟩ := ih.holdsAt hk
    obtain ⟨h1, hclear, _, hkeep, _⟩ := clearPointer_spec hh
    unfold QmlEvent.destroy at hrun
    rw [hclear] at hrun
    cases hrun
    exact ih.erase hk hkeep

/-- Every reachable record stores a list of values at one of the four types. -/
theorem Reachable.holds {c : Config} (hr : Reachable c) {e : QmlEvent} (he : e ∈ c.objs) :
    ∃ T vs, Holds c.heap e T vs :=
  hr.inv.1 e he


/-! ## Reading the whole payload, writing one element -/

theorem Holds.number_getElem? {h : Heap} {e : QmlEvent} {T : NumType} {vs : List Int}
    (hh : Holds h e T vs) (U : NumType) {i : Nat} {x : Int} (hx : vs[i]? = some x) :
    QmlEvent.number U (h, e) (i : Int) = .ok (wrapSigned U.bits x) := by
  obtain ⟨hi, hget⟩ := List.getElem?_eq_some.mp hx
  rw [hh.number_lt U i hi, List.get_eq_getElem, hget]

theorem Holds.number_of_le {h : Heap} {e : QmlEvent} {T : NumType} {vs : List Int}
    (hh : Holds h e T vs) (U : NumType) {i : Nat} (hi : vs.length ≤ i) :
    QmlEvent.number U (h, e) (i : Int) = .ok 0 := by
  apply number_ge
  have : e.m_dataLength = vs.length := hh.1
  simp only [this]
  omega

theorem Holds.numbersFrom {h : Heap} {e : QmlEvent} {T : NumType} {vs : List Int}
    (hh : Holds h e T vs) (U : NumType) :
    ∀ (n i : Nat), i + n = vs.length →
      QmlEvent.numbersFrom U (h, e) i n = .ok ((vs.drop i).map (wrapSigned U.bits)) := by
  intro n
  induction n with
  | zero =>
    intro i hi
    rw [List.drop_of_length_le (by omega)]
    rfl
  | succ n ih =>
    intro i hi
    have hlt : i < vs.length := by omega
    simp only [QmlEvent.numbersFrom]
    rw [hh.number_lt U i hlt]
    simp only
    rw [ih (i + 1) (by omega)]
    simp only
    rw [List.drop_eq_getElem_cons hlt, List.map_cons, List.get_eq_getElem]

theorem Holds.numbers {h : Heap} {e : QmlEvent} {T : NumType} {vs : List Int}
    (hh : Holds h e T vs) (U : NumType) :
    QmlEvent.numbers U (h, e) = .ok (vs.map (wrapSigned U.bits)) := by
  unfold QmlEvent.numbers
  have hl : e.m_dataLength = vs.length := hh.1
  simp only [hl]
  rw [hh.numbersFrom U vs.length 0 (by omega), List.drop_zero]

theorem map_wrapSigned_of_inRange (bits : Nat) (hb : 0 < bits) (xs : List Int)
    (hxs : ∀ x ∈ xs, InRange bits x) : xs.map (wrapSigned bits) = xs := by
  induction xs with
  | nil => rfl
  | cons x xs ih =>
    rw [List.map_cons, wrapSigned_of_inRange bits hb x (hxs x (List.mem_cons_self _ _)),
      ih (fun y hy => hxs y (List.mem_cons_of_mem _ hy))]

theorem setNumber_eq {h : Heap} {e : QmlEvent} {T0 : NumType} {vs0 : List Int}
    (hh : Holds h e T0 vs0) (U : NumType) (i : Nat) (hi : i < 65535) (v : Int) :
    QmlEvent.setNumber U (i : Int) v (h, e) =
      QmlEvent.setNumbers U
        (((vs0.map (wrapSigned U.bits)) ++ List.replicate (i + 1 - vs0.length) 0).set i v)
        (h, e) := by
  unfold QmlEvent.setNumber
  rw [hh.numbers U]
  simp only [List.length_map, Int.toNat_ofNat]
  have h0 : ¬ ((i : Int) < 0) := by omega
  have h1 : ¬ ((i : Int) ≥ (vs0.length : Int) ∧ (i : Int) + 1 > 2147483647) := by omega
  rw [if_neg h0, if_neg h1]
  by_cases hge : (i : Int) ≥ (vs0.length : Int)
  · rw [if_pos hge]
  · rw [if_neg hge]
    have : i + 1 - vs0.length = 0 := by omega
    rw [this]
    simp


/-! ## Example states are reachable -/

theorem defaultConfig_reachable : Reachable defaultConfig :=
  Reachable.construct .init (emptyHeap, QmlEvent.init) (Reachable.start emptyHeap) rfl

theorem bytesConfig_reachable : Reachable bytesConfig :=
  Reachable.construct (.ofNumbers .qint8 0 0 0 [100, 101, 102, 103, 104, 105, 106, 0])
    (emptyHeap, bytesEvent) (Reachable.start emptyHeap) (by decide)

theorem externalConfig_reachable : Reachable externalConfig :=
  Reachable.construct (.ofNumbers .qint32 0 0 0 [1000, -5, 130000])
    (externalHeap, externalEvent) (Reachable.start emptyHeap) (by decide)

/-! ## The claims -/

/-- What claim C1 asks of the state `s` built from `xs` at type `T`. -/
theorem Assigned.reads_back {T : NumType} {xs : List Int} {s s1 : St} {w : NumType}
    (ha : Assigned T xs s s1 w) (hdata : s.2.m_data.length = 8) (hlen : xs.length ≤ 65535)
    (hxs : ∀ x ∈ xs, InRange T.bits x) :
    s1.2.m_dataLength = xs.length ∧
      (∀ (i : Nat) (hi : i < xs.length),
        QmlEvent.number T s1 (i : Int) = .ok (xs.get ⟨i, hi⟩)) ∧
      QmlEvent.numbers T s1 = .ok xs := by
  have hmap := map_wrapSigned_of_inRange T.bits T.bits_pos xs hxs
  have hh := ha.toHolds hdata hlen
  rw [hmap] at hh
  refine ⟨ha.2.2.2.2.2.1, ?_, ?_⟩
  · intro i hi
    have := hh.number_lt T i hi
    rw [wrapSigned_of_inRange _ T.bits_pos _ (hxs _ (List.get_mem _ _ _))] at this
    exact this
  · have := hh.numbers T
    rw [hmap] at this
    exact this

/-- Claim C1 (lossless storage). For every source type `T` of 8, 16, 32 or 64
bits and every list `xs` of values of `T` with at most 65535 elements, the
record built from `xs` by the list / vector constructor, and the record a
reachable record becomes by `setNumbers`, has `m_dataLength = |xs|`, returns
`xs[i]` from `number<T>(i)` for every `i < |xs|`, and returns `xs` from
`numbers<T>()`. -/
theorem lossless_storage (T : NumType) (xs : List Int) (hlen : xs.length ≤ 65535)
    (hxs : ∀ x ∈ xs, InRange T.bits x) :
    (∀ (timestamp duration typeIndex : Int) (h : Heap),
      ∃ s, QmlEvent.ofNumbers T timestamp duration typeIndex xs h = .ok s ∧
        s.2.m_dataLength = xs.length ∧
        (∀ (i : Nat) (hi : i < xs.length),
          QmlEvent.number T s (i : Int) = .ok (xs.get ⟨i, hi⟩)) ∧
        QmlEvent.numbers T s = .ok xs) ∧
    (∀ c : Config, Reachable c → ∀ e ∈ c.objs,
      ∃ s, QmlEvent.setNumbers T xs (c.heap, e) = .ok s ∧
        s.2.m_dataLength = xs.length ∧
        (∀ (i : Nat) (hi : i < xs.length),
          QmlEvent.number T s (i : Int) = .ok (xs.get ⟨i, hi⟩)) ∧
        QmlEvent.numbers T s = .ok xs) := by
  constructor
  · intro ts d ti h
    obtain ⟨s, w, hrun, hass⟩ := assignNumbers_spec T xs (h, QmlEvent.header ts d ti) rfl hlen
    exact ⟨s, hrun, hass.reads_back rfl hlen hxs⟩
  · intro c hr e he
    obtain ⟨T0, vs0, hh⟩ := hr.holds he
    obtain ⟨h1, s, w, _, hrun, hass⟩ := setNumbers_spec hh T xs hlen
    exact ⟨s, hrun, hass.reads_back hh.data_length hlen hxs⟩

/-- Witness of claim C1: the `qint32` values 1000, -5, 130000, given to the
constructor over the empty heap and to `setNumbers` on the default record. -/
theorem lossless_storage_witness :
    (∃ s, QmlEvent.ofNumbers .qint32 0 0 0 [1000, -5, 130000] emptyHeap = .ok s ∧
      QmlEvent.numbers .qint32 s = .ok [1000, -5, 130000]) ∧
    (∃ s, QmlEvent.setNumbers .qint32 [1000, -5, 130000] (emptyHeap, QmlEvent.init) = .ok s ∧
      QmlEvent.numbers .qint32 s = .ok [1000, -5, 130000]) :=
  have key := lossless_storage .qint32 [1000, -5, 130000] (by decide) (by decide)
  ⟨(key.1 0 0 0 emptyHeap).imp fun _ hs => ⟨hs.1, hs.2.2.2⟩,
   (key.2 defaultConfig defaultConfig_reachable QmlEvent.init (List.mem_singleton_self _)).imp
     fun _ hs => ⟨hs.1, hs.2.2.2⟩⟩

/-- Claim C2 (out-of-range reads are zero). For every reachable record and
every index `i ≥ m_dataLength`, `number<U>(i)` returns 0 at every type `U`; the
answer is the same over any heap and any contents of the union, so the backing
storage is not read. -/
theorem number_out_of_range (c : Config) (_hr : Reachable c) (e : QmlEvent)
    (_he : e ∈ c.objs) (U : NumType) (i : Int) (hi : (e.m_dataLength : Int) ≤ i) :
    QmlEvent.number U (c.heap, e) i = .ok 0 ∧
      ∀ (h : Heap) (mem : List MemVal),
        QmlEvent.number U (h, { e with m_data := mem }) i = .ok 0 :=
  ⟨number_ge U _ i hi, fun _ _ => number_ge U _ i hi⟩

/-- Witness of claim C2: index 3 of the record that holds 1000, -5, 130000. -/
theorem number_out_of_range_witness :
    QmlEvent.number .qint64 (externalHeap, externalEvent) 3 = .ok 0 :=
  (number_out_of_range externalConfig externalConfig_reachable externalEvent
    (List.mem_singleton_self _) .qint64 3 (by decide)).1

theorem Holds.storedWidth {h : Heap} {e : QmlEvent} {T : NumType} {vs : List Int}
    (hh : Holds h e T vs) : e.storedWidth = T.bits := by
  obtain ⟨_, _, _, _, ⟨htag, _⟩ | ⟨htag, _⟩⟩ := hh
  · unfold QmlEvent.storedWidth
    rw [htag]
    cases T <;> decide
  · unfold QmlEvent.storedWidth
    rw [htag]
    cases T <;> decide

/-- Claim C3 (storage-tag invariant). For every reachable record (default
constructor, data constructors, `setNumbers`, `setNumber`, `setString`,
`setRangeStage`, copies), with stored element width `w` and length `len`: `w` is
8, 16, 32 or 64, the flag `External` is clear if and only if
`len * (w / 8) ≤ 8`, and set if and only if `len * (w / 8) > 8`. -/
theorem storage_tag_invariant (c : Config) (hr : Reachable c) (e : QmlEvent)
    (he : e ∈ c.objs) :
    (e.storedWidth = 8 ∨ e.storedWidth = 16 ∨ e.storedWidth = 32 ∨ e.storedWidth = 64) ∧
    (¬ e.isExternal ↔ e.m_dataLength * (e.storedWidth / 8) ≤ 8) ∧
    (e.isExternal ↔ 8 < e.m_dataLength * (e.storedWidth / 8)) := by
  obtain ⟨T, vs, hh⟩ := hr.holds he
  have hw := hh.storedWidth
  have hext := hh.isExternal_iff
  have hl : e.m_dataLength = vs.length := hh.1
  have hdiv : T.bits / 8 = T.size := by
    unfold NumType.bits
    omega
  rw [hw, hl, hdiv]
  refine ⟨?_, ?_, hext⟩
  · cases T <;> simp [NumType.bits, NumType.size]
  · rw [hext]
    omega

/-- Witness of claim C3: the record that holds 1000, -5, 130000 in a heap
block (3 elements of 4 bytes). -/
theorem storage_tag_invariant_witness :
    externalEvent.isExternal ↔
      8 < externalEvent.m_dataLength * (externalEvent.storedWidth / 8) :=
  (storage_tag_invariant externalConfig externalConfig_reachable externalEvent
    (List.mem_singleton_self _)).2.2


theorem NumType.bits_half_of_lt {w w' : NumType} (h : w'.bits < w.bits) :
    w'.bits ≤ w.bits / 2 ∧ w ≠ .qint8 := by
  revert h
  cases w <;> cases w' <;> decide

theorem NumType.eight_le_bits (w : NumType) : 8 ≤ w.bits := by
  cases w <;> decide

theorem NumType.size_le_of_bits_le {a b : NumType} (h : a.bits ≤ b.bits) : a.size ≤ b.size := by
  unfold NumType.bits at h
  omega

theorem Assigned.inRange {T : NumType} {xs : List Int} {s s1 : St} {w : NumType}
    (ha : Assigned T xs s s1 w) (hxs : ∀ x ∈ xs, InRange T.bits x) :
    ∀ x ∈ xs, InRange w.bits x := by
  intro x hx
  have := ha.2.1 x hx
  rw [wrapSigned_of_inRange _ T.bits_pos _ (hxs x hx)] at this
  exact this

theorem Assigned.external_iff {T : NumType} {xs : List Int} {s s1 : St} {w : NumType}
    (ha : Assigned T xs s s1 w) : s1.2.isExternal ↔ 8 < xs.length * w.size := by
  obtain ⟨_, _, _, _, _, _, ⟨hfit, _, _, htag, _⟩ | ⟨hbig, _, _, htag, _⟩⟩ := ha
  · unfold QmlEvent.isExternal
    rw [htag]
    exact ⟨fun h => absurd h (tag_inline w), fun h => by omega⟩
  · unfold QmlEvent.isExternal
    rw [htag]
    exact ⟨fun _ => hbig, fun _ => tag_external w⟩

theorem Assigned.storedWidth_eq {T : NumType} {xs : List Int} {s s1 : St} {w : NumType}
    (ha : Assigned T xs s s1 w) : s1.2.storedWidth = w.bits := by
  obtain ⟨_, _, _, _, _, _, ⟨_, _, _, htag, _⟩ | ⟨_, _, _, htag, _⟩⟩ := ha
  · unfold QmlEvent.storedWidth
    rw [htag]
    cases w <;> decide
  · unfold QmlEvent.storedWidth
    rw [htag]
    cases w <;> decide

/-- An external record stores the values at the smallest type that can
represent them all. -/
theorem Assigned.external_minimal {T : NumType} {xs : List Int} {s s1 : St} {w : NumType}
    (ha : Assigned T xs s s1 w) (hxs : ∀ x ∈ xs, InRange T.bits x) (hext : s1.2.isExternal)
    (w' : NumType) (hw' : ∀ x ∈ xs, InRange w'.bits x) : w.bits ≤ w'.bits := by
  have hbig := ha.external_iff.mp hext
  obtain ⟨_, _, _, _, _, _, ⟨hfit, _⟩ | ⟨_, hwhy, _⟩⟩ := ha
  · omega
  · by_contra hlt
    obtain ⟨hhalf, hne⟩ := NumType.bits_half_of_lt (Nat.lt_of_not_le hlt)
    rcases hwhy with h8 | ⟨x, hx, hnot⟩
    · exact hne h8
    · rw [wrapSigned_of_inRange _ T.bits_pos _ (hxs x hx)] at hnot
      exact hnot ((hw' x hx).mono hhalf w'.bits_pos)

/-- An inline record stores the values at the widest type, up to the source
type, at which they fit the eight bytes of the union. -/
theorem Assigned.inline_widest {T : NumType} {xs : List Int} {s s1 : St} {w : NumType}
    (ha : Assigned T xs s s1 w) (hint : ¬ s1.2.isExternal) :
    xs.length * w.size ≤ 8 ∧
      ∀ w' : NumType, w.bits < w'.bits → w'.bits ≤ T.bits → 8 < xs.length * w'.size := by
  have hnot := ha.external_iff.not.mp hint
  obtain ⟨_, _, _, _, _, _, ⟨hfit, hwhy, _⟩ | ⟨hbig, _⟩⟩ := ha
  · refine ⟨hfit, ?_⟩
    intro w' hlt hle
    rcases hwhy with rfl | hwide
    · omega
    · have h2 : 2 * w.size ≤ w'.size := by
        revert hlt
        cases w <;> cases w' <;> decide
      calc 8 < xs.length * (2 * w.size) := hwide
        _ ≤ xs.length * w'.size := Nat.mul_le_mul_left _ h2
  · omega

/-- Claim C4 (allocation only when unavoidable). For every source type `T`
and every list `xs` of values of `T` with at most 65535 elements, built by the
constructor or assigned to a reachable record by `setNumbers`: if the record is
external then no type `w` of 8, 16, 32 or 64 bits represents every element and
has `|xs| * (w / 8) ≤ 8`, and the stored width is the smallest of the widths
that represent every element. -/
theorem allocation_only_when_unavoidable (T : NumType) (xs : List Int)
    (hlen : xs.length ≤ 65535) (hxs : ∀ x ∈ xs, InRange T.bits x) :
    (∀ (timestamp duration typeIndex : Int) (h : Heap),
      ∃ s, QmlEvent.ofNumbers T timestamp duration typeIndex xs h = .ok s ∧
        (s.2.isExternal →
          (¬ ∃ w : NumType, (∀ x ∈ xs, InRange w.bits x) ∧ xs.length * w.size ≤ 8) ∧
          ∃ w : NumType, s.2.storedWidth = w.bits ∧ (∀ x ∈ xs, InRange w.bits x) ∧
            ∀ w' : NumType, (∀ x ∈ xs, InRange w'.bits x) → w.bits ≤ w'.bits)) ∧
    (∀ c : Config, Reachable c → ∀ e ∈ c.objs,
      ∃ s, QmlEvent.setNumbers T xs (c.heap, e) = .ok s ∧
        (s.2.isExternal →
          (¬ ∃ w : NumType, (∀ x ∈ xs, InRange w.bits x) ∧ xs.length * w.size ≤ 8) ∧
          ∃ w : NumType, s.2.storedWidth = w.bits ∧ (∀ x ∈ xs, InRange w.bits x) ∧
            ∀ w' : NumType, (∀ x ∈ xs, InRange w'.bits x) → w.bits ≤ w'.bits)) := by
  have key : ∀ (s s1 : St) (w : NumType), Assigned T xs s s1 w → s1.2.isExternal →
      (¬ ∃ w : NumType, (∀ x ∈ xs, InRange w.bits x) ∧ xs.length * w.size ≤ 8) ∧
      ∃ w : NumType, s1.2.storedWidth = w.bits ∧ (∀ x ∈ xs, InRange w.bits x) ∧
        ∀ w' : NumType, (∀ x ∈ xs, InRange w'.bits x) → w.bits ≤ w'.bits := by
    intro s s1 w hass hext
    have hmin := hass.external_minimal hxs hext
    have hbig := hass.external_iff.mp hext
    refine ⟨?_, w, hass.storedWidth_eq, hass.inRange hxs, hmin⟩
    rintro ⟨w', hw', hfit⟩
    have hsz := NumType.size_le_of_bits_le (hmin w' hw')
    have := Nat.mul_le_mul_left xs.length hsz
    omega
  constructor
  · intro ts d ti h
    obtain ⟨s, w, hrun, hass⟩ := assignNumbers_spec T xs (h, QmlEvent.header ts d ti) rfl hlen
    exact ⟨s, hrun, key _ s w hass⟩
  · intro c hr e he
    obtain ⟨T0, vs0, hh⟩ := hr.holds he
    obtain ⟨h1, s, w, _, hrun, hass⟩ := setNumbers_spec hh T xs hlen
    exact ⟨s, hrun, key _ s w hass⟩

/-- Witness of claim C4: the `qint32` values 1000, -5, 130000 go to a heap
block at width 32. -/
theorem allocation_only_when_unavoidable_witness :
    ∃ s, QmlEvent.ofNumbers .qint32 0 0 0 [1000, -5, 130000] emptyHeap = .ok s ∧
      (s.2.isExternal →
        (¬ ∃ w : NumType, (∀ x ∈ ([1000, -5, 130000] : List Int), InRange w.bits x) ∧
          [(1000 : Int), -5, 130000].length * w.size ≤ 8) ∧
        ∃ w : NumType, s.2.storedWidth = w.bits ∧
          (∀ x ∈ ([1000, -5, 130000] : List Int), InRange w.bits x) ∧
          ∀ w' : NumType, (∀ x ∈ ([1000, -5, 130000] : List Int), InRange w'.bits x) →
            w.bits ≤ w'.bits) :=
  (allocation_only_when_unavoidable .qint32 [1000, -5, 130000] (by decide) (by decide)).1
    0 0 0 emptyHeap

/-- Claim C5 as amended (stored width). For every source type `T` and every
list `xs` of values of `T` with at most 65535 elements, built by the
constructor or assigned by `setNumbers`: the stored width `w` is at most the
width of `T` and represents every element; if the record is external, `w` is
the smallest of the widths 8, 16, 32, 64 that represent every element; if it is
inline, the elements fit the union at `w` and at no wider width up to `T`. -/
theorem stored_width_selected (T : NumType) (xs : List Int)
    (hlen : xs.length ≤ 65535) (hxs : ∀ x ∈ xs, InRange T.bits x) :
    (∀ (timestamp duration typeIndex : Int) (h : Heap),
      ∃ (s : St) (w : NumType), QmlEvent.ofNumbers T timestamp duration typeIndex xs h = .ok s ∧
        s.2.storedWidth = w.bits ∧ w.bits ≤ T.bits ∧ (∀ x ∈ xs, InRange w.bits x) ∧
        (s.2.isExternal →
          ∀ w' : NumType, (∀ x ∈ xs, InRange w'.bits x) → w.bits ≤ w'.bits) ∧
        (¬ s.2.isExternal → xs.length * w.size ≤ 8 ∧
          ∀ w' : NumType, w.bits < w'.bits → w'.bits ≤ T.bits → 8 < xs.length * w'.size)) ∧
    (∀ c : Config, Reachable c → ∀ e ∈ c.objs,
      ∃ (s : St) (w : NumType), QmlEvent.setNumbers T xs (c.heap, e) = .ok s ∧
        s.2.storedWidth = w.bits ∧ w.bits ≤ T.bits ∧ (∀ x ∈ xs, InRange w.bits x) ∧
        (s.2.isExternal →
          ∀ w' : NumType, (∀ x ∈ xs, InRange w'.bits x) → w.bits ≤ w'.bits) ∧
        (¬ s.2.isExternal → xs.length * w.size ≤ 8 ∧
          ∀ w' : NumType, w.bits < w'.bits → w'.bits ≤ T.bits → 8 < xs.length * w'.size)) := by
  constructor
  · intro ts d ti h
    obtain ⟨s, w, hrun, hass⟩ := assignNumbers_spec T xs (h, QmlEvent.header ts d ti) rfl hlen
    exact ⟨s, w, hrun, hass.storedWidth_eq, NumType.bits_le_of_size_le hass.1,
      hass.inRange hxs, hass.external_minimal hxs, hass.inline_widest⟩
  · intro c hr e he
    obtain ⟨T0, vs0, hh⟩ := hr.holds he
    obtain ⟨h1, s, w, _, hrun, hass⟩ := setNumbers_spec hh T xs hlen
    exact ⟨s, w, hrun, hass.storedWidth_eq, NumType.bits_le_of_size_le hass.1,
      hass.inRange hxs, hass.external_minimal hxs, hass.inline_widest⟩

/-- Witness of the amended claim C5: the `qint32` values 1, 2, 3, 4 are stored
at a width of at most 32 bits. -/
theorem stored_width_selected_witness :
    ∃ (s : St) (w : NumType), QmlEvent.ofNumbers .qint32 0 0 0 [1, 2, 3, 4] emptyHeap = .ok s ∧
      s.2.storedWidth = w.bits ∧ w.bits ≤ NumType.qint32.bits :=
  ((stored_width_selected .qint32 [1, 2, 3, 4] (by decide) (by decide)).1 0 0 0 emptyHeap).imp
    fun _ hs => hs.imp fun _ hw => ⟨hw.1, hw.2.1, hw.2.2.1⟩

/-- Counterexample to claim C5 as stated: the `qint64` list `{1}` is stored at
width 64, while its element is representable at width 8; likewise the `qint32`
list `{1, 2, 3, 4}` is stored at width 16. -/
theorem minimal_stored_width_counterexample :
    (∃ s, QmlEvent.ofNumbers .qint64 0 0 0 [1] emptyHeap = .ok s ∧ s.2.storedWidth = 64 ∧
      ∀ x ∈ ([1] : List Int), InRange 8 x) ∧
    (∃ s, QmlEvent.ofNumbers .qint32 0 0 0 [1, 2, 3, 4] emptyHeap = .ok s ∧
      s.2.storedWidth = 16 ∧ ∀ x ∈ ([1, 2, 3, 4] : List Int), InRange 8 x) :=
  ⟨⟨_, rfl, by decide, by decide⟩, ⟨_, rfl, by decide, by decide⟩⟩

/-- Claim C6 (small payloads stay inline). For every source type `T` and every
list of at most 8 values in `[-128, 127]`, the constructed record has the flag
`External` clear and the heap is as it was before the construction: nothing is
allocated. -/
theorem small_payloads_inline (T : NumType) (xs : List Int) (hlen : xs.length ≤ 8)
    (hxs : ∀ x ∈ xs, -128 ≤ x ∧ x ≤ 127)
    (timestamp duration typeIndex : Int) (h : Heap) :
    ∃ s, QmlEvent.ofNumbers T timestamp duration typeIndex xs h = .ok s ∧
      ¬ s.2.isExternal ∧ s.1 = h := by
  have h8 : ∀ x ∈ xs, InRange 8 x := by
    intro x hx
    have := hxs x hx
    unfold InRange
    norm_num
    omega
  have hT : ∀ x ∈ xs, InRange T.bits x :=
    fun x hx => (h8 x hx).mono T.eight_le_bits (by decide)
  obtain ⟨s, w, hrun, hass⟩ :=
    assignNumbers_spec T xs (h, QmlEvent.header timestamp duration typeIndex) rfl (by omega)
  have hint : ¬ s.2.isExternal := by
    intro hext
    have := hass.external_minimal hT hext .qint8 h8
    have hbig := hass.external_iff.mp hext
    have hsz : w.size ≤ 1 := NumType.size_le_of_bits_le this
    have := Nat.mul_le_mul_left xs.length hsz
    omega
  have hnot := hass.external_iff.not.mp hint
  refine ⟨s, hrun, hint, ?_⟩
  obtain ⟨_, _, _, _, _, _, ⟨_, _, hheap, _⟩ | ⟨hbig, _⟩⟩ := hass
  · exact hheap
  · exact absurd hbig hnot

/-- Witness of claim C6: eight `qint64` values between -128 and 127. -/
theorem small_payloads_inline_witness :
    ∃ s, QmlEvent.ofNumbers .qint64 0 0 0 [1, -2, 3, -4, 127, -128, 0, 5] emptyHeap = .ok s ∧
      ¬ s.2.isExternal ∧ s.1 = emptyHeap :=
  small_payloads_inline .qint64 [1, -2, 3, -4, 127, -128, 0, 5] (by decide) (by decide)
    0 0 0 emptyHeap


theorem wrapSigned_zero (bits : Nat) : wrapSigned bits 0 = 0 := by
  unfold wrapSigned
  have : (0 : Int) < (2 : Int) ^ (bits - 1) := by positivity
  simp [this]

/-- The list `setNumber` hands to `setNumbers`, element by element. -/
theorem updated_getElem? (nums : List Int) (n : Nat) (hn : nums.length = n) (i : Nat)
    (v : Int) :
    ((nums ++ List.replicate (i + 1 - n) 0).set i v).length = max n (i + 1) ∧
    ((nums ++ List.replicate (i + 1 - n) 0).set i v)[i]? = some v ∧
    (∀ j, j ≠ i → j < n →
      ((nums ++ List.replicate (i + 1 - n) 0).set i v)[j]? = nums[j]?) ∧
    (∀ j, j ≠ i → n ≤ j → j < i →
      ((nums ++ List.replicate (i + 1 - n) 0).set i v)[j]? = some 0) := by
  subst hn
  have hlen : (nums ++ List.replicate (i + 1 - nums.length) 0).length =
      max nums.length (i + 1) := by
    simp only [List.length_append, List.length_replicate]
    omega
  refine ⟨by rw [List.length_set, hlen], ?_, ?_, ?_⟩
  · rw [List.getElem?_set_self (by rw [hlen]; omega)]
  · intro j hne hj
    rw [List.getElem?_set_ne (fun h => hne h.symm), List.getElem?_append_left hj]
  · intro j hne hge hlt
    rw [List.getElem?_set_ne (fun h => hne h.symm), List.getElem?_append_right hge,
      List.getElem?_replicate]
    rw [if_pos (by omega)]

theorem setNumber_spec {h : Heap} {e : QmlEvent} {T0 : NumType} {vs0 : List Int}
    (hh : Holds h e T0 vs0) (T : NumType) (i : Nat) (hi : i < 65535) (v : Int) :
    ∃ (s : St) (w : NumType), QmlEvent.setNumber T (i : Int) v (h, e) = .ok s ∧
      Holds s.1 s.2 w
        ((((vs0.map (wrapSigned T.bits)) ++ List.replicate (i + 1 - vs0.length) 0).set i v).map
          (wrapSigned T.bits)) := by
  obtain ⟨hlen0, _, _, _⟩ :=
    updated_getElem? (vs0.map (wrapSigned T.bits)) vs0.length (List.length_map _ _) i v
  have hle : vs0.length ≤ 65535 := hh.2.1
  have hlen : (((vs0.map (wrapSigned T.bits)) ++
      List.replicate (i + 1 - vs0.length) 0).set i v).length ≤ 65535 := by
    rw [hlen0]
    omega
  obtain ⟨h1, s, w, _, hrun, hass⟩ := setNumbers_spec hh T _ hlen
  exact ⟨s, w, by rw [setNumber_eq hh T i hi v]; exact hrun, hass.toHolds hh.data_length hlen⟩

/-- Claim C7 (`setNumber` writes the value and extends the length). For every
reachable record of length `len`, every index `0 ≤ i < 65535` and every value
`v` of the caller's type `T`, `setNumber<T>(i, v)` returns, the record then has
length `max(len, i + 1)`, and `number<T>(i)` is `v`. -/
theorem setNumber_writes (c : Config) (hr : Reachable c) (e : QmlEvent) (he : e ∈ c.objs)
    (T : NumType) (i : Nat) (hi : i < 65535) (v : Int) (hv : InRange T.bits v) :
    ∃ s, QmlEvent.setNumber T (i : Int) v (c.heap, e) = .ok s ∧
      s.2.m_dataLength = max e.m_dataLength (i + 1) ∧
      QmlEvent.number T s (i : Int) = .ok v := by
  obtain ⟨T0, vs0, hh⟩ := hr.holds he
  obtain ⟨s, w, hrun, hs⟩ := setNumber_spec hh T i hi v
  obtain ⟨hlen, hget, _, _⟩ :=
    updated_getElem? (vs0.map (wrapSigned T.bits)) vs0.length (List.length_map _ _) i v
  have hl0 : e.m_dataLength = vs0.length := hh.1
  refine ⟨s, hrun, ?_, ?_⟩
  · have : s.2.m_dataLength = _ := hs.1
    rw [this, List.length_map, hlen, hl0]
  · have := hs.number_getElem? T (i := i) (x := wrapSigned T.bits v)
      (by rw [List.getElem?_map, hget]; rfl)
    rw [this, wrapSigned_idem _ T.bits_pos, wrapSigned_of_inRange _ T.bits_pos _ hv]

/-- Witness of claim C7: `setNumber<qint16>(5, -300)` on the record that holds
the `qint32` values 1000, -5, 130000. -/
theorem setNumber_writes_witness :
    ∃ s, QmlEvent.setNumber .qint16 5 (-300) (externalHeap, externalEvent) = .ok s ∧
      s.2.m_dataLength = max externalEvent.m_dataLength (5 + 1) ∧
      QmlEvent.number .qint16 s 5 = .ok (-300) :=
  setNumber_writes externalConfig externalConfig_reachable externalEvent
    (List.mem_singleton_self _) .qint16 5 (by decide) (-300) (by decide)

/-- Claim C8 (`setNumber` leaves every other element unchanged). For every
reachable record of stored width `w` and length `len`, every index
`0 ≤ i < 65535` and every value `v` of a type `T` of at least `w` bits,
`setNumber<T>(i, v)` returns, and then, read at any type `U`, `number<U>(j)` is
what it was before for every `j ≠ i` with `j < len`, and is 0 for every `j`
with `len ≤ j < i`. -/
theorem setNumber_frame (c : Config) (hr : Reachable c) (e : QmlEvent) (he : e ∈ c.objs)
    (T : NumType) (hT : e.storedWidth ≤ T.bits) (i : Nat) (hi : i < 65535) (v : Int) :
    ∃ s, QmlEvent.setNumber T (i : Int) v (c.heap, e) = .ok s ∧
      ∀ (U : NumType) (j : Nat), j ≠ i →
        (j < e.m_dataLength →
          QmlEvent.number U s (j : Int) = QmlEvent.number U (c.heap, e) (j : Int)) ∧
        (e.m_dataLength ≤ j → j < i → QmlEvent.number U s (j : Int) = .ok 0) := by
  obtain ⟨T0, vs0, hh⟩ := hr.holds he
  obtain ⟨s, w, hrun, hs⟩ := setNumber_spec hh T i hi v
  obtain ⟨_, _, hold, hzero⟩ :=
    updated_getElem? (vs0.map (wrapSigned T.bits)) vs0.length (List.length_map _ _) i v
  have hl0 : e.m_dataLength = vs0.length := hh.1
  have hbits : T0.bits ≤ T.bits := by
    rw [← hh.storedWidth]
    exact hT
  refine ⟨s, hrun, ?_⟩
  intro U j hne
  constructor
  · intro hj
    rw [hl0] at hj
    have hin : InRange T.bits (vs0.get ⟨j, hj⟩) :=
      (hh.2.2.1 _ (List.get_mem _ _ _)).mono hbits T0.bits_pos
    have hget : vs0[j]? = some (vs0.get ⟨j, hj⟩) := by
      rw [List.get_eq_getElem]
      exact List.getElem?_eq_getElem hj
    have := hs.number_getElem? U (i := j)
      (x := wrapSigned T.bits (wrapSigned T.bits (vs0.get ⟨j, hj⟩)))
      (by rw [List.getElem?_map, hold j hne hj, List.getElem?_map, hget]; rfl)
    rw [this, hh.number_lt U j hj, wrapSigned_idem _ T.bits_pos,
      wrapSigned_of_inRange _ T.bits_pos _ hin]
  · intro hge hlt
    rw [hl0] at hge
    have := hs.number_getElem? U (i := j) (x := wrapSigned T.bits 0)
      (by rw [List.getElem?_map, hzero j hne hge hlt]; rfl)
    rw [this, wrapSigned_zero, wrapSigned_zero]

/-- Witness of claim C8: `setNumber<qint64>(5, 7)` on the record that holds the
`qint32` values 1000, -5, 130000 keeps element 0. -/
theorem setNumber_frame_witness :
    ∃ s, QmlEvent.setNumber .qint64 5 7 (externalHeap, externalEvent) = .ok s ∧
      QmlEvent.number .qint32 s 0 = .ok 1000 ∧ QmlEvent.number .qint32 s 4 = .ok 0 :=
  (setNumber_frame externalConfig externalConfig_reachable externalEvent
    (List.mem_singleton_self _) .qint64 (by decide) 5 (by decide) 7).imp
    fun _ hs => ⟨hs.1, ((hs.2 .qint32 0 (by decide)).1 (by decide)).trans (by decide),
      (hs.2 .qint32 4 (by decide)).2 (by decide) (by decide)⟩


/-- Claim C9 (string round trip) fails on the code: `string` reads a C string,
up to the first NUL byte in memory, and no terminator is stored behind the
text. After `setString("abc")` on the record built from the eight `qint8`
values 100, ..., 106, 0 the union holds `abcghij\0` and `string` returns
`"abcghij"`; on the record constructed from `"abc"` the read runs into the
bytes of the union the constructor never wrote; on the record constructed
from `"abcdefgh"` it runs past the end of the union; on the record constructed
from `"abcdefghi"` it runs past the end of the heap block. -/
theorem string_reads_to_first_nul :
    QmlEvent.ofNumbers .qint8 0 0 0 [100, 101, 102, 103, 104, 105, 106, 0] emptyHeap =
      .ok (emptyHeap, bytesEvent) ∧
    (∃ s, QmlEvent.setString [97, 98, 99] (emptyHeap, bytesEvent) = .ok s ∧
      s.2.m_dataLength = 3 ∧
      QmlEvent.string s = .ok [97, 98, 99, 103, 104, 105, 106]) ∧
    (∃ s, QmlEvent.ofString 0 0 0 [97, 98, 99] emptyHeap = .ok s ∧
      QmlEvent.string s = .error .indeterminate) ∧
    (∃ s, QmlEvent.ofString 0 0 0 [97, 98, 99, 100, 101, 102, 103, 104] emptyHeap = .ok s ∧
      QmlEvent.string s = .error .outOfBounds) ∧
    (∃ s, QmlEvent.ofString 0 0 0 [97, 98, 99, 100, 101, 102, 103, 104, 105] emptyHeap
        = .ok s ∧
      QmlEvent.string s = .error .outOfBounds) :=
  ⟨by decide, ⟨_, rfl, rfl, by decide⟩, ⟨_, rfl, by decide⟩, ⟨_, rfl, by decide⟩,
    ⟨_, rfl, by decide⟩⟩

theorem NumType.eq_qint8_of_size_le {w : NumType} (h : w.size ≤ NumType.qint8.size) :
    w = .qint8 := by
  revert h
  cases w <;> decide

theorem toUtf8_length (data : List (Fin 256)) : (QmlEvent.toUtf8 data).length = data.length := by
  simp [QmlEvent.toUtf8]

/-- What claim C10 asks of the state `s1` the 8-bit path leaves. -/
theorem Assigned.eight_bit_layout {data : List (Fin 256)} {s s1 : St} {w : NumType}
    (ha : Assigned .qint8 (QmlEvent.toUtf8 data) s s1 w) (hdata : s.2.m_data.length = 8)
    (hlen : data.length ≤ 65535) :
    s1.2.storedWidth = 8 ∧ s1.2.m_dataLength = data.length ∧
      (∀ (i : Nat) (hi : i < data.length),
        QmlEvent.number .qint8 s1 (i : Int) = .ok (wrapSigned 8 ((data.get ⟨i, hi⟩).val : Int))) ∧
      (¬ s1.2.isExternal ↔ data.length ≤ 8) := by
  have hw : w = .qint8 := NumType.eq_qint8_of_size_le ha.1
  subst hw
  have hl := toUtf8_length data
  have hh := ha.toHolds hdata (by rw [hl]; exact hlen)
  refine ⟨ha.storedWidth_eq, by rw [ha.2.2.2.2.2.1, hl], ?_, ?_⟩
  · intro i hi
    have := hh.number_getElem? .qint8 (i := i)
      (x := wrapSigned 8 (wrapSigned 8 ((data.get ⟨i, hi⟩).val : Int)))
      (by
        simp only [QmlEvent.toUtf8, List.getElem?_map, List.get_eq_getElem,
          List.getElem?_eq_getElem hi]
        rfl)
    rw [this]
    have h8 : NumType.qint8.bits = 8 := rfl
    rw [h8, wrapSigned_idem 8 (by decide), wrapSigned_idem 8 (by decide)]
  · rw [ha.external_iff, hl]
    simp only [NumType.size]
    omega

/-- Claim C10 (string layout). For every text with UTF-8 bytes `data`, at most
65535 of them, the text constructor and `setString` on a reachable record
return and store `data` through the 8-bit path: the stored width is 8, the
length is `|data|`, `number<qint8>(i)` is the `i`-th byte (as a signed byte)
for `i < |data|`, and the record is inline exactly when `|data| ≤ 8`; the
8-bit instance of `squeeze` does nothing and answers `false`. -/
theorem string_layout (data : List (Fin 256)) (hlen : data.length ≤ 65535) :
    (∀ (timestamp duration typeIndex : Int) (h : Heap),
      ∃ s, QmlEvent.ofString timestamp duration typeIndex data h = .ok s ∧
        s.2.storedWidth = 8 ∧ s.2.m_dataLength = data.length ∧
        (∀ (i : Nat) (hi : i < data.length),
          QmlEvent.number .qint8 s (i : Int) =
            .ok (wrapSigned 8 ((data.get ⟨i, hi⟩).val : Int))) ∧
        (¬ s.2.isExternal ↔ data.length ≤ 8)) ∧
    (∀ c : Config, Reachable c → ∀ e ∈ c.objs,
      ∃ s, QmlEvent.setString data (c.heap, e) = .ok s ∧
        s.2.storedWidth = 8 ∧ s.2.m_dataLength = data.length ∧
        (∀ (i : Nat) (hi : i < data.length),
          QmlEvent.number .qint8 s (i : Int) =
            .ok (wrapSigned 8 ((data.get ⟨i, hi⟩).val : Int))) ∧
        (¬ s.2.isExternal ↔ data.length ≤ 8)) ∧
    (∀ (numbers : List Int) (s : St), QmlEvent.squeeze .qint8 numbers s = .ok (false, s)) := by
  have hl : (QmlEvent.toUtf8 data).length ≤ 65535 := by
    rw [toUtf8_length]
    exact hlen
  refine ⟨?_, ?_, fun _ _ => rfl⟩
  · intro ts d ti h
    obtain ⟨s, w, hrun, hass⟩ :=
      assignNumbers_spec .qint8 (QmlEvent.toUtf8 data) (h, QmlEvent.header ts d ti) rfl hl
    exact ⟨s, hrun, hass.eight_bit_layout rfl hlen⟩
  · intro c hr e he
    obtain ⟨T0, vs0, hh⟩ := hr.holds he
    obtain ⟨h1, s, w, _, hrun, hass⟩ := setNumbers_spec hh .qint8 (QmlEvent.toUtf8 data) hl
    exact ⟨s, hrun, hass.eight_bit_layout hh.data_length hlen⟩

/-- Witness of claim C10: the text `"abc"`. -/
theorem string_layout_witness :
    ∃ s, QmlEvent.ofString 0 0 0 [97, 98, 99] emptyHeap = .ok s ∧
      s.2.storedWidth = 8 ∧ s.2.m_dataLength = 3 ∧ (¬ s.2.isExternal ↔ 3 ≤ 8) :=
  ((string_layout [97, 98, 99] (by decide)).1 0 0 0 emptyHeap).imp
    fun _ hs => ⟨hs.1, hs.2.1, hs.2.2.1, hs.2.2.2.2⟩


/-! ## Records that store the same values -/

theorem readNumber_neg (T : NumType) (mem : List MemVal) (i : Int) (hi : i < 0) :
    readNumber T mem i = .error .outOfBounds := by
  unfold readNumber
  rw [if_pos hi]

theorem Holds.number_neg {h : Heap} {e : QmlEvent} {T : NumType} {vs : List Int}
    (hh : Holds h e T vs) (U : NumType) (i : Int) (hi : i < 0) :
    QmlEvent.number U (h, e) i = .error .outOfBounds := by
  have hlt : i < ((h, e) : St).2.m_dataLength := by
    have : (0 : Int) ≤ (e.m_dataLength : Int) := Int.ofNat_nonneg _
    simp only
    omega
  obtain ⟨_, _, _, _, ⟨htag, _, _, _⟩ | ⟨htag, _, p, hp, hblk⟩⟩ := hh
  · rw [number_inline T U (h, e) i hlt htag, readNumber_neg T _ i hi]
    rfl
  · rw [number_external T U (h, e) i hlt htag p _ hp hblk, readNumber_neg T _ i hi]
    rfl

/-- The value of `number` depends on the values stored only. -/
theorem Holds.number_eq {h h1 : Heap} {e e1 : QmlEvent} {T T1 : NumType} {vs : List Int}
    (hh : Holds h e T vs) (hh1 : Holds h1 e1 T1 vs) (U : NumType) (i : Int) :
    QmlEvent.number U (h, e) i = QmlEvent.number U (h1, e1) i := by
  by_cases hneg : i < 0
  · rw [hh.number_neg U i hneg, hh1.number_neg U i hneg]
  · obtain ⟨n, rfl⟩ : ∃ n : Nat, i = (n : Int) := ⟨i.toNat, by omega⟩
    by_cases hn : n < vs.length
    · rw [hh.number_lt U n hn, hh1.number_lt U n hn]
    · rw [hh.number_of_le U (by omega), hh1.number_of_le U (by omega)]

/-- A member function called on one record of a reachable state does not
change what `number` returns on another record. -/
theorem Reachable.call_frame {c : Config} (hr : Reachable c) {k j : Nat} {e r : QmlEvent}
    (hk : c.objs[k]? = some e) (hj : c.objs[j]? = some r) (hne : j ≠ k) (m : Method) {s : St}
    (hrun : m.run (c.heap, e) = .ok s) (U : NumType) (i : Int) :
    QmlEvent.number U (s.1, r) i = QmlEvent.number U (c.heap, r) i := by
  have hinv := hr.inv
  obtain ⟨T0, vs0, hh⟩ := hinv.holdsAt hk
  obtain ⟨T, vs, hrh⟩ := hinv.holdsAt hj
  obtain ⟨_, hkeep, _⟩ := method_sound hh m hrun
  have hrh1 : Holds s.1 r T vs :=
    hrh.frame hkeep (fun p hp => hinv.2 j k r e p hne hj hk hp)
  exact hrh1.number_eq hrh U i


/-! ## The copy loop beyond 65535 elements -/

theorem writeNumber_error {T : NumType} {mem : List MemVal} {i : Nat} {v : Int} {f : Fault}
    (h : writeNumber T mem i v = .error f) : f = .outOfBounds := by
  unfold writeNumber at h
  split at h
  · cases h
    rfl
  · cases h

theorem storeNumbers_error (T : NumType) (xs : List Int) :
    ∀ (i : Nat) (mem : List MemVal) (f : Fault),
      QmlEvent.storeNumbers T xs i mem = .error f → f = .outOfBounds := by
  induction xs with
  | nil =>
    intro i mem f h
    cases h
  | cons x xs ih =>
    intro i mem f h
    simp only [QmlEvent.storeNumbers] at h
    cases hw : writeNumber T mem i (wrapSigned T.bits x) with
    | error f0 =>
      rw [hw] at h
      cases h
      exact writeNumber_error hw
    | ok mem1 =>
      rw [hw] at h
      exact ih _ _ f h

theorem assignNumbersWith_error (T : NumType)
    (squeeze : List Int → St → Except Fault (Bool × St)) (xs : List Int) (s : St) (f : Fault)
    (hsq : ∀ s0 f0, squeeze xs s0 = .error f0 → f0 = .outOfBounds)
    (h : QmlEvent.assignNumbersWith T squeeze xs s = .error f) : f = .outOfBounds := by
  unfold QmlEvent.assignNumbersWith at h
  simp only at h
  generalize (if squeezableSize xs.length = true then xs.length % 65536 else 65535) = len at h
  by_cases hover : len > s_internalDataLength / T.size
  · rw [if_pos hover] at h
    split at h
    · rename_i f0 hf0
      cases h
      exact hsq _ _ hf0
    · cases h
    · simp only [loadPtr_storePtr, Heap.load_malloc] at h
      split at h
      · rename_i f0 hf0
        cases h
        exact storeNumbers_error T xs _ _ _ hf0
      · rw [Heap.store_malloc] at h
        cases h
  · rw [if_neg hover] at h
    have hflag : ¬ (T.size * 8 &&& External ≠ 0) := tag_inline T
    simp only [hflag, if_false] at h
    split at h
    · rename_i f0 hf0
      cases h
      exact storeNumbers_error T xs _ _ _ hf0
    · cases h

theorem squeezeWith_error (T small : NumType) (assignSmall : List Int → St → Except Fault St)
    (xs : List Int) (hassign : ∀ s0 f0, assignSmall xs s0 = .error f0 → f0 = .outOfBounds)
    (s : St) (f : Fault) (h : QmlEvent.squeezeWith T small assignSmall xs s = .error f) :
    f = .outOfBounds := by
  unfold QmlEvent.squeezeWith at h
  split at h
  · split at h
    · cases h
    · rename_i f0 hf0
      cases h
      exact hassign _ _ hf0
  · cases h

/-- The only fault of the width selector is a write outside the buffer. -/
theorem assignNumbers_error (T : NumType) (xs : List Int) (s : St) (f : Fault)
    (h : QmlEvent.assignNumbers T xs s = .error f) : f = .outOfBounds := by
  have h8 : ∀ s0 f0, QmlEvent.assignNumbers8 xs s0 = .error f0 → f0 = .outOfBounds :=
    fun s0 f0 => assignNumbersWith_error .qint8 _ xs s0 f0 (fun _ _ h0 => by cases h0)
  have h16 : ∀ s0 f0, QmlEvent.assignNumbers16 xs s0 = .error f0 → f0 = .outOfBounds :=
    fun s0 f0 => assignNumbersWith_error .qint16 _ xs s0 f0 (squeezeWith_error _ _ _ xs h8)
  have h32 : ∀ s0 f0, QmlEvent.assignNumbers32 xs s0 = .error f0 → f0 = .outOfBounds :=
    fun s0 f0 => assignNumbersWith_error .qint32 _ xs s0 f0 (squeezeWith_error _ _ _ xs h16)
  have h64 : ∀ s0 f0, QmlEvent.assignNumbers64 xs s0 = .error f0 → f0 = .outOfBounds :=
    fun s0 f0 => assignNumbersWith_error .qint64 _ xs s0 f0 (squeezeWith_error _ _ _ xs h32)
  cases T
  · exact h8 s f h
  · exact h16 s f h
  · exact h32 s f h
  · exact h64 s f h

/-- From a container of more than 65535 elements the constructor writes
outside the block it allocated. -/
theorem ofNumbers_long (T : NumType) (xs : List Int) (hlen : 65535 < xs.length)
    (timestamp duration typeIndex : Int) (h : Heap) :
    QmlEvent.ofNumbers T timestamp duration typeIndex xs h = .error .outOfBounds := by
  obtain ⟨f, hf⟩ := assignNumbers_long T xs hlen (h, QmlEvent.header timestamp duration typeIndex)
  have := assignNumbers_error T xs _ f hf
  rw [this] at hf
  exact hf


theorem writeNumber_ok (T : NumType) (mem : List MemVal) (i : Nat) (v : Int)
    (h : (i + 1) * T.size ≤ mem.length) :
    writeNumber T mem i v =
      .ok (mem.take (i * T.size) ++ encode T v ++ mem.drop ((i + 1) * T.size)) := by
  unfold writeNumber
  rw [if_neg (by omega)]

theorem readNumber_write_same (T : NumType) (mem : List MemVal) (i : Nat) (v : Int)
    (h : (i + 1) * T.size ≤ mem.length) :
    readNumber T (mem.take (i * T.size) ++ encode T v ++ mem.drop ((i + 1) * T.size)) (i : Int) =
      .ok (wrapSigned T.bits v) := by
  apply readNumber_append
  rw [List.length_take]
  have : (i + 1) * T.size = i * T.size + T.size := by ring
  omega

/-- A write of element `i` leaves the bytes of every other element. -/
theorem getElem?_write (mem enc : List MemVal) (a : Nat) (h : a + enc.length ≤ mem.length)
    (t : Nat) (ht : t < a ∨ a + enc.length ≤ t) :
    (mem.take a ++ enc ++ mem.drop (a + enc.length))[t]? = mem[t]? := by
  rw [List.append_assoc]
  rcases ht with ht | ht
  · rw [List.getElem?_append_left (by rw [List.length_take]; omega), List.getElem?_take]
    rw [if_pos ht]
  · rw [List.getElem?_append_right (by rw [List.length_take]; omega), List.length_take,
      Nat.min_eq_left (by omega),
      List.getElem?_append_right (by omega), List.getElem?_drop]
    congr 1
    omega

theorem readNumber_write_other (T : NumType) (mem : List MemVal) (i j : Nat) (v : Int)
    (h : (i + 1) * T.size ≤ mem.length) (hne : j ≠ i) :
    readNumber T (mem.take (i * T.size) ++ encode T v ++ mem.drop ((i + 1) * T.size)) (j : Int) =
      readNumber T mem (j : Int) := by
  have hsucc : (i + 1) * T.size = i * T.size + (encode T v).length := by
    rw [encode_length]
    ring
  have hb : i * T.size + (encode T v).length ≤ mem.length := by omega
  have hlen : (mem.take (i * T.size) ++ encode T v ++ mem.drop ((i + 1) * T.size)).length =
      mem.length := by
    simp only [List.length_append, List.length_take, List.length_drop]
    omega
  have hslice : ((mem.take (i * T.size) ++ encode T v ++
      mem.drop ((i + 1) * T.size)).drop (j * T.size)).take T.size =
      (mem.drop (j * T.size)).take T.size := by
    apply List.ext_getElem?
    intro u
    rw [List.getElem?_take, List.getElem?_take]
    by_cases hu : u < T.size
    · rw [if_pos hu, if_pos hu, List.getElem?_drop, List.getElem?_drop, hsucc]
      apply getElem?_write mem (encode T v) (i * T.size) hb
      rw [encode_length]
      rcases Nat.lt_or_gt_of_ne hne with hlt | hgt
      · left
        have : (j + 1) * T.size ≤ i * T.size := Nat.mul_le_mul_right _ hlt
        have h2 : (j + 1) * T.size = j * T.size + T.size := by ring
        omega
      · right
        have : (i + 1) * T.size ≤ j * T.size := Nat.mul_le_mul_right _ hgt
        have h2 : (i + 1) * T.size = i * T.size + T.size := by ring
        omega
    · rw [if_neg hu, if_neg hu]
  unfold readNumber
  simp only [Int.toNat_ofNat]
  rw [hlen, hslice]

theorem storeNumbers_wrap_from (T : NumType) (xs : List Int) :
    ∀ (i : Nat) (mem : List MemVal), i < 65536 → 65536 * T.size ≤ mem.length →
      ∃ mem1, QmlEvent.storeNumbers T xs i mem = .ok mem1 ∧ mem1.length = mem.length ∧
        (∀ (k : Nat) (v : Int), xs[k]? = some v → xs.length ≤ k + 65536 →
          readNumber T mem1 (((i + k) % 65536 : Nat) : Int) = .ok (wrapSigned T.bits v)) ∧
        (∀ j : Nat, (∀ k, k < xs.length → (i + k) % 65536 ≠ j) →
          readNumber T mem1 (j : Int) = readNumber T mem (j : Int)) := by
  induction xs with
  | nil =>
    intro i mem _ _
    refine ⟨mem, rfl, rfl, ?_, fun _ _ => rfl⟩
    intro k v hk
    simp at hk
  | cons x rest ih =>
    intro i mem hi hmem
    have hroom : (i + 1) * T.size ≤ mem.length :=
      le_trans (Nat.mul_le_mul_right _ (by omega)) hmem
    have hw := writeNumber_ok T mem i (wrapSigned T.bits x) hroom
    have hl0 := writeNumber_length hw
    obtain ⟨mem1, hrun, hl1, hlast, hframe⟩ := ih ((i + 1) % 65536) _
      (Nat.mod_lt _ (by decide)) (by rw [hl0]; exact hmem)
    refine ⟨mem1, ?_, hl1.trans hl0, ?_, ?_⟩
    · simp only [QmlEvent.storeNumbers, hw]
      exact hrun
    · intro k v hk hwin
      cases k with
      | zero =>
        simp only [List.getElem?_cons_zero, Option.some.injEq] at hk
        subst hk
        simp only [List.length_cons] at hwin
        have hfree : ∀ k, k < rest.length → ((i + 1) % 65536 + k) % 65536 ≠ i := by
          intro k hk
          omega
        rw [Nat.add_zero, Nat.mod_eq_of_lt hi, hframe i hfree,
          readNumber_write_same T mem i _ hroom, wrapSigned_idem _ T.bits_pos]
      | succ k =>
        simp only [List.getElem?_cons_succ] at hk
        simp only [List.length_cons] at hwin
        have hidx : (i + (k + 1)) % 65536 = ((i + 1) % 65536 + k) % 65536 := by omega
        rw [hidx]
        exact hlast k v hk (by omega)
    · intro j hj
      have hne : j ≠ i := by
        intro heq
        have := hj 0 (by simp)
        rw [Nat.add_zero, Nat.mod_eq_of_lt hi] at this
        exact this heq.symm
      have hrest : ∀ k, k < rest.length → ((i + 1) % 65536 + k) % 65536 ≠ j := by
        intro k hk
        have := hj (k + 1) (by simp only [List.length_cons]; omega)
        omega
      rw [hframe j hrest, readNumber_write_other T mem i j _ hroom hne]

/-- The copy loop of `assignNumbers` wraps its index: in a buffer with room
for 65536 elements, element `k` of the container ends up at index
`k mod 65536` unless a later element is written there. -/
theorem storeNumbers_wraps (T : NumType) (xs : List Int) (mem : List MemVal)
    (hmem : 65536 * T.size ≤ mem.length) :
    ∃ mem1, QmlEvent.storeNumbers T xs 0 mem = .ok mem1 ∧
      ∀ (k : Nat) (v : Int), xs[k]? = some v → xs.length ≤ k + 65536 →
        readNumber T mem1 ((k % 65536 : Nat) : Int) = .ok (wrapSigned T.bits v) := by
  obtain ⟨mem1, hrun, _, hlast, _⟩ := storeNumbers_wrap_from T xs 0 mem (by decide) hmem
  refine ⟨mem1, hrun, ?_⟩
  intro k v hk hwin
  have := hlast k v hk hwin
  rw [Nat.zero_add] at this
  exact this


theorem NumType.bits_div (T : NumType) : T.bits / 8 = T.size := by
  unfold NumType.bits
  omega

theorem isCopy_of_assignData {h h1 : Heap} {r e1 : QmlEvent} {T : NumType} {vs : List Int}
    {s : St} (hh : Holds h r T vs) (hh1 : Holds h1 r T vs)
    (htag : e1.m_dataType = r.m_dataType) (hlen : e1.m_dataLength = r.m_dataLength)
    (hts : e1.m_timestamp = r.m_timestamp) (hd : e1.m_duration = r.m_duration)
    (hti : e1.m_typeIndex = r.m_typeIndex)
    (hrun : QmlEvent.assignData r (h1, e1) = .ok s) : IsCopy h r s := by
  obtain ⟨s1, hrun1, hholds, h1', h2, h3, h4, h5, hkeep, _, hextc, _⟩ :=
    assignData_spec hh1 htag hlen
  rw [hrun] at hrun1
  cases hrun1
  refine ⟨h1'.trans hts, h2.trans hd, h3.trans hti, h4, h5,
    fun U i => hholds.number_eq hh U i, ?_⟩
  intro hext
  obtain ⟨hheap, hdata⟩ := hextc hext
  have hbig := hh1.isExternal_iff.mp hext
  have hl : r.m_dataLength = vs.length := hh1.1
  obtain ⟨_, _, _, _, ⟨_, hfit, _⟩ | ⟨_, _, p, hp, hblk1⟩⟩ := hh1
  · omega
  · have hown : Owns r p := ⟨hext, hp⟩
    have hplt : p < h1.blocks.length := by
      by_contra hge
      rw [List.getElem?_eq_none (by omega)] at hblk1
      cases hblk1
    refine ⟨p, h1.blocks.length, encodeAll T vs, hown, ⟨?_, hdata⟩, by omega,
      hh.ownedBlock hown, hkeep p _ hblk1 (fun hf => hf), ?_, ?_⟩
    · unfold QmlEvent.isExternal
      rw [h4]
      exact hext
    · rw [hheap]
      simp
    · rw [encodeAll_length, hl, hh.storedWidth, NumType.bits_div]

/-- Claim C11 (copy preserves the record). For every record `r` of a reachable
state, the copy constructor returns, and copy assignment to any other record of
the state returns; the new record has the timestamp, duration, type index, tag
and length of `r`, `number<U>(i)` on it equals `number<U>(i)` on `r` for every
type and every index, and when `r` is external the copy owns a block of its own
of `len * (w / 8)` bytes with the bytes of the block of `r`. -/
theorem copy_preserves (c : Config) (hr : Reachable c) (j : Nat) (r : QmlEvent)
    (hj : c.objs[j]? = some r) :
    (∃ s, QmlEvent.copy r c.heap = .ok s ∧ IsCopy c.heap r s) ∧
    (∀ (k : Nat) (e : QmlEvent), c.objs[k]? = some e → j ≠ k →
      ∃ s, QmlEvent.assign r (c.heap, e) = .ok s ∧ IsCopy c.heap r s) := by
  have hinv := hr.inv
  obtain ⟨T, vs, hh⟩ := hinv.holdsAt hj
  constructor
  · obtain ⟨s, hrun, _⟩ := copy_spec hh
    exact ⟨s, hrun, isCopy_of_assignData hh hh rfl rfl rfl rfl rfl hrun⟩
  · intro k e hk hne
    obtain ⟨T0, vs0, he⟩ := hinv.holdsAt hk
    have hdis : ∀ p, Owns r p → ¬ Owns e p := fun p hp => hinv.2 j k r e p hne hj hk hp
    obtain ⟨s, hrun, _⟩ := assign_spec he hh hdis
    obtain ⟨h1, hclear, _, hkeep, _⟩ := clearPointer_spec he
    have hh1 : Holds h1 r T vs := hh.frame hkeep hdis
    refine ⟨s, hrun, ?_⟩
    unfold QmlEvent.assign at hrun
    rw [hclear] at hrun
    exact isCopy_of_assignData hh hh1 rfl rfl rfl rfl rfl hrun

/-- Witness of claim C11: the copy of the record that holds 1000, -5, 130000
in a heap block. -/
theorem copy_preserves_witness :
    ∃ s, QmlEvent.copy externalEvent externalHeap = .ok s ∧
      IsCopy externalHeap externalEvent s :=
  (copy_preserves externalConfig externalConfig_reachable 0 externalEvent rfl).1


/-- Claim C13 (validity). For every record, `isValid()` is true if and only if
the timestamp is not -1; the answer is the same for two records with the same
timestamp, whatever their payload, duration and type index; a record with
timestamp -2 is valid. -/
theorem isValid_iff (e : QmlEvent) :
    (e.isValid = true ↔ e.m_timestamp ≠ -1) ∧
    (∀ e1 : QmlEvent, e1.m_timestamp = e.m_timestamp → e1.isValid = e.isValid) ∧
    QmlEvent.isValid { e with m_timestamp := -2 } = true := by
  refine ⟨?_, ?_, rfl⟩
  · unfold QmlEvent.isValid
    simp
  · intro e1 h1
    unfold QmlEvent.isValid
    rw [h1]

/-- Claim C14 (default record). The default-constructed record has timestamp
-1, is not valid, has length 0 and the tag `Inline8Bit` (flag `External`
clear), and over every heap `number<U>(i)` is 0 for every type and every index
`i ≥ 0`. -/
theorem default_record :
    QmlEvent.init.m_timestamp = -1 ∧ QmlEvent.init.isValid = false ∧
    QmlEvent.init.m_dataLength = 0 ∧ QmlEvent.init.m_dataType = Inline8Bit ∧
    ¬ QmlEvent.init.isExternal ∧
    ∀ (h : Heap) (U : NumType) (i : Nat), QmlEvent.number U (h, QmlEvent.init) (i : Int) = .ok 0 :=
  ⟨rfl, rfl, rfl, rfl, by decide, fun h U i =>
    number_ge U (h, QmlEvent.init) (i : Int) (Int.ofNat_nonneg i)⟩

/-- Claim C15 (stage round trip). For every reachable record and every stage
value representable in a signed byte, `setRangeStage` returns; the record then
has exactly one element, the tag `Inline8Bit` (inline, width 8), which is the
precondition of `rangeStage`, and `rangeStage` returns the stage. -/
theorem stage_round_trip (c : Config) (hr : Reachable c) (e : QmlEvent) (he : e ∈ c.objs)
    (stage : Int) (hstage : InRange 8 stage) :
    ∃ s, QmlEvent.setRangeStage stage (c.heap, e) = .ok s ∧
      s.2.m_dataLength = 1 ∧ s.2.m_dataType = Inline8Bit ∧ ¬ s.2.isExternal ∧
      s.2.storedWidth = 8 ∧ QmlEvent.rangeStage s = .ok stage := by
  obtain ⟨T0, vs0, hh⟩ := hr.holds he
  obtain ⟨h1, _, hrun, _⟩ := setRangeStage_spec hh stage
  have hint : ¬ (Inline8Bit &&& External ≠ 0) := by decide
  have hwidth : Inline8Bit - (Inline8Bit &&& External) = 8 := by decide
  refine ⟨_, hrun, rfl, rfl, hint, hwidth, ?_⟩
  unfold QmlEvent.rangeStage
  have hnot : ¬ (Inline8Bit ≠ Inline8Bit) := fun hne => hne rfl
  simp only [hnot, if_false]
  have := readNumber_append .qint8 [] (e.m_data.drop 1) 0 (wrapSigned 8 stage) rfl
  simp only [List.nil_append, Nat.cast_zero] at this
  rw [this]
  have h8 : NumType.qint8.bits = 8 := rfl
  rw [h8, wrapSigned_idem 8 (by decide), wrapSigned_of_inRange 8 (by decide) _ hstage]

/-- Witness of claim C15: stage -3 set on the external record that holds
1000, -5, 130000. -/
theorem stage_round_trip_witness :
    ∃ s, QmlEvent.setRangeStage (-3) (externalHeap, externalEvent) = .ok s ∧
      s.2.m_dataLength = 1 ∧ s.2.m_dataType = Inline8Bit ∧ ¬ s.2.isExternal ∧
      s.2.storedWidth = 8 ∧ QmlEvent.rangeStage s = .ok (-3) :=
  stage_round_trip externalConfig externalConfig_reachable externalEvent
    (List.mem_singleton_self _) (-3) (by decide)

/-- Claim C18 (worked example, external). The record constructed from the
integers 1000, -5, 130000, as `qint32` and as `qint64`, is external at stored
width 32 with length 3; `number(0)` is 1000, `number(1)` is -5, `number(2)` is
130000 and `number(3)` is 0. -/
theorem example_external :
    (∃ s, QmlEvent.ofNumbers .qint32 0 0 0 [1000, -5, 130000] emptyHeap = .ok s ∧
      s.2.isExternal ∧ s.2.storedWidth = 32 ∧ s.2.m_dataType = External32Bit ∧
      s.2.m_dataLength = 3 ∧
      QmlEvent.number .qint32 s 0 = .ok 1000 ∧ QmlEvent.number .qint32 s 1 = .ok (-5) ∧
      QmlEvent.number .qint32 s 2 = .ok 130000 ∧ QmlEvent.number .qint32 s 3 = .ok 0) ∧
    (∃ s, QmlEvent.ofNumbers .qint64 0 0 0 [1000, -5, 130000] emptyHeap = .ok s ∧
      s.2.isExternal ∧ s.2.storedWidth = 32 ∧ s.2.m_dataType = External32Bit ∧
      s.2.m_dataLength = 3 ∧
      QmlEvent.number .qint64 s 0 = .ok 1000 ∧ QmlEvent.number .qint64 s 1 = .ok (-5) ∧
      QmlEvent.number .qint64 s 2 = .ok 130000 ∧ QmlEvent.number .qint64 s 3 = .ok 0) :=
  ⟨⟨_, rfl, by decide, by decide, by decide, by decide, by decide, by decide, by decide,
      by decide⟩,
    ⟨_, rfl, by decide, by decide, by decide, by decide, by decide, by decide, by decide,
      by decide⟩⟩

/-- Claim C19 as amended (worked example, inline). The record constructed from
the integers 1, 2, 3, 4 is inline and the heap is untouched for every source
width; the stored width is 8 for the 8-bit source and 16 for the 16-, 32- and
64-bit sources. -/
theorem example_inline :
    (∃ s, QmlEvent.ofNumbers .qint8 0 0 0 [1, 2, 3, 4] emptyHeap = .ok s ∧
      ¬ s.2.isExternal ∧ s.1 = emptyHeap ∧ s.2.storedWidth = 8) ∧
    (∃ s, QmlEvent.ofNumbers .qint16 0 0 0 [1, 2, 3, 4] emptyHeap = .ok s ∧
      ¬ s.2.isExternal ∧ s.1 = emptyHeap ∧ s.2.storedWidth = 16) ∧
    (∃ s, QmlEvent.ofNumbers .qint32 0 0 0 [1, 2, 3, 4] emptyHeap = .ok s ∧
      ¬ s.2.isExternal ∧ s.1 = emptyHeap ∧ s.2.storedWidth = 16) ∧
    (∃ s, QmlEvent.ofNumbers .qint64 0 0 0 [1, 2, 3, 4] emptyHeap = .ok s ∧
      ¬ s.2.isExternal ∧ s.1 = emptyHeap ∧ s.2.storedWidth = 16) :=
  ⟨⟨_, rfl, by decide, by decide, by decide⟩, ⟨_, rfl, by decide, by decide, by decide⟩,
    ⟨_, rfl, by decide, by decide, by decide⟩, ⟨_, rfl, by decide, by decide, by decide⟩⟩

/-- Counterexample to claim C19 as stated: from a list of 32-bit ints the
record of 1, 2, 3, 4 is stored at width 16, not 8. -/
theorem example_inline_counterexample :
    ∃ s, QmlEvent.ofNumbers .qint32 0 0 0 [1, 2, 3, 4] emptyHeap = .ok s ∧
      s.2.m_dataType = Inline16Bit ∧ s.2.storedWidth ≠ 8 :=
  ⟨_, rfl, by decide, by decide⟩

/-- Claim C20 (copy independence). For every external record `r` of a
reachable state, the copy constructor returns a record `c`; every member
function called on `c` afterwards (`setNumber`, `setNumbers`, `setString`,
`setRangeStage` among them) leaves `number<U>(i)` on `r` as it was, for every
type and index, and every member function called on `r` leaves `number<U>(i)`
on `c` as it was. -/
theorem copy_independence (cfg : Config) (hr : Reachable cfg) (j : Nat) (r : QmlEvent)
    (hj : cfg.objs[j]? = some r) (_hext : r.isExternal) :
    ∃ (h1 : Heap) (c : QmlEvent), QmlEvent.copy r cfg.heap = .ok (h1, c) ∧
      ∀ (m : Method) (s : St) (U : NumType) (i : Int),
        (m.run (h1, c) = .ok s →
          QmlEvent.number U (s.1, r) i = QmlEvent.number U (cfg.heap, r) i) ∧
        (m.run (h1, r) = .ok s →
          QmlEvent.number U (s.1, c) i = QmlEvent.number U (h1, c) i) := by
  obtain ⟨T, vs, hh⟩ := hr.inv.holdsAt hj
  obtain ⟨s0, hrun, hholds, _, _, _, _, _, hkeep, _⟩ := copy_spec hh
  have hr1 : Reachable { heap := s0.1, objs := cfg.objs ++ [s0.2] } :=
    Reachable.copy j r s0 hr hj hrun
  have hjlt : j < cfg.objs.length := by
    by_contra hge
    rw [List.getElem?_eq_none (by omega)] at hj
    cases hj
  have hj1 : (cfg.objs ++ [s0.2])[j]? = some r := by
    rw [List.getElem?_append_left hjlt]
    exact hj
  have hc1 : (cfg.objs ++ [s0.2])[cfg.objs.length]? = some s0.2 :=
    List.getElem?_concat_length _ _
  have hsame : ∀ (U : NumType) (i : Int),
      QmlEvent.number U (s0.1, r) i = QmlEvent.number U (cfg.heap, r) i :=
    fun U i => (hh.frame hkeep (fun _ _ hf => hf)).number_eq hh U i
  refine ⟨s0.1, s0.2, hrun, ?_⟩
  intro m s U i
  constructor
  · intro hm
    rw [← hsame U i]
    exact hr1.call_frame hc1 hj1 (by omega) m hm U i
  · intro hm
    exact hr1.call_frame hj1 hc1 (by omega) m hm U i

/-- Witness of claim C20: the record that holds 1000, -5, 130000 and its
copy; `setString("abc")` on the copy leaves element 2 of the record, and
`setNumbers<qint8>({})` on the record leaves element 2 of the copy. -/
theorem copy_independence_witness :
    ∃ (h1 : Heap) (c : QmlEvent), QmlEvent.copy externalEvent externalHeap = .ok (h1, c) ∧
      (∃ s, QmlEvent.setString [97, 98, 99] (h1, c) = .ok s ∧
        QmlEvent.number .qint32 (s.1, externalEvent) 2 = .ok 130000) ∧
      (∃ s, QmlEvent.setNumbers .qint8 [] (h1, externalEvent) = .ok s ∧
        QmlEvent.number .qint32 (s.1, c) 2 = .ok 130000) := by
  obtain ⟨h1, c, hcopy, hind⟩ :=
    copy_independence externalConfig externalConfig_reachable 0 externalEvent rfl (by decide)
  have hval : QmlEvent.copy externalEvent externalHeap = .ok (copiedHeap, copiedEvent) := by
    decide
  have heq : (h1, c) = (copiedHeap, copiedEvent) := Except.ok.inj (hcopy.symm.trans hval)
  cases heq
  refine ⟨_, _, hval, ⟨_, rfl, ?_⟩, ⟨_, rfl, ?_⟩⟩
  · exact ((hind (.setString [97, 98, 99]) _ .qint32 2).1 rfl).trans (by decide)
  · exact ((hind (.setNumbers .qint8 []) _ .qint32 2).2 rfl).trans (by decide)


/-- Claim C16 (length clamp) fails on the code for containers of more than
65535 elements: `assignNumbers` sets the length to 65535 and allocates 65535
elements, but its copy loop runs over the whole container and writes element
65535 behind the end of the block, so the construction leaves defined
behaviour; shown for 65536 `qint8` zeros and for every longer container. For
at most 65535 elements the length is the number of elements, and the length of
every reachable record is at most 65535. -/
theorem length_clamp_overflows :
    QmlEvent.ofNumbers .qint8 0 0 0 (List.replicate 65536 0) emptyHeap =
      .error .outOfBounds ∧
    (∀ (T : NumType) (xs : List Int) (timestamp duration typeIndex : Int) (h : Heap),
      65535 < xs.length →
        QmlEvent.ofNumbers T timestamp duration typeIndex xs h = .error .outOfBounds) ∧
    (∀ (T : NumType) (xs : List Int) (timestamp duration typeIndex : Int) (h : Heap),
      xs.length ≤ 65535 →
        ∃ s, QmlEvent.ofNumbers T timestamp duration typeIndex xs h = .ok s ∧
          s.2.m_dataLength = min xs.length 65535) ∧
    (∀ c : Config, Reachable c → ∀ e ∈ c.objs, e.m_dataLength ≤ 65535) := by
  refine ⟨ofNumbers_long .qint8 _ (by rw [List.length_replicate]; decide) 0 0 0 emptyHeap,
    fun T xs ts d ti h hlen => ofNumbers_long T xs hlen ts d ti h, ?_, ?_⟩
  · intro T xs ts d ti h hlen
    obtain ⟨s, w, hrun, hass⟩ := assignNumbers_spec T xs (h, QmlEvent.header ts d ti) rfl hlen
    refine ⟨s, hrun, ?_⟩
    rw [hass.2.2.2.2.2.1, Nat.min_eq_left hlen]
  · intro c hr e he
    obtain ⟨T, vs, hh⟩ := hr.holds he
    have h1 : e.m_dataLength = vs.length := hh.1
    have h2 : vs.length ≤ 65535 := hh.2.1
    omega

/-- Claim C17 as amended (no prefix is kept). The copy loop of
`assignNumbers` visits every element of the container with a 16-bit index
that wraps: in a buffer with room for 65536 elements it returns, and index
`k mod 65536` then holds element `k` of the container for every `k` in the
last 65536 positions, so the elements from position 65536 on overwrite the
first ones. -/
theorem copy_loop_wraps (T : NumType) (xs : List Int) (mem : List MemVal)
    (hmem : 65536 * T.size ≤ mem.length) :
    ∃ mem1, QmlEvent.storeNumbers T xs 0 mem = .ok mem1 ∧
      ∀ (k : Nat) (v : Int), xs[k]? = some v → xs.length ≤ k + 65536 →
        readNumber T mem1 ((k % 65536 : Nat) : Int) = .ok (wrapSigned T.bits v) :=
  storeNumbers_wraps T xs mem hmem

/-- Witness of the amended claim C17: 65536 zeros followed by 7 and 9, as
`qint8`; index 1 ends up holding 9. -/
theorem copy_loop_wraps_witness :
    ∃ mem1, QmlEvent.storeNumbers .qint8 (List.replicate 65536 0 ++ [7, 9]) 0
        (List.replicate 65536 MemVal.undef) = .ok mem1 ∧
      readNumber .qint8 mem1 1 = .ok 9 := by
  obtain ⟨mem1, hrun, hlast⟩ := copy_loop_wraps .qint8 (List.replicate 65536 0 ++ [7, 9])
    (List.replicate 65536 MemVal.undef) (by rw [List.length_replicate]; decide)
  have hlen : (List.replicate 65536 (0 : Int) ++ [7, 9]).length = 65538 := by
    rw [List.length_append, List.length_replicate]
    rfl
  have hget : (List.replicate 65536 (0 : Int) ++ [7, 9])[65537]? = some 9 := by
    rw [List.getElem?_append_right (by rw [List.length_replicate]; decide),
      List.length_replicate]
    rfl
  exact ⟨mem1, hrun, hlast 65537 9 hget (by rw [hlen]; decide)⟩

/-- Counterexample to claim C17 as stated: from 65536 zeros followed by 7, as
`qint8`, no record is constructed (the copy loop writes behind the end of the
block), and the loop, given room, leaves 7 at index 0, where the claim has
the first element, 0. -/
theorem truncation_keeps_prefix_counterexample :
    (¬ ∃ s, QmlEvent.ofNumbers .qint8 0 0 0 (List.replicate 65536 0 ++ [7]) emptyHeap = .ok s) ∧
    (∃ mem1, QmlEvent.storeNumbers .qint8 (List.replicate 65536 0 ++ [7]) 0
        (List.replicate 65536 MemVal.undef) = .ok mem1 ∧
      readNumber .qint8 mem1 0 = .ok 7) := by
  have hlen : (List.replicate 65536 (0 : Int) ++ [7]).length = 65537 := by
    rw [List.length_append, List.length_replicate]
    rfl
  constructor
  · rintro ⟨s, hs⟩
    rw [ofNumbers_long .qint8 _ (by rw [hlen]; decide) 0 0 0 emptyHeap] at hs
    cases hs
  · obtain ⟨mem1, hrun, hlast⟩ := storeNumbers_wraps .qint8 (List.replicate 65536 0 ++ [7])
      (List.replicate 65536 MemVal.undef) (by rw [List.length_replicate]; decide)
    have hget : (List.replicate 65536 (0 : Int) ++ [7])[65536]? = some 7 := by
      rw [List.getElem?_append_right (by rw [List.length_replicate]),
        List.length_replicate]
      rfl
    exact ⟨mem1, hrun, hlast 65536 7 hget (by rw [hlen]; decide)⟩


/-! ## The serialization codec -/

theorem takeBytes_append (n : Nat) (bs rest : List (Fin 256)) (h : bs.length = n) :
    takeBytes n (bs ++ rest) = .ok (bs, rest) := by
  unfold takeBytes
  rw [if_neg (by rw [List.length_append]; omega), List.take_left' h, List.drop_left' h]

theorem toWire_length (T : NumType) (v : Int) : (toWire T v).length = T.size := by
  unfold toWire
  exact toBytes_length _ _

theorem decode_toWire (T : NumType) (v : Int) : decode T (toWire T v) = wrapSigned T.bits v :=
  decode_toBytes T v

theorem readElements_payload (T : NumType) (vs : List Int) (rest : List (Fin 256)) :
    readElements T vs.length (payloadBytes T vs ++ rest) =
      .ok (vs.map (wrapSigned T.bits), rest) := by
  induction vs with
  | nil => rfl
  | cons v vs ih =>
    simp only [List.length_cons, readElements, payloadBytes, List.append_assoc]
    rw [takeBytes_append T.size _ _ (toWire_length T v)]
    simp only
    rw [ih]
    simp only [decode_toWire, List.map_cons]

theorem NumType.ofBits_bits (T : NumType) :
    NumType.ofBits (fromBytes [Fin.ofNat T.bits]) = some T := by
  cases T <;> rfl

theorem NumType.ofBits_storedWidth {h : Heap} {e : QmlEvent} {T : NumType} {vs : List Int}
    (hh : Holds h e T vs) : NumType.ofBits e.storedWidth = some T := by
  rw [hh.storedWidth]
  cases T <;> rfl

/-- Claim C12 (serialization round trip), on the codec modelled from the spec.
For every record `r` of a reachable state whose timestamp, duration and type
index are values of their types (64, 64 and 32 bits), `operator<<` returns
bytes, and `operator>>` reading these bytes, followed by any rest of the
stream, into any record of the state returns, leaves that rest, and yields a
record with the timestamp, duration, type index and length of `r` and the same
`number<U>(i)` at every type and index. -/
theorem serialization_round_trip (c : Config) (hr : Reachable c) (r : QmlEvent)
    (hmem : r ∈ c.objs) (hts : InRange 64 r.m_timestamp) (hd : InRange 64 r.m_duration)
    (hti : InRange 32 r.m_typeIndex) :
    ∃ bytes, QmlEvent.operatorOut (c.heap, r) = .ok bytes ∧
      ∀ (e : QmlEvent) (rest : List (Fin 256)), e ∈ c.objs →
        ∃ s, QmlEvent.operatorIn (bytes ++ rest) (c.heap, e) = .ok (s, rest) ∧
          s.2.m_timestamp = r.m_timestamp ∧ s.2.m_duration = r.m_duration ∧
          s.2.m_typeIndex = r.m_typeIndex ∧ s.2.m_dataLength = r.m_dataLength ∧
          ∀ (U : NumType) (i : Int),
            QmlEvent.number U s i = QmlEvent.number U (c.heap, r) i := by
  obtain ⟨T, vs, hh⟩ := hr.holds hmem
  have hin := hh.2.2.1
  have hl : r.m_dataLength = vs.length := hh.1
  have hle : vs.length ≤ 65535 := hh.2.1
  have hmap : vs.map (wrapSigned T.bits) = vs :=
    map_wrapSigned_of_inRange T.bits T.bits_pos vs hin
  refine ⟨toWire .qint64 r.m_timestamp ++ toWire .qint64 r.m_duration ++
    toWire .qint32 r.m_typeIndex ++ [Fin.ofNat T.bits] ++ toBytes 2 r.m_dataLength ++
    payloadBytes T vs, ?_, ?_⟩
  · unfold QmlEvent.operatorOut
    simp only [NumType.ofBits_storedWidth hh, hh.numbers T, hmap]
  · intro e rest he
    obtain ⟨T0, vs0, heh⟩ := hr.holds he
    have hhead : Holds c.heap (QmlEvent.mk r.m_timestamp r.m_duration e.m_data r.m_typeIndex
        e.m_dataType e.m_dataLength) T0 vs0 :=
      heh.header rfl rfl rfl
    obtain ⟨h1, s, w, _, hrun, hass⟩ := setNumbers_spec hhead T vs hle
    have hholds := hass.toHolds hhead.data_length hle
    rw [hmap] at hholds
    have hlen2 : fromBytes (toBytes 2 r.m_dataLength) = vs.length := by
      rw [fromBytes_toBytes, hl]
      exact Nat.mod_eq_of_lt (by omega)
    refine ⟨s, ?_, hass.2.2.1, hass.2.2.2.1, hass.2.2.2.2.1, ?_,
      fun U i => hholds.number_eq hh U i⟩
    · unfold QmlEvent.operatorIn
      simp only [List.append_assoc]
      rw [takeBytes_append 8 _ _ (toWire_length .qint64 _)]
      simp only
      rw [takeBytes_append 8 _ _ (toWire_length .qint64 _)]
      simp only
      rw [takeBytes_append 4 _ _ (toWire_length .qint32 _)]
      simp only
      rw [takeBytes_append 1 [Fin.ofNat T.bits] _ rfl]
      simp only [NumType.ofBits_bits]
      rw [takeBytes_append 2 _ _ (toBytes_length 2 _)]
      simp only [hlen2]
      rw [readElements_payload, hmap]
      simp only [decode_toWire]
      have h64 : NumType.qint64.bits = 64 := rfl
      have h32 : NumType.qint32.bits = 32 := rfl
      rw [h64, h32, wrapSigned_of_inRange 64 (by decide) _ hts,
        wrapSigned_of_inRange 64 (by decide) _ hd, wrapSigned_of_inRange 32 (by decide) _ hti,
        hrun]
    · rw [hass.2.2.2.2.2.1, hl]

/-- Witness of claim C12: the record that holds 1000, -5, 130000 is written
and read back into itself. -/
theorem serialization_round_trip_witness :
    ∃ bytes, QmlEvent.operatorOut (externalHeap, externalEvent) = .ok bytes ∧
      ∃ s, QmlEvent.operatorIn (bytes ++ []) (externalHeap, externalEvent) = .ok (s, []) ∧
        s.2.m_dataLength = externalEvent.m_dataLength ∧
        QmlEvent.number .qint32 s 2 = QmlEvent.number .qint32 (externalHeap, externalEvent) 2 :=
  (serialization_round_trip externalConfig externalConfig_reachable externalEvent
    (List.mem_singleton_self _) (by decide) (by decide) (by decide)).imp
    fun _ hb => ⟨hb.1, (hb.2 externalEvent [] (List.mem_singleton_self _)).imp
      fun _ hs => ⟨hs.1, hs.2.2.2.2.1, hs.2.2.2.2.2 .qint32 2⟩⟩


/-! ## The contract of `string` -/

theorem cstring_ne_unreachable (mem : List MemVal) :
    QmlEvent.cstring mem ≠ .error .unreachable := by
  induction mem with
  | nil =>
    intro h
    cases h
  | cons m rest ih =>
    cases m with
    | undef =>
      intro h
      cases h
    | ptr p k =>
      intro h
      cases h
    | byte b =>
      simp only [QmlEvent.cstring]
      split
      · intro h
        cases h
      · cases hr : QmlEvent.cstring rest with
        | ok bs =>
          intro h
          cases h
        | error f =>
          intro h
          simp only at h
          cases h
          exact ih hr

theorem loadPtr_ne_unreachable (mem : List MemVal) : loadPtr mem ≠ .error .unreachable := by
  unfold loadPtr
  split
  · split
    · intro h
      cases h
    · intro h
      cases h
  · intro h
    cases h

theorem load_ne_unreachable (h : Heap) (p : Nat) : h.load p ≠ .error .unreachable := by
  unfold Heap.load
  split
  · intro h
    cases h
  · intro h
    cases h

/-- `string` reaches `Q_UNREACHABLE` exactly on the tags other than
`External8Bit` and `Inline8Bit`. -/
theorem string_unreachable_iff (s : St) :
    QmlEvent.string s = .error .unreachable ↔
      (s.2.m_dataType ≠ External8Bit ∧ s.2.m_dataType ≠ Inline8Bit) := by
  unfold QmlEvent.string
  by_cases h9 : s.2.m_dataType = External8Bit
  · rw [if_pos h9]
    constructor
    · intro h
      exfalso
      cases hp : loadPtr s.2.m_data with
      | error f =>
        rw [hp] at h
        simp only at h
        cases h
        exact loadPtr_ne_unreachable _ hp
      | ok p =>
        rw [hp] at h
        simp only at h
        cases hl : s.1.load p with
        | error f =>
          rw [hl] at h
          simp only at h
          cases h
          exact load_ne_unreachable _ _ hl
        | ok blk =>
          rw [hl] at h
          exact cstring_ne_unreachable blk h
    · intro h
      exact absurd h9 h.1
  · rw [if_neg h9]
    by_cases h8 : s.2.m_dataType = Inline8Bit
    · rw [if_pos h8]
      constructor
      · intro h
        exact absurd h (cstring_ne_unreachable _)
      · intro h
        exact absurd h8 h.2
    · rw [if_neg h8]
      exact ⟨fun _ => ⟨h9, h8⟩, fun _ => rfl⟩

theorem Holds.eight_bit_tag_iff {h : Heap} {e : QmlEvent} {T : NumType} {vs : List Int}
    (hh : Holds h e T vs) :
    (e.m_dataType ≠ External8Bit ∧ e.m_dataType ≠ Inline8Bit) ↔ e.storedWidth ≠ 8 := by
  rw [hh.storedWidth]
  obtain ⟨_, _, _, _, ⟨htag, _⟩ | ⟨htag, _⟩⟩ := hh
  · rw [htag]
    cases T <;> decide
  · rw [htag]
    cases T <;> decide

/-- Claim C22 (precondition of `string`). On every reachable record `string`
takes its `Q_UNREACHABLE` branch if and only if the stored width is not 8; it
does not take it on a record the text constructor built or `setString` left;
it takes it on the record built from the 16-bit list `{1000}`. -/
theorem string_precondition (c : Config) (hr : Reachable c) (e : QmlEvent) (he : e ∈ c.objs) :
    (QmlEvent.string (c.heap, e) = .error .unreachable ↔ e.storedWidth ≠ 8) ∧
    (∀ (data : List (Fin 256)) (s : St), QmlEvent.setString data (c.heap, e) = .ok s →
      QmlEvent.string s ≠ .error .unreachable) ∧
    (∀ (data : List (Fin 256)) (timestamp duration typeIndex : Int) (s : St),
      QmlEvent.ofString timestamp duration typeIndex data c.heap = .ok s →
        QmlEvent.string s ≠ .error .unreachable) ∧
    (∃ s, QmlEvent.ofNumbers .qint16 0 0 0 [1000] emptyHeap = .ok s ∧
      QmlEvent.string s = .error .unreachable) := by
  obtain ⟨T, vs, hh⟩ := hr.holds he
  refine ⟨?_, ?_, ?_, ⟨_, rfl, by decide⟩⟩
  · rw [string_unreachable_iff]
    exact hh.eight_bit_tag_iff
  · intro data s hrun
    obtain ⟨hlen, h1, w, _, hass⟩ := setNumbers_ok (T := .qint8) hh hrun
    have hw := (hass.eight_bit_layout hh.data_length
      (by rw [← toUtf8_length]; exact hlen)).1
    intro hu
    have hs := hass.toHolds hh.data_length hlen
    exact (hs.eight_bit_tag_iff.mp ((string_unreachable_iff s).mp hu)) hw
  · intro data ts d ti s hrun
    have hrun1 : QmlEvent.assignNumbers .qint8 (QmlEvent.toUtf8 data)
        (c.heap, QmlEvent.header ts d ti) = .ok s := hrun
    obtain ⟨hlen, w, hass⟩ := assignNumbers_ok hrun1 rfl
    have hw := (hass.eight_bit_layout rfl (by rw [← toUtf8_length]; exact hlen)).1
    intro hu
    have hs := hass.toHolds rfl hlen
    exact (hs.eight_bit_tag_iff.mp ((string_unreachable_iff s).mp hu)) hw

/-- Witness of claim C22: the record that holds 1000, -5, 130000 at width 32. -/
theorem string_precondition_witness :
    (QmlEvent.string (externalHeap, externalEvent) = .error .unreachable ↔
      externalEvent.storedWidth ≠ 8) ∧
    (∃ s, QmlEvent.ofNumbers .qint16 0 0 0 [1000] emptyHeap = .ok s ∧
      QmlEvent.string s = .error .unreachable) :=
  have key := string_precondition externalConfig externalConfig_reachable externalEvent
    (List.mem_singleton_self _)
  ⟨key.1, key.2.2.2⟩

/-- Claim C24 (no shrinking on the inline path). For every source type `T`
and every list `xs` of values with `|xs| * sizeof(T) ≤ 8`, the constructor
returns a record that is inline at width exactly `T`, whatever the values,
with the heap untouched, and `number<T>(i)` is `xs[i]`; the `qint64` list
`{1}` is stored inline at width 64. -/
theorem inline_keeps_width (T : NumType) (xs : List Int) (hfit : xs.length * T.size ≤ 8)
    (hxs : ∀ x ∈ xs, InRange T.bits x) (timestamp duration typeIndex : Int) (h : Heap) :
    (∃ s, QmlEvent.ofNumbers T timestamp duration typeIndex xs h = .ok s ∧
      ¬ s.2.isExternal ∧ s.2.storedWidth = T.bits ∧ s.2.m_dataType = T.size * 8 ∧ s.1 = h ∧
      ∀ (i : Nat) (hi : i < xs.length),
        QmlEvent.number T s (i : Int) = .ok (xs.get ⟨i, hi⟩)) ∧
    (∃ s, QmlEvent.ofNumbers .qint64 0 0 0 [1] emptyHeap = .ok s ∧
      s.2.m_dataType = Inline64Bit) := by
  refine ⟨?_, ⟨_, rfl, by decide⟩⟩
  have hpos := T.size_pos
  have hlen : xs.length ≤ 65535 := by
    have : xs.length * 1 ≤ xs.length * T.size := Nat.mul_le_mul_left _ hpos
    omega
  obtain ⟨s, w, hrun, hass⟩ :=
    assignNumbers_spec T xs (h, QmlEvent.header timestamp duration typeIndex) rfl hlen
  have hreads := (hass.reads_back rfl hlen hxs).2.1
  have hw : w = T := by
    obtain ⟨hle, _, _, _, _, _, ⟨_, hwhy, _⟩ | ⟨hbig, _⟩⟩ := hass
    · rcases hwhy with hw | hwide
      · exact hw
      · by_contra hne
        have h2 : 2 * w.size ≤ T.size := by
          revert hle hne
          cases w <;> cases T <;> decide
        have := Nat.mul_le_mul_left xs.length h2
        omega
    · exfalso
      have := Nat.mul_le_mul_left xs.length hle
      omega
  subst hw
  have hint : ¬ s.2.isExternal := fun hext => by
    have := hass.external_iff.mp hext
    omega
  refine ⟨s, hrun, hint, hass.storedWidth_eq, ?_, ?_, hreads⟩
  · obtain ⟨_, _, _, _, _, _, ⟨_, _, _, htag, _⟩ | ⟨hbig, _⟩⟩ := hass
    · exact htag
    · omega
  · obtain ⟨_, _, _, _, _, _, ⟨_, _, hheap, _, _⟩ | ⟨hbig, _⟩⟩ := hass
    · exact hheap
    · omega

/-- Witness of claim C24: the `qint32` values 1 and 2. -/
theorem inline_keeps_width_witness :
    ∃ s, QmlEvent.ofNumbers .qint32 0 0 0 [1, 2] emptyHeap = .ok s ∧
      ¬ s.2.isExternal ∧ s.2.storedWidth = NumType.qint32.bits :=
  (inline_keeps_width .qint32 [1, 2] (by decide) (by decide) 0 0 0 emptyHeap).1.imp
    fun _ hs => ⟨hs.1, hs.2.1, hs.2.2.1⟩

/-- Claim C25 (squeezability is exact representability). For every integer
`x` and every target type `Small` of `b` bits, `squeezable<Big, Small>(x)`
(narrow modulo `2^b`, widen back, compare) is true if and only if
`-2^(b-1) ≤ x ≤ 2^(b-1) - 1`, in particular for the targets of 8, 16 and 32
bits of the 16-, 32- and 64-bit sources; and `squeezable<size_t, quint16>(n)`
is true if and only if `n ≤ 65535`. -/
theorem squeezable_exact :
    (∀ (small : NumType) (x : Int), squeezable small x = true ↔
      (-(2 : Int) ^ (small.bits - 1) ≤ x ∧ x ≤ (2 : Int) ^ (small.bits - 1) - 1)) ∧
    (∀ x : Int, squeezable .qint8 x = true ↔ (-128 ≤ x ∧ x ≤ 127)) ∧
    (∀ x : Int, squeezable .qint16 x = true ↔ (-32768 ≤ x ∧ x ≤ 32767)) ∧
    (∀ x : Int, squeezable .qint32 x = true ↔ (-2147483648 ≤ x ∧ x ≤ 2147483647)) ∧
    (∀ n : Nat, squeezableSize n = true ↔ n ≤ 65535) := by
  have key : ∀ (small : NumType) (x : Int), squeezable small x = true ↔
      (-(2 : Int) ^ (small.bits - 1) ≤ x ∧ x ≤ (2 : Int) ^ (small.bits - 1) - 1) := by
    intro small x
    rw [squeezable_iff]
    unfold InRange
    constructor
    · rintro ⟨h1, h2⟩
      exact ⟨h1, by omega⟩
    · rintro ⟨h1, h2⟩
      exact ⟨h1, by omega⟩
  refine ⟨key, ?_, ?_, ?_, ?_⟩
  · intro x
    rw [key]
    norm_num [NumType.bits, NumType.size]
  · intro x
    rw [key]
    norm_num [NumType.bits, NumType.size]
  · intro x
    rw [key]
    norm_num [NumType.bits, NumType.size]
  · intro n
    unfold squeezableSize
    rw [beq_iff_eq]
    constructor
    · intro h
      have := Nat.mod_lt n (show 65536 > 0 by decide)
      omega
    · intro h
      exact Nat.mod_eq_of_lt (by omega)

/-- Claim C28 (a narrow `setNumber` corrupts other elements). On the record
built from the `qint32` list `{1000, -5, 130000}`, `setNumber<qint8>(1, 7)`
returns, and `number<qint32>(0)`, which was 1000, is then -24, the value of
1000 reduced modulo `2^8` as a signed byte. -/
theorem narrow_setNumber_corrupts :
    QmlEvent.ofNumbers .qint32 0 0 0 [1000, -5, 130000] emptyHeap =
      .ok (externalHeap, externalEvent) ∧
    QmlEvent.number .qint32 (externalHeap, externalEvent) 0 = .ok 1000 ∧
    (∃ s, QmlEvent.setNumber .qint8 1 7 (externalHeap, externalEvent) = .ok s ∧
      QmlEvent.number .qint32 s 0 = .ok (-24) ∧ QmlEvent.number .qint32 s 1 = .ok 7 ∧
      QmlEvent.number .qint32 s 2 = .ok (-48)) ∧
    wrapSigned 8 1000 = -24 :=
  ⟨by decide, by decide, ⟨_, rfl, by decide, by decide, by decide⟩, by decide⟩


/-- Claim C27 (in-bounds reads). For every reachable record with stored
width `w` and every index `0 ≤ i < len`: when the record is inline,
`i < 8 / (w / 8)`, the capacity of the inline array of that width; when it is
external, the block it owns is live, has `len * (w / 8)` bytes and element `i`
lies inside it; and `number<U>(i)` returns a value at every type. -/
theorem reads_in_bounds (c : Config) (hr : Reachable c) (e : QmlEvent) (he : e ∈ c.objs)
    (i : Nat) (hi : i < e.m_dataLength) :
    (¬ e.isExternal → i < s_internalDataLength / (e.storedWidth / 8)) ∧
    (e.isExternal → ∃ (p : Nat) (blk : List MemVal), Owns e p ∧
      c.heap.blocks[p]? = some (some blk) ∧
      blk.length = e.m_dataLength * (e.storedWidth / 8) ∧
      (i + 1) * (e.storedWidth / 8) ≤ blk.length) ∧
    ∀ U : NumType, ∃ v, QmlEvent.number U (c.heap, e) (i : Int) = .ok v := by
  obtain ⟨T, vs, hh⟩ := hr.holds he
  have hl : e.m_dataLength = vs.length := hh.1
  have hext := hh.isExternal_iff
  rw [hh.storedWidth, NumType.bits_div, hl]
  rw [hl] at hi
  refine ⟨?_, ?_, fun U => ⟨_, hh.number_lt U i hi⟩⟩
  · intro hint
    have hfit : vs.length * T.size ≤ 8 := by
      by_contra hbig
      exact hint (hext.mpr (by omega))
    revert hfit
    cases T <;> simp [NumType.size, s_internalDataLength] <;> omega
  · intro hx
    have hbig := hext.mp hx
    obtain ⟨_, _, _, _, ⟨_, hfit, _⟩ | ⟨_, _, p, hp, hblk⟩⟩ := hh
    · omega
    · refine ⟨p, _, ⟨hx, hp⟩, hblk, encodeAll_length T vs, ?_⟩
      rw [encodeAll_length]
      exact Nat.mul_le_mul_right _ hi

/-- Witness of claim C27: index 2 of the record that holds 1000, -5, 130000
in a heap block. -/
theorem reads_in_bounds_witness :
    ∃ v, QmlEvent.number .qint32 (externalHeap, externalEvent) 2 = .ok v :=
  (reads_in_bounds externalConfig externalConfig_reachable externalEvent
    (List.mem_singleton_self _) 2 (by decide)).2.2 .qint32

theorem setNumber_ok {T : NumType} {i v : Int} {s0 s : St}
    (hrun : QmlEvent.setNumber T i v s0 = .ok s) :
    ∃ xs, QmlEvent.setNumbers T xs s0 = .ok s := by
  unfold QmlEvent.setNumber at hrun
  split at hrun
  · cases hrun
  · simp only at hrun
    split at hrun
    · cases hrun
    · split at hrun
      · cases hrun
      · exact ⟨_, hrun⟩

theorem setNumbers_header {h : Heap} {e : QmlEvent} {T0 : NumType} {vs0 : List Int}
    (hh : Holds h e T0 vs0) {T : NumType} {xs : List Int} {s : St}
    (hrun : QmlEvent.setNumbers T xs (h, e) = .ok s) : SameHeader e s.2 := by
  obtain ⟨_, h1, w, _, hass⟩ := setNumbers_ok hh hrun
  exact ⟨hass.2.2.1, hass.2.2.2.1, hass.2.2.2.2.1⟩

/-- Claim C29 (header / payload frame). On every reachable record, whatever
`setNumbers`, `setNumber`, `setString` and `setRangeStage` return has the
timestamp, duration and type index of the record; `setTimestamp`,
`setDuration` and `setTypeIndex` set their own field, leave the two other
header fields, the tag and the length, and leave `number<U>(i)` at every type
and index. -/
theorem header_payload_frame (c : Config) (hr : Reachable c) (e : QmlEvent)
    (he : e ∈ c.objs) :
    (∀ (T : NumType) (xs : List Int) (s : St),
      QmlEvent.setNumbers T xs (c.heap, e) = .ok s → SameHeader e s.2) ∧
    (∀ (T : NumType) (i v : Int) (s : St),
      QmlEvent.setNumber T i v (c.heap, e) = .ok s → SameHeader e s.2) ∧
    (∀ (data : List (Fin 256)) (s : St),
      QmlEvent.setString data (c.heap, e) = .ok s → SameHeader e s.2) ∧
    (∀ (stage : Int) (s : St),
      QmlEvent.setRangeStage stage (c.heap, e) = .ok s → SameHeader e s.2) ∧
    (∀ t : Int, (e.setTimestamp t).m_timestamp = t ∧
      (e.setTimestamp t).m_duration = e.m_duration ∧
      (e.setTimestamp t).m_typeIndex = e.m_typeIndex ∧ SamePayload e (e.setTimestamp t)) ∧
    (∀ d : Int, (e.setDuration d).m_duration = d ∧
      (e.setDuration d).m_timestamp = e.m_timestamp ∧
      (e.setDuration d).m_typeIndex = e.m_typeIndex ∧ SamePayload e (e.setDuration d)) ∧
    (∀ t : Int, (e.setTypeIndex t).m_typeIndex = t ∧
      (e.setTypeIndex t).m_timestamp = e.m_timestamp ∧
      (e.setTypeIndex t).m_duration = e.m_duration ∧ SamePayload e (e.setTypeIndex t)) := by
  obtain ⟨T0, vs0, hh⟩ := hr.holds he
  refine ⟨?_, ?_, ?_, ?_, ?_, ?_, ?_⟩
  · intro T xs s hrun
    exact setNumbers_header hh hrun
  · intro T i v s hrun
    obtain ⟨xs, hrun1⟩ := setNumber_ok hrun
    exact setNumbers_header hh hrun1
  · intro data s hrun
    have hrun1 : QmlEvent.setNumbers .qint8 (QmlEvent.toUtf8 data) (c.heap, e) = .ok s := hrun
    exact setNumbers_header hh hrun1
  · intro stage s hrun
    obtain ⟨h1, _, hrun1, _⟩ := setRangeStage_spec hh stage
    rw [hrun] at hrun1
    cases hrun1
    exact ⟨rfl, rfl, rfl⟩
  · intro t
    exact ⟨rfl, rfl, rfl, rfl, rfl, fun _ _ _ => rfl⟩
  · intro d
    exact ⟨rfl, rfl, rfl, rfl, rfl, fun _ _ _ => rfl⟩
  · intro t
    exact ⟨rfl, rfl, rfl, rfl, rfl, fun _ _ _ => rfl⟩

/-- Witness of claim C29: `setString("abc")` and `setTimestamp(5)` on the
record that holds 1000, -5, 130000. -/
theorem header_payload_frame_witness :
    (∃ s, QmlEvent.setString [97, 98, 99] (externalHeap, externalEvent) = .ok s ∧
      SameHeader externalEvent s.2) ∧
    SamePayload externalEvent (externalEvent.setTimestamp 5) :=
  have key := header_payload_frame externalConfig externalConfig_reachable externalEvent
    (List.mem_singleton_self _)
  ⟨⟨_, rfl, key.2.2.1 [97, 98, 99] _ rfl⟩, (key.2.2.2.2.1 5).2.2.2⟩

/-- Claim C30 (tag well-formedness). The tag of every reachable record is one
of the eight enumerators 8, 9, 16, 17, 32, 33, 64, 65; the quotient `tag / 8`
is the element size 1, 2, 4 or 8, the same with and without the flag
`External`; and the block an external record owns has `len * (tag / 8)` bytes,
the size `assignData` copies. -/
theorem tag_well_formed (c : Config) (hr : Reachable c) (e : QmlEvent) (he : e ∈ c.objs) :
    (e.m_dataType = Inline8Bit ∨ e.m_dataType = External8Bit ∨
      e.m_dataType = Inline16Bit ∨ e.m_dataType = External16Bit ∨
      e.m_dataType = Inline32Bit ∨ e.m_dataType = External32Bit ∨
      e.m_dataType = Inline64Bit ∨ e.m_dataType = External64Bit) ∧
    (e.m_dataType = 8 ∨ e.m_dataType = 9 ∨ e.m_dataType = 16 ∨ e.m_dataType = 17 ∨
      e.m_dataType = 32 ∨ e.m_dataType = 33 ∨ e.m_dataType = 64 ∨ e.m_dataType = 65) ∧
    (e.m_dataType / 8 = 1 ∨ e.m_dataType / 8 = 2 ∨ e.m_dataType / 8 = 4 ∨
      e.m_dataType / 8 = 8) ∧
    e.m_dataType / 8 = e.storedWidth / 8 ∧
    (e.isExternal → ∃ (p : Nat) (blk : List MemVal), Owns e p ∧
      c.heap.blocks[p]? = some (some blk) ∧
      blk.length = e.m_dataLength * (e.m_dataType / 8)) := by
  obtain ⟨T, vs, hh⟩ := hr.holds he
  have hw := hh.storedWidth
  have hext := hh.isExternal_iff
  have hl : e.m_dataLength = vs.length := hh.1
  obtain ⟨_, _, _, _, ⟨htag, hfit, _⟩ | ⟨htag, hbig, p, hp, hblk⟩⟩ := hh
  · refine ⟨?_, ?_, ?_, ?_, ?_⟩
    · rw [htag]
      cases T <;> decide
    · rw [htag]
      cases T <;> decide
    · rw [htag]
      cases T <;> decide
    · rw [hw, htag]
      cases T <;> decide
    · intro hx
      have := hext.mp hx
      omega
  · refine ⟨?_, ?_, ?_, ?_, ?_⟩
    · rw [htag]
      cases T <;> decide
    · rw [htag]
      cases T <;> decide
    · rw [htag]
      cases T <;> decide
    · rw [hw, htag]
      cases T <;> decide
    · intro hx
      refine ⟨p, _, ⟨hx, hp⟩, hblk, ?_⟩
      rw [encodeAll_length, hl, htag, tag_div]

/-- Witness of claim C30: the tag 33 of the record that holds 1000, -5,
130000. -/
theorem tag_well_formed_witness :
    externalEvent.m_dataType / 8 = externalEvent.storedWidth / 8 :=
  (tag_well_formed externalConfig externalConfig_reachable externalEvent
    (List.mem_singleton_self _)).2.2.2.1


/-! ## Properties of every reachable record -/

/-- Induction over the reachable states for a property of one record and the
heap: it is enough that the property survives changes to blocks the record
does not own and that every constructor, copy and member function
establishes it. -/
theorem Reachable.forall_objs (P : Heap → QmlEvent → Prop)
    (hframe : ∀ (h h1 : Heap) (e : QmlEvent) (own : Nat → Prop), P h e → h.Keeps h1 own →
      (∀ p, Owns e p → ¬ own p) → P h1 e)
    (hctor : ∀ (ctor : Ctor) (h : Heap) (s : St), ctor.run h = .ok s → P s.1 s.2)
    (hcopy : ∀ (h : Heap) (other : QmlEvent) (s : St), P h other →
      QmlEvent.copy other h = .ok s → P s.1 s.2)
    (hcall : ∀ (h : Heap) (e : QmlEvent) (m : Method) (s : St), P h e →
      m.run (h, e) = .ok s → P s.1 s.2)
    (hassign : ∀ (h : Heap) (e other : QmlEvent) (s : St), P h e → P h other →
      (∀ p, Owns other p → ¬ Owns e p) → QmlEvent.assign other (h, e) = .ok s → P s.1 s.2)
    {c : Config} (hr : Reachable c) : ∀ e ∈ c.objs, P c.heap e := by
  induction hr with
  | start h =>
    intro e he
    cases he
  | construct ctor s hprev hrun ih =>
    obtain ⟨_, hkeep, _⟩ := ctor_sound ctor _ hrun
    intro x hx
    rw [List.mem_append] at hx
    rcases hx with hx | hx
    · exact hframe _ _ x _ (ih x hx) hkeep (fun _ _ hf => hf)
    · rw [List.mem_singleton] at hx
      rw [hx]
      exact hctor ctor _ s hrun
  | copy k other s hprev hk hrun ih =>
    obtain ⟨T, vs, hh⟩ := hprev.inv.holdsAt hk
    obtain ⟨s1, hrun1, _, _, _, _, _, _, hkeep, _⟩ := copy_spec hh
    rw [hrun] at hrun1
    cases hrun1
    intro x hx
    rw [List.mem_append] at hx
    rcases hx with hx | hx
    · exact hframe _ _ x _ (ih x hx) hkeep (fun _ _ hf => hf)
    · rw [List.mem_singleton] at hx
      rw [hx]
      exact hcopy _ other s (ih other (List.mem_iff_getElem?.mpr ⟨k, hk⟩)) hrun
  | call k e m s hprev hk hrun ih =>
    have hinv := hprev.inv
    obtain ⟨T, vs, hh⟩ := hinv.holdsAt hk
    obtain ⟨_, hkeep, _⟩ := method_sound hh m hrun
    intro x hx
    obtain ⟨j, hj⟩ := List.mem_iff_getElem?.mp hx
    simp only [List.getElem?_set] at hj
    split at hj
    · split at hj
      · cases hj
        exact hcall _ e m s (ih e (List.mem_iff_getElem?.mpr ⟨k, hk⟩)) hrun
      · cases hj
    · rename_i hne
      exact hframe _ _ x _ (ih x (List.mem_iff_getElem?.mpr ⟨j, hj⟩)) hkeep
        (fun p hp => hinv.2 j k x e p (fun h => hne h.symm) hj hk hp)
  | assign k j e other s hprev hk hj hne hrun ih =>
    have hinv := hprev.inv
    obtain ⟨T0, vs0, hh⟩ := hinv.holdsAt hk
    obtain ⟨T, vs, ho⟩ := hinv.holdsAt hj
    have hdis : ∀ p, Owns other p → ¬ Owns e p := fun p hp => hinv.2 j k other e p hne hj hk hp
    obtain ⟨s1, hrun1, _, _, _, _, _, _, _, hkeep, _⟩ := assign_spec hh ho hdis
    rw [hrun] at hrun1
    cases hrun1
    intro x hx
    obtain ⟨i, hi⟩ := List.mem_iff_getElem?.mp hx
    simp only [List.getElem?_set] at hi
    split at hi
    · split at hi
      · cases hi
        exact hassign _ e other s (ih e (List.mem_iff_getElem?.mpr ⟨k, hk⟩))
          (ih other (List.mem_iff_getElem?.mpr ⟨j, hj⟩)) hdis hrun
      · cases hi
    · rename_i hne2
      exact hframe _ _ x _ (ih x (List.mem_iff_getElem?.mpr ⟨i, hi⟩)) hkeep
        (fun p hp => hinv.2 i k x e p (fun h => hne2 h.symm) hi hk hp)
  | destroy k e h hprev hk hrun ih =>
    have hinv := hprev.inv
    obtain ⟨T, vs, hh⟩ := hinv.holdsAt hk
    obtain ⟨h1, hclear, _, hkeep, _⟩ := clearPointer_spec hh
    unfold QmlEvent.destroy at hrun
    rw [hclear] at hrun
    cases hrun
    intro x hx
    obtain ⟨i, hi⟩ := List.mem_iff_getElem?.mp hx
    rw [List.getElem?_eraseIdx] at hi
    split at hi
    · exact hframe _ _ x _ (ih x (List.mem_iff_getElem?.mpr ⟨i, hi⟩)) hkeep
        (fun p hp => hinv.2 i k x e p (by omega) hi hk hp)
    · exact hframe _ _ x _ (ih x (List.mem_iff_getElem?.mpr ⟨i + 1, hi⟩)) hkeep
        (fun p hp => hinv.2 (i + 1) k x e p (by omega) hi hk hp)

theorem Assigned.narrowest {T : NumType} {xs : List Int} {s s1 : St} {w : NumType}
    (ha : Assigned T xs s s1 w) (hdata : s.2.m_data.length = 8) (hlen : xs.length ≤ 65535) :
    Tight s1.1 s1.2 := by
  refine ⟨w, _, ha.toHolds hdata hlen, ?_⟩
  intro hext
  have hbig := ha.external_iff.mp hext
  obtain ⟨_, _, _, _, _, _, ⟨hfit, _⟩ | ⟨_, hwhy, _⟩⟩ := ha
  · omega
  · rcases hwhy with h8 | ⟨x, hx, hnot⟩
    · exact Or.inl h8
    · exact Or.inr ⟨_, List.mem_map.mpr ⟨x, hx, rfl⟩, hnot⟩

theorem Tight.of_same {h h1 : Heap} {e e1 : QmlEvent} {T : NumType} {vs : List Int}
    (hh : Holds h e T vs) (ht : e.isExternal → T = .qint8 ∨ ∃ v ∈ vs, ¬ InRange (T.bits / 2) v)
    (hh1 : Holds h1 e1 T vs) : Tight h1 e1 :=
  ⟨T, vs, hh1, fun hx => ht (hh.isExternal_iff.mpr (hh1.isExternal_iff.mp hx))⟩

theorem Holds.unique_type {h h1 : Heap} {e : QmlEvent} {T T1 : NumType} {vs vs1 : List Int}
    (hh : Holds h e T vs) (hh1 : Holds h1 e T1 vs1) : T1 = T := by
  have h1' := hh.storedWidth
  have h2 := hh1.storedWidth
  rw [h1'] at h2
  revert h2
  cases T <;> cases T1 <;> decide

theorem setNumbers_tight {h : Heap} {e : QmlEvent} {T0 : NumType} {vs0 : List Int}
    (hh : Holds h e T0 vs0) {T : NumType} {xs : List Int} {s : St}
    (hrun : QmlEvent.setNumbers T xs (h, e) = .ok s) : Tight s.1 s.2 := by
  obtain ⟨hlen, h1, w, _, hass⟩ := setNumbers_ok hh hrun
  exact hass.narrowest hh.data_length hlen

/-- Every external record of a reachable state is stored at the narrowest
type that represents its values. -/
theorem Reachable.tight {c : Config} (hr : Reachable c) : ∀ e ∈ c.objs, Tight c.heap e := by
  apply Reachable.forall_objs Tight ?_ ?_ ?_ ?_ ?_ hr
  · rintro h h1 e own ⟨T, vs, hh, ht⟩ hkeep hown
    exact ⟨T, vs, hh.frame hkeep hown, ht⟩
  · intro ctor h s hrun
    cases ctor with
    | init =>
      cases hrun
      refine ⟨.qint8, [], ⟨rfl, by simp, by simp, rfl, Or.inl ⟨rfl, by simp, _, rfl⟩⟩, ?_⟩
      intro hx
      have hnot : ¬ (Inline8Bit &&& External ≠ 0) := by decide
      exact absurd hx hnot
    | ofNumbers T ts d ti xs =>
      obtain ⟨hlen, w, hass⟩ := assignNumbers_ok (s := (h, QmlEvent.header ts d ti)) hrun rfl
      exact hass.narrowest rfl hlen
    | ofString ts d ti data =>
      have hrun1 : QmlEvent.assignNumbers .qint8 (QmlEvent.toUtf8 data)
          (h, QmlEvent.header ts d ti) = .ok s := hrun
      obtain ⟨hlen, w, hass⟩ := assignNumbers_ok hrun1 rfl
      exact hass.narrowest rfl hlen
  · rintro h other s ⟨T, vs, hh, ht⟩ hrun
    obtain ⟨s1, hrun1, hholds, _⟩ := copy_spec hh
    rw [hrun] at hrun1
    cases hrun1
    exact Tight.of_same hh ht hholds
  · rintro h e m s ⟨T, vs, hh, ht⟩ hrun
    cases m with
    | setTimestamp t =>
      cases hrun
      exact Tight.of_same hh ht (hh.header rfl rfl rfl)
    | setDuration d =>
      cases hrun
      exact Tight.of_same hh ht (hh.header rfl rfl rfl)
    | setTypeIndex t =>
      cases hrun
      exact Tight.of_same hh ht (hh.header rfl rfl rfl)
    | setNumber T i v =>
      obtain ⟨xs, hrun1⟩ := setNumber_ok hrun
      exact setNumbers_tight hh hrun1
    | setNumbers T xs => exact setNumbers_tight hh hrun
    | setString data => exact setNumbers_tight (T := .qint8) hh hrun
    | setRangeStage stage =>
      have hrun0 : QmlEvent.setRangeStage stage (h, e) = .ok s := hrun
      obtain ⟨h1, _, hrun1, hholds⟩ := setRangeStage_spec hh stage
      rw [hrun0] at hrun1
      cases hrun1
      refine ⟨_, _, hholds, ?_⟩
      intro hx
      have hnot : ¬ (Inline8Bit &&& External ≠ 0) := by decide
      exact absurd hx hnot
  · rintro h e other s ⟨T0, vs0, hh, _⟩ ⟨T, vs, ho, ht⟩ hdis hrun
    obtain ⟨s1, hrun1, hholds, _⟩ := assign_spec hh ho hdis
    rw [hrun] at hrun1
    cases hrun1
    exact Tight.of_same ho ht hholds


/-! ## The width selector and its reference definition -/

theorem selectorStops_eq_false (len : Nat) (xs : List Int) (w : NumType)
    (hbig : 8 < len * w.size) (hne : w ≠ .qint8) (hin : ∀ x ∈ xs, InRange (w.bits / 2) x) :
    selectorStops len xs w = false := by
  unfold selectorStops
  have h1 : decide (len * w.size ≤ 8) = false := decide_eq_false (by omega)
  have h2 : decide (w = NumType.qint8) = false := decide_eq_false hne
  have h3 : (xs.any fun x => !decide (InRange (w.bits / 2) x)) = false := by
    rw [List.any_eq_false]
    intro x hx
    simp [hin x hx]
  rw [h1, h2, h3]
  rfl

theorem Assigned.stops {T : NumType} {xs : List Int} {s s1 : St} {w : NumType}
    (ha : Assigned T xs s s1 w) (hxs : ∀ x ∈ xs, InRange T.bits x) :
    selectorStops xs.length xs w = true := by
  unfold selectorStops
  obtain ⟨_, _, _, _, _, _, ⟨hfit, _⟩ | ⟨_, hwhy, _⟩⟩ := ha
  · simp [hfit]
  · rcases hwhy with h8 | ⟨x, hx, hnot⟩
    · simp [h8]
    · rw [wrapSigned_of_inRange _ T.bits_pos _ (hxs x hx)] at hnot
      have : (xs.any fun x => !decide (InRange (w.bits / 2) x)) = true := by
        rw [List.any_eq_true]
        exact ⟨x, hx, by simp [hnot]⟩
      rw [this]
      simp

theorem Assigned.passes {T : NumType} {xs : List Int} {s s1 : St} {w : NumType}
    (ha : Assigned T xs s s1 w) (hxs : ∀ x ∈ xs, InRange T.bits x) (w1 : NumType)
    (hlt : w.size < w1.size) (hle : w1.size ≤ T.size) :
    selectorStops xs.length xs w1 = false := by
  have hin := ha.inRange hxs
  have h2 : 2 * w.size ≤ w1.size := by
    revert hlt
    cases w <;> cases w1 <;> decide
  have hbits : w.bits ≤ w1.bits / 2 := by
    revert hlt
    cases w <;> cases w1 <;> decide
  apply selectorStops_eq_false
  · obtain ⟨_, _, _, _, _, _, ⟨_, hwhy, _⟩ | ⟨hbig, _⟩⟩ := ha
    · rcases hwhy with rfl | hwide
      · omega
      · calc 8 < xs.length * (2 * w.size) := hwide
          _ ≤ xs.length * w1.size := Nat.mul_le_mul_left _ h2
    · calc 8 < xs.length * w.size := hbig
        _ ≤ xs.length * w1.size := Nat.mul_le_mul_left _ (by omega)
  · intro h8
    rw [h8] at hlt
    revert hlt
    cases w <;> decide
  · intro x hx
    exact (hin x hx).mono hbits w.bits_pos

/-- The width the code selects is the width of the reference definition. -/
theorem Assigned.reference {T : NumType} {xs : List Int} {s s1 : St} {w : NumType}
    (ha : Assigned T xs s s1 w) (hxs : ∀ x ∈ xs, InRange T.bits x) (hlen : xs.length ≤ 65535) :
    referenceWidth T xs = w ∧ (s1.2.isExternal ↔ referenceExternal T xs = true) := by
  have hstop := ha.stops hxs
  have hpass := ha.passes hxs
  have hle := ha.1
  have hw : referenceWidth T xs = w := by
    unfold referenceWidth
    rw [Nat.min_eq_left hlen]
    cases T <;> cases w <;>
      first
      | (simp only [NumType.size] at hle; omega)
      | simp [NumType.chain, List.find?, hstop, hpass, NumType.size]
  refine ⟨hw, ?_⟩
  unfold referenceExternal
  rw [hw, Nat.min_eq_left hlen, ha.external_iff, decide_eq_true_iff]

/-- Claim C23 (the width selector and its reference definition), with the
defect of claim C16. For every source type `T` and every list `xs` of values
of `T` with at most 65535 elements, the constructor and `setNumbers` return a
record whose stored width is the reference width (the first `w` of the chain
`W, W/2, ..., 8` at which the elements fit inline, or `w` is 8, or some
element is not representable at `w / 2` bits) and whose flag `External` is the
reference flag (`len * (w / 8) > 8`). For a list of more than 65535 elements
the reference selects a width for `len = 65535`, but the constructor writes
behind the end of the block and no record is built; shown for 65536 `qint8`
zeros. -/
theorem selector_refines_reference :
    (∀ (T : NumType) (xs : List Int), xs.length ≤ 65535 → (∀ x ∈ xs, InRange T.bits x) →
      (∀ (timestamp duration typeIndex : Int) (h : Heap),
        ∃ s, QmlEvent.ofNumbers T timestamp duration typeIndex xs h = .ok s ∧
          s.2.storedWidth = (referenceWidth T xs).bits ∧
          (s.2.isExternal ↔ referenceExternal T xs = true)) ∧
      (∀ c : Config, Reachable c → ∀ e ∈ c.objs,
        ∃ s, QmlEvent.setNumbers T xs (c.heap, e) = .ok s ∧
          s.2.storedWidth = (referenceWidth T xs).bits ∧
          (s.2.isExternal ↔ referenceExternal T xs = true))) ∧
    (∀ (T : NumType) (xs : List Int) (timestamp duration typeIndex : Int) (h : Heap),
      65535 < xs.length →
        QmlEvent.ofNumbers T timestamp duration typeIndex xs h = .error .outOfBounds) ∧
    QmlEvent.ofNumbers .qint8 0 0 0 (List.replicate 65536 0) emptyHeap = .error .outOfBounds := by
  refine ⟨?_, fun T xs ts d ti h hlen => ofNumbers_long T xs hlen ts d ti h,
    ofNumbers_long .qint8 _ (by rw [List.length_replicate]; decide) 0 0 0 emptyHeap⟩
  intro T xs hlen hxs
  constructor
  · intro ts d ti h
    obtain ⟨s, w, hrun, hass⟩ := assignNumbers_spec T xs (h, QmlEvent.header ts d ti) rfl hlen
    obtain ⟨hw, hflag⟩ := hass.reference hxs hlen
    exact ⟨s, hrun, by rw [hw]; exact hass.storedWidth_eq, hflag⟩
  · intro c hr e he
    obtain ⟨T0, vs0, hh⟩ := hr.holds he
    obtain ⟨h1, s, w, _, hrun, hass⟩ := setNumbers_spec hh T xs hlen
    obtain ⟨hw, hflag⟩ := hass.reference hxs hlen
    exact ⟨s, hrun, by rw [hw]; exact hass.storedWidth_eq, hflag⟩

/-- Claim C26 (the width selector is a fixed point on its own output). For
every reachable record `r`, with stored width that of type `T`: `numbers<T>()`
returns a list, `setNumbers<T>` of that list returns, and the record then has
the tag and the length of `r` and the same `number<U>(i)` at every type and
index. -/
theorem selector_fixed_point (c : Config) (hr : Reachable c) (r : QmlEvent)
    (he : r ∈ c.objs) :
    ∃ (T : NumType) (vs : List Int) (s : St), r.storedWidth = T.bits ∧
      QmlEvent.numbers T (c.heap, r) = .ok vs ∧
      QmlEvent.setNumbers T vs (c.heap, r) = .ok s ∧
      s.2.m_dataType = r.m_dataType ∧ s.2.m_dataLength = r.m_dataLength ∧
      ∀ (U : NumType) (i : Int),
        QmlEvent.number U s i = QmlEvent.number U (c.heap, r) i := by
  obtain ⟨T, vs, hh, ht⟩ := hr.tight r he
  have hin := hh.2.2.1
  have hle : vs.length ≤ 65535 := hh.2.1
  have hl : r.m_dataLength = vs.length := hh.1
  have hmap : vs.map (wrapSigned T.bits) = vs :=
    map_wrapSigned_of_inRange T.bits T.bits_pos vs hin
  obtain ⟨h1, s, w, _, hrun, hass⟩ := setNumbers_spec hh T vs hle
  have hholds := hass.toHolds hh.data_length hle
  rw [hmap] at hholds
  have hext := hh.isExternal_iff
  have hw : w = T := by
    by_contra hne
    have hlt : w.size < T.size := by
      have := hass.1
      revert this hne
      cases w <;> cases T <;> decide
    have hnostop := hass.passes hin T hlt (le_refl _)
    unfold selectorStops at hnostop
    simp only [Bool.or_eq_false_iff, decide_eq_false_iff_not, List.any_eq_false,
      Bool.not_eq_true', not_le] at hnostop
    obtain ⟨⟨hbig, h8⟩, hall⟩ := hnostop
    rcases ht (hext.mpr hbig) with h | ⟨v, hv, hnot⟩
    · exact h8 h
    · have := hall v hv
      simp only [Bool.not_eq_true, decide_eq_false_iff_not, not_not] at this
      exact hnot this
  subst hw
  refine ⟨w, vs, s, hh.storedWidth, ?_, hrun, ?_, by rw [hass.2.2.2.2.2.1, hl],
    fun U i => hholds.number_eq hh U i⟩
  · rw [hh.numbers w, hmap]
  · have hflag : s.2.isExternal ↔ r.isExternal := by
      rw [hholds.isExternal_iff, hext]
    obtain ⟨_, _, _, _, ⟨hrtag, hrfit, _⟩ | ⟨hrtag, hrbig, _⟩⟩ := hh
    · obtain ⟨_, _, _, _, _, _, ⟨_, _, _, htag, _⟩ | ⟨hbig, _⟩⟩ := hass
      · rw [htag, hrtag]
      · omega
    · obtain ⟨_, _, _, _, _, _, ⟨hfit, _⟩ | ⟨_, _, _, htag, _⟩⟩ := hass
      · omega
      · rw [htag, hrtag]

/-- Witness of claim C26: the record that holds 1000, -5, 130000 in a heap
block at width 32. -/
theorem selector_fixed_point_witness :
    ∃ (T : NumType) (vs : List Int) (s : St), externalEvent.storedWidth = T.bits ∧
      QmlEvent.numbers T (externalHeap, externalEvent) = .ok vs ∧
      QmlEvent.setNumbers T vs (externalHeap, externalEvent) = .ok s ∧
      s.2.m_dataType = externalEvent.m_dataType :=
  (selector_fixed_point externalConfig externalConfig_reachable externalEvent
    (List.mem_singleton_self _)).imp fun _ hT => hT.imp fun _ hvs => hvs.imp fun _ hs =>
      ⟨hs.1, hs.2.1, hs.2.2.1, hs.2.2.2.1⟩


/-! ## Ownership and the trace of the heap -/

theorem ReachableFrom.reachable {h0 : Heap} {c : Config} (hr : ReachableFrom h0 c) :
    Reachable c := by
  induction hr with
  | start => exact Reachable.start h0
  | construct ctor s _ hrun ih => exact Reachable.construct ctor s ih hrun
  | copy k other s _ hk hrun ih => exact Reachable.copy k other s ih hk hrun
  | call k e m s _ hk hrun ih => exact Reachable.call k e m s ih hk hrun
  | assign k j e other s _ hk hj hne hrun ih => exact Reachable.assign k j e other s ih hk hj hne hrun
  | destroy k e h _ hk hrun ih => exact Reachable.destroy k e h ih hk hrun

theorem Reachable.from_start {c : Config} (hr : Reachable c) : ∃ h0, ReachableFrom h0 c := by
  induction hr with
  | start h => exact ⟨h, ReachableFrom.start⟩
  | construct ctor s _ hrun ih =>
    obtain ⟨h0, ih⟩ := ih
    exact ⟨h0, ReachableFrom.construct ctor s ih hrun⟩
  | copy k other s _ hk hrun ih =>
    obtain ⟨h0, ih⟩ := ih
    exact ⟨h0, ReachableFrom.copy k other s ih hk hrun⟩
  | call k e m s _ hk hrun ih =>
    obtain ⟨h0, ih⟩ := ih
    exact ⟨h0, ReachableFrom.call k e m s ih hk hrun⟩
  | assign k j e other s _ hk hj hne hrun ih =>
    obtain ⟨h0, ih⟩ := ih
    exact ⟨h0, ReachableFrom.assign k j e other s ih hk hj hne hrun⟩
  | destroy k e h _ hk hrun ih =>
    obtain ⟨h0, ih⟩ := ih
    exact ⟨h0, ReachableFrom.destroy k e h ih hk hrun⟩

theorem owned_of_owns {e : QmlEvent} {p : Nat} (ho : Owns e p) : e.owned = [p] := by
  have hext : e.m_dataType &&& External ≠ 0 := ho.1
  unfold QmlEvent.owned
  rw [if_pos hext, ho.2, loadPtr_storePtr]

theorem owned_of_inline {e : QmlEvent} (hin : ¬ e.isExternal) : e.owned = [] := by
  have hext : ¬ (e.m_dataType &&& External ≠ 0) := hin
  unfold QmlEvent.owned
  rw [if_neg hext]

theorem mem_owned_iff {e : QmlEvent} {p : Nat} : p ∈ e.owned ↔ Owns e p := by
  constructor
  · intro hp
    unfold QmlEvent.owned at hp
    split at hp
    · rename_i hext
      split at hp
      · rename_i q hq
        rw [List.mem_singleton] at hp
        subst hp
        exact ⟨hext, loadPtr_eq_ok hq⟩
      · cases hp
    · cases hp
  · intro ho
    rw [owned_of_owns ho]
    exact List.mem_singleton_self p

theorem owned_cases (e : QmlEvent) : e.owned = [] ∨ ∃ p, e.owned = [p] := by
  unfold QmlEvent.owned
  split
  · split
    · exact Or.inr ⟨_, rfl⟩
    · exact Or.inl rfl
  · exact Or.inl rfl

theorem owned_congr {e e1 : QmlEvent} (htag : e1.m_dataType = e.m_dataType)
    (hdata : e1.m_data = e.m_data) : e1.owned = e.owned := by
  unfold QmlEvent.owned
  rw [htag, hdata]

theorem Holds.owned_block {h : Heap} {e : QmlEvent} {T : NumType} {vs : List Int}
    (hh : Holds h e T vs) :
    (e.isExternal ∧ ∃ p, e.owned = [p] ∧ h.blocks[p]? = some (some (encodeAll T vs))) ∨
    (¬ e.isExternal ∧ e.owned = []) := by
  by_cases hext : e.isExternal
  · left
    have hbig := hh.isExternal_iff.mp hext
    obtain ⟨_, _, _, _, ⟨_, hfit, _⟩ | ⟨_, _, p, hp, hblk⟩⟩ := hh
    · omega
    · exact ⟨hext, p, owned_of_owns ⟨hext, hp⟩, hblk⟩
  · exact Or.inr ⟨hext, owned_of_inline hext⟩

theorem mem_ownedBy {l : List QmlEvent} {p : Nat} :
    p ∈ ownedBy l ↔ ∃ e ∈ l, p ∈ e.owned := by
  induction l with
  | nil => simp [ownedBy]
  | cons e es ih => simp [ownedBy, ih]

theorem ownedBy_append (l1 l2 : List QmlEvent) :
    ownedBy (l1 ++ l2) = ownedBy l1 ++ ownedBy l2 := by
  induction l1 with
  | nil => rfl
  | cons e es ih => simp [ownedBy, ih]

theorem split_at_index {l : List QmlEvent} {k : Nat} {e : QmlEvent} (hk : l[k]? = some e) :
    ∃ l1 l2, l = l1 ++ e :: l2 ∧ (∀ x, l.set k x = l1 ++ x :: l2) ∧
      l.eraseIdx k = l1 ++ l2 := by
  induction l generalizing k with
  | nil => simp at hk
  | cons a as ih =>
    cases k with
    | zero =>
      simp at hk
      subst hk
      exact ⟨[], as, rfl, fun _ => rfl, rfl⟩
    | succ k =>
      simp at hk
      obtain ⟨l1, l2, h1, h2, h3⟩ := ih hk
      refine ⟨a :: l1, l2, by rw [h1]; rfl, fun x => ?_, ?_⟩
      · simp [h2 x]
      · simp [h3]

theorem liveAfter_append (live : List Nat) (t u : List HeapEvent) :
    liveAfter live (t ++ u) = liveAfter (liveAfter live t) u := by
  unfold liveAfter
  rw [List.foldl_append]

theorem disciplined_append (live : List Nat) (t u : List HeapEvent) :
    disciplined live (t ++ u) = (disciplined live t && disciplined (liveAfter live t) u) := by
  induction t generalizing live with
  | nil => simp [disciplined, liveAfter]
  | cons ev t ih =>
    cases ev with
    | alloc p size =>
      show (!live.contains p && disciplined _ (t ++ u)) = _
      rw [ih]
      simp only [disciplined, liveAfter, List.foldl_cons, Bool.and_assoc]
    | free p =>
      show (live.contains p && disciplined _ (t ++ u)) = _
      rw [ih]
      simp only [disciplined, liveAfter, List.foldl_cons, Bool.and_assoc]

/-- One step of the run on the trace: the blocks `old` are released, then the
blocks `new` are acquired. -/
theorem track_step (live A B old new : List Nat) (size : Nat)
    (hperm : live.Perm (A ++ old ++ B)) (hnd : live.Nodup)
    (hold : old = [] ∨ ∃ p, old = [p]) (hnew : new = [] ∨ ∃ q, new = [q])
    (hfresh : ∀ q ∈ new, q ∉ live) :
    disciplined live (old.map HeapEvent.free ++ new.map (fun p => HeapEvent.alloc p size))
        = true ∧
      (liveAfter live
        (old.map HeapEvent.free ++ new.map (fun p => HeapEvent.alloc p size))).Perm
        (A ++ new ++ B) ∧
      (liveAfter live
        (old.map HeapEvent.free ++ new.map (fun p => HeapEvent.alloc p size))).Nodup := by
  have hrel : ∃ live1 : List Nat, liveAfter live (old.map HeapEvent.free) = live1 ∧
      disciplined live (old.map HeapEvent.free) = true ∧ live1.Perm (A ++ B) ∧ live1.Nodup ∧
      ∀ q, q ∈ live1 → q ∈ live := by
    rcases hold with rfl | ⟨p, rfl⟩
    · refine ⟨live, rfl, rfl, ?_, hnd, fun _ h => h⟩
      simpa using hperm
    · refine ⟨live.erase p, rfl, ?_, ?_, hnd.erase p, fun q hq => List.mem_of_mem_erase hq⟩
      · have hp : p ∈ live := hperm.mem_iff.mpr (by simp)
        simp [disciplined, hp]
      · have h1 := hperm.erase p
        have h2 : (A ++ [p] ++ B).Perm (p :: (A ++ B)) := by
          rw [List.append_assoc]
          exact List.perm_middle
        have h3 := (h2.erase p)
        rw [List.erase_cons_head] at h3
        exact h1.trans h3
  obtain ⟨live1, hl1, hd1, hp1, hnd1, hsub⟩ := hrel
  rw [disciplined_append, liveAfter_append, hl1, hd1]
  rcases hnew with rfl | ⟨q, rfl⟩
  · refine ⟨rfl, ?_, hnd1⟩
    simpa [liveAfter] using hp1
  · have hq : q ∉ live1 := fun h => hfresh q (List.mem_singleton_self q) (hsub q h)
    refine ⟨?_, ?_, ?_⟩
    · simp [disciplined, hq]
    · show (live1 ++ [q]).Perm (A ++ [q] ++ B)
      have h1 : (live1 ++ [q]).Perm (q :: (A ++ B)) :=
        (List.perm_append_comm).trans (List.Perm.cons q hp1)
      have h2 : (A ++ [q] ++ B).Perm (q :: (A ++ B)) := by
        rw [List.append_assoc]
        exact List.perm_middle
      exact h1.trans h2.symm
    · show (live1 ++ [q]).Nodup
      rw [List.nodup_append]
      refine ⟨hnd1, List.nodup_singleton q, ?_⟩
      intro a ha hb
      rw [List.mem_singleton] at hb
      subst hb
      exact hq ha


/-! ## What each operation adds to the trace -/

theorem clearPointer_trace {h : Heap} {e : QmlEvent} {T : NumType} {vs : List Int}
    (hh : Holds h e T vs) :
    ∃ h1, QmlEvent.clearPointer (h, e) = .ok (h1, e) ∧
      h1.trace = h.trace ++ released e ∧ h1.blocks.length = h.blocks.length := by
  obtain ⟨h1, hclear, hl, _, hin, hex⟩ := clearPointer_spec hh
  refine ⟨h1, hclear, ?_, hl⟩
  by_cases hext : e.isExternal
  · obtain ⟨p, hp, rfl⟩ := hex hext
    unfold released
    rw [owned_of_owns hp]
    rfl
  · rw [hin hext]
    unfold released
    rw [owned_of_inline hext]
    simp

theorem Assigned.acquires {T : NumType} {xs : List Int} {s s1 : St} {w : NumType}
    (ha : Assigned T xs s s1 w) :
    s1.1.trace = s.1.trace ++ acquired s1.2 ∧ ∀ p ∈ s1.2.owned, p = s.1.blocks.length := by
  refine ⟨?_, fun p hp => ha.ownsNew (mem_owned_iff.mp hp)⟩
  obtain ⟨_, _, _, _, _, hlen, ⟨_, _, hheap, htag, _⟩ | ⟨_, _, hheap, htag, hd⟩⟩ := ha
  · have hin : ¬ s1.2.isExternal := by
      unfold QmlEvent.isExternal
      rw [htag]
      exact tag_inline w
    unfold acquired
    rw [owned_of_inline hin, hheap]
    simp
  · have hown : Owns s1.2 s.1.blocks.length := by
      refine ⟨?_, hd⟩
      unfold QmlEvent.isExternal
      rw [htag]
      exact tag_external w
    unfold acquired
    rw [owned_of_owns hown, hheap, htag, tag_div, hlen]
    rfl

theorem replaces_of_assigned {h h1 : Heap} {e : QmlEvent} {T0 : NumType} {vs0 : List Int}
    (hh : Holds h e T0 vs0) (hclear : QmlEvent.clearPointer (h, e) = .ok (h1, e))
    {T : NumType} {xs : List Int} {s : St} {w : NumType}
    (hass : Assigned T xs (h1, e) s w) : Replaces h e s := by
  obtain ⟨h1', hclear', htr, hl⟩ := clearPointer_trace hh
  rw [hclear] at hclear'
  cases hclear'
  obtain ⟨h1t, h2⟩ := hass.acquires
  refine ⟨?_, fun p hp => (h2 p hp).trans hl⟩
  rw [h1t]
  show h1.trace ++ acquired s.2 = _
  rw [htr]

theorem setNumbers_replaces {h : Heap} {e : QmlEvent} {T0 : NumType} {vs0 : List Int}
    (hh : Holds h e T0 vs0) {T : NumType} {xs : List Int} {s : St}
    (hrun : QmlEvent.setNumbers T xs (h, e) = .ok s) : Replaces h e s := by
  obtain ⟨_, h1, w, hclear, hass⟩ := setNumbers_ok hh hrun
  exact replaces_of_assigned hh hclear hass

theorem setNumber_replaces {h : Heap} {e : QmlEvent} {T0 : NumType} {vs0 : List Int}
    (hh : Holds h e T0 vs0) {T : NumType} {i v : Int} {s : St}
    (hrun : QmlEvent.setNumber T i v (h, e) = .ok s) : Replaces h e s := by
  obtain ⟨xs, hrun1⟩ := setNumber_ok hrun
  exact setNumbers_replaces hh hrun1

theorem setString_replaces {h : Heap} {e : QmlEvent} {T0 : NumType} {vs0 : List Int}
    (hh : Holds h e T0 vs0) {data : List (Fin 256)} {s : St}
    (hrun : QmlEvent.setString data (h, e) = .ok s) : Replaces h e s := by
  have hrun1 : QmlEvent.setNumbers .qint8 (QmlEvent.toUtf8 data) (h, e) = .ok s := hrun
  exact setNumbers_replaces hh hrun1

theorem setRangeStage_replaces {h : Heap} {e : QmlEvent} {T0 : NumType} {vs0 : List Int}
    (hh : Holds h e T0 vs0) {stage : Int} {s : St}
    (hrun : QmlEvent.setRangeStage stage (h, e) = .ok s) : Replaces h e s := by
  obtain ⟨h1, hclear, hrun1, _⟩ := setRangeStage_spec hh stage
  obtain ⟨h1', hclear', htr, hl⟩ := clearPointer_trace hh
  rw [hclear] at hclear'
  cases hclear'
  rw [hrun] at hrun1
  cases hrun1
  have hin : ¬ (QmlEvent.mk e.m_timestamp e.m_duration
      (encode .qint8 (wrapSigned 8 stage) ++ e.m_data.drop 1) e.m_typeIndex Inline8Bit
      1).isExternal := by
    show ¬ (Inline8Bit &&& External ≠ 0)
    decide
  have hown := owned_of_inline hin
  refine ⟨?_, ?_⟩
  · show h1.trace = h.trace ++ released e ++ acquired _
    unfold acquired
    rw [hown, htr]
    simp
  · intro p hp
    rw [hown] at hp
    cases hp

theorem assignData_acquires {h1 : Heap} {e1 other : QmlEvent} {T : NumType} {vs : List Int}
    (hh : Holds h1 other T vs) (htag : e1.m_dataType = other.m_dataType)
    (hlen : e1.m_dataLength = other.m_dataLength) {s : St}
    (hrun : QmlEvent.assignData other (h1, e1) = .ok s) :
    s.1.trace = h1.trace ++ acquired s.2 ∧ ∀ p ∈ s.2.owned, p = h1.blocks.length := by
  obtain ⟨s1, hrun1, _, _, _, _, hstag, hslen, _, hnew, hex, hin⟩ :=
    assignData_spec hh htag hlen
  rw [hrun] at hrun1
  cases hrun1
  refine ⟨?_, fun p hp => hnew p (mem_owned_iff.mp hp)⟩
  have hiff := hh.isExternal_iff
  by_cases hext : other.isExternal
  · obtain ⟨hheap, hd⟩ := hex hext
    have hown : Owns s.2 h1.blocks.length := by
      refine ⟨?_, hd⟩
      unfold QmlEvent.isExternal
      rw [hstag]
      exact hext
    have hbig := hiff.mp hext
    obtain ⟨hl, _, _, _, ⟨_, hfit, _⟩ | ⟨hotag, _, _⟩⟩ := hh
    · omega
    · unfold acquired
      rw [owned_of_owns hown, hheap, hstag, hslen, hotag, tag_div, hl]
      rfl
  · obtain ⟨hheap, _⟩ := hin hext
    have hnot : ¬ s.2.isExternal := by
      unfold QmlEvent.isExternal
      rw [hstag]
      exact hext
    unfold acquired
    rw [owned_of_inline hnot, hheap]
    simp

theorem copy_acquires {h : Heap} {other : QmlEvent} {T : NumType} {vs : List Int}
    (hh : Holds h other T vs) {s : St} (hrun : QmlEvent.copy other h = .ok s) :
    s.1.trace = h.trace ++ acquired s.2 ∧ ∀ p ∈ s.2.owned, p = h.blocks.length :=
  assignData_acquires hh
    (show (QmlEvent.mk other.m_timestamp other.m_duration QmlEvent.uninitialised
      other.m_typeIndex other.m_dataType other.m_dataLength).m_dataType = other.m_dataType
      from rfl) rfl hrun

theorem assign_replaces {h : Heap} {e other : QmlEvent} {T0 T : NumType} {vs0 vs : List Int}
    (hh : Holds h e T0 vs0) (ho : Holds h other T vs)
    (hdis : ∀ p, Owns other p → ¬ Owns e p) {s : St}
    (hrun : QmlEvent.assign other (h, e) = .ok s) : Replaces h e s := by
  obtain ⟨h1, hclear, hl, hkeep, _⟩ := clearPointer_spec hh
  obtain ⟨h1', hclear', htr, _⟩ := clearPointer_trace hh
  rw [hclear] at hclear'
  cases hclear'
  have ho1 : Holds h1 other T vs := ho.frame hkeep hdis
  unfold QmlEvent.assign at hrun
  rw [hclear] at hrun
  obtain ⟨h1t, h2⟩ := assignData_acquires ho1
    (show (QmlEvent.mk other.m_timestamp other.m_duration e.m_data
      other.m_typeIndex other.m_dataType other.m_dataLength).m_dataType = other.m_dataType
      from rfl) rfl hrun
  refine ⟨?_, fun p hp => (h2 p hp).trans hl⟩
  rw [h1t, htr]

theorem ctor_acquires (ctor : Ctor) (h : Heap) {s : St} (hrun : ctor.run h = .ok s) :
    s.1.trace = h.trace ++ acquired s.2 ∧ ∀ p ∈ s.2.owned, p = h.blocks.length := by
  cases ctor with
  | init =>
    cases hrun
    have hin : ¬ QmlEvent.init.isExternal := by
      unfold QmlEvent.isExternal
      decide
    have hown := owned_of_inline hin
    refine ⟨?_, ?_⟩
    · show h.trace = h.trace ++ acquired QmlEvent.init
      unfold acquired
      rw [hown]
      simp
    · intro p hp
      rw [hown] at hp
      cases hp
  | ofNumbers T ts d ti xs =>
    obtain ⟨_, w, hass⟩ := assignNumbers_ok (s := (h, QmlEvent.header ts d ti)) hrun rfl
    exact hass.acquires
  | ofString ts d ti data =>
    have hrun1 : QmlEvent.assignNumbers .qint8 (QmlEvent.toUtf8 data)
        (h, QmlEvent.header ts d ti) = .ok s := hrun
    obtain ⟨_, w, hass⟩ := assignNumbers_ok hrun1 rfl
    exact hass.acquires

theorem destroy_releases {h : Heap} {e : QmlEvent} {T : NumType} {vs : List Int}
    (hh : Holds h e T vs) :
    ∃ h1, QmlEvent.destroy (h, e) = .ok h1 ∧ h1.trace = h.trace ++ released e := by
  obtain ⟨h1, hclear, htr, _⟩ := clearPointer_trace hh
  refine ⟨h1, ?_, htr⟩
  unfold QmlEvent.destroy
  rw [hclear]

/-- A member function replaces what the record owns, or leaves the heap and
what the record owns. -/
theorem method_trace {h : Heap} {e : QmlEvent} {T0 : NumType} {vs0 : List Int}
    (hh : Holds h e T0 vs0) (m : Method) {s : St} (hrun : m.run (h, e) = .ok s) :
    Replaces h e s ∨ (s.1 = h ∧ s.2.owned = e.owned) := by
  cases m with
  | setTimestamp t =>
    cases hrun
    exact Or.inr ⟨rfl, owned_congr rfl rfl⟩
  | setDuration d =>
    cases hrun
    exact Or.inr ⟨rfl, owned_congr rfl rfl⟩
  | setTypeIndex t =>
    cases hrun
    exact Or.inr ⟨rfl, owned_congr rfl rfl⟩
  | setNumber T i v => exact Or.inl (setNumber_replaces hh hrun)
  | setNumbers T xs => exact Or.inl (setNumbers_replaces hh hrun)
  | setString data => exact Or.inl (setString_replaces hh hrun)
  | setRangeStage stage => exact Or.inl (setRangeStage_replaces hh hrun)

/-! ## The discipline of the heap along a run -/

theorem ownedBy_lt {c : Config} (hr : Reachable c) {p : Nat} (hp : p ∈ ownedBy c.objs) :
    p < c.heap.blocks.length := by
  obtain ⟨e, he, hpe⟩ := mem_ownedBy.mp hp
  obtain ⟨T, vs, hh⟩ := hr.holds he
  exact hh.owns_lt (mem_owned_iff.mp hpe)

theorem Tracked.step {h0 : Heap} {c : Config} (hr : Reachable c) (ht : Tracked h0 c)
    (l1 l2 : List QmlEvent) (old new : List Nat) (size : Nat) (h1 : Heap)
    (objs1 : List QmlEvent)
    (hobjs : ownedBy c.objs = ownedBy l1 ++ old ++ ownedBy l2)
    (hobjs1 : ownedBy objs1 = ownedBy l1 ++ new ++ ownedBy l2)
    (hold : old = [] ∨ ∃ p, old = [p]) (hnew : new = [] ∨ ∃ q, new = [q])
    (hfresh : ∀ q ∈ new, q = c.heap.blocks.length)
    (htrace : h1.trace = c.heap.trace ++ old.map HeapEvent.free ++
      new.map (fun p => HeapEvent.alloc p size)) :
    Tracked h0 { heap := h1, objs := objs1 } := by
  obtain ⟨t, htr, hdisc, hperm, hnd⟩ := ht
  have hndl : (liveAfter [] t).Nodup := hperm.nodup_iff.mpr hnd
  have hfr : ∀ q ∈ new, q ∉ liveAfter [] t := by
    intro q hq hmem
    have := ownedBy_lt hr (hperm.mem_iff.mp hmem)
    have := hfresh q hq
    omega
  obtain ⟨hd, hp, hn⟩ := track_step (liveAfter [] t) (ownedBy l1) (ownedBy l2) old new size
    (hobjs ▸ hperm) hndl hold hnew hfr
  refine ⟨t ++ (old.map HeapEvent.free ++ new.map (fun p => HeapEvent.alloc p size)), ?_, ?_,
    ?_, ?_⟩
  · show h1.trace = _
    rw [htrace, htr]
    simp only [List.append_assoc]
  · rw [disciplined_append, hdisc, hd]
    rfl
  · rw [liveAfter_append]
    show (liveAfter (liveAfter [] t) _).Perm (ownedBy objs1)
    rw [hobjs1]
    exact hp
  · show (ownedBy objs1).Nodup
    rw [hobjs1]
    rw [liveAfter_append] at *
    exact hp.nodup_iff.mp hn


theorem ReachableFrom.tracked {h0 : Heap} {c : Config} (hr : ReachableFrom h0 c) :
    Tracked h0 c := by
  induction hr with
  | start =>
    exact ⟨[], by simp, rfl, by simp [liveAfter, ownedBy], by simp [ownedBy]⟩
  | @construct c ctor s hr0 hrun ih =>
    obtain ⟨htr, hnew⟩ := ctor_acquires ctor _ hrun
    exact ih.step hr0.reachable c.objs [] [] s.2.owned
      (s.2.m_dataLength * (s.2.m_dataType / 8)) s.1 _
      (by simp [ownedBy]) (by simp [ownedBy_append, ownedBy]) (Or.inl rfl)
      (owned_cases s.2) hnew (by rw [htr]; simp [acquired])
  | @copy c k other s hr0 hk hrun ih =>
    obtain ⟨T, vs, hh⟩ := hr0.reachable.inv.holdsAt hk
    obtain ⟨htr, hnew⟩ := copy_acquires hh hrun
    exact ih.step hr0.reachable c.objs [] [] s.2.owned
      (s.2.m_dataLength * (s.2.m_dataType / 8)) s.1 _
      (by simp [ownedBy]) (by simp [ownedBy_append, ownedBy]) (Or.inl rfl)
      (owned_cases s.2) hnew (by rw [htr]; simp [acquired])
  | @call c k e m s hr0 hk hrun ih =>
    obtain ⟨T, vs, hh⟩ := hr0.reachable.inv.holdsAt hk
    obtain ⟨l1, l2, hsplit, hset, _⟩ := split_at_index hk
    rcases method_trace hh m hrun with ⟨htr, hnew⟩ | ⟨hheap, hown⟩
    · exact ih.step hr0.reachable l1 l2 e.owned s.2.owned
        (s.2.m_dataLength * (s.2.m_dataType / 8)) s.1 _
        (by rw [hsplit]; simp [ownedBy_append, ownedBy])
        (by rw [hset]; simp [ownedBy_append, ownedBy])
        (owned_cases e) (owned_cases s.2) hnew (by rw [htr]; simp [acquired, released])
    · obtain ⟨t, h1, h2, h3, h4⟩ := ih
      have hsame : ownedBy (c.objs.set k s.2) = ownedBy c.objs := by
        rw [hset, hsplit]
        simp [ownedBy_append, ownedBy, hown]
      refine ⟨t, ?_, h2, ?_, ?_⟩
      · show s.1.trace = _
        rw [hheap]
        exact h1
      · show (liveAfter [] t).Perm (ownedBy (c.objs.set k s.2))
        rw [hsame]
        exact h3
      · show (ownedBy (c.objs.set k s.2)).Nodup
        rw [hsame]
        exact h4
  | @assign c k j e other s hr0 hk hj hne hrun ih =>
    have hinv := hr0.reachable.inv
    obtain ⟨T0, vs0, hh⟩ := hinv.holdsAt hk
    obtain ⟨T, vs, ho⟩ := hinv.holdsAt hj
    obtain ⟨l1, l2, hsplit, hset, _⟩ := split_at_index hk
    obtain ⟨htr, hnew⟩ := assign_replaces hh ho
      (fun p hp => hinv.2 j k other e p hne hj hk hp) hrun
    exact ih.step hr0.reachable l1 l2 e.owned s.2.owned
      (s.2.m_dataLength * (s.2.m_dataType / 8)) s.1 _
      (by rw [hsplit]; simp [ownedBy_append, ownedBy])
      (by rw [hset]; simp [ownedBy_append, ownedBy])
      (owned_cases e) (owned_cases s.2) hnew (by rw [htr]; simp [acquired, released])
  | @destroy c k e h hr0 hk hrun ih =>
    obtain ⟨T, vs, hh⟩ := hr0.reachable.inv.holdsAt hk
    obtain ⟨l1, l2, hsplit, _, herase⟩ := split_at_index hk
    obtain ⟨h1, hrun1, htr⟩ := destroy_releases hh
    rw [hrun] at hrun1
    cases hrun1
    exact ih.step hr0.reachable l1 l2 e.owned [] 0 h _
      (by rw [hsplit]; simp [ownedBy_append, ownedBy])
      (by rw [herase]; simp [ownedBy_append, ownedBy])
      (owned_cases e) (Or.inl rfl) (fun q hq => by cases hq)
      (by rw [htr]; simp [released])

theorem externalConfig_from_empty : ReachableFrom emptyHeap externalConfig :=
  ReachableFrom.construct (.ofNumbers .qint32 0 0 0 [1000, -5, 130000])
    (externalHeap, externalEvent) ReachableFrom.start (by decide)

/-- Claim C21 (single ownership of the external buffer). In every state `c` a
program reaches from heap `h0`: the trace of the heap is the trace of `h0`
and then a trace `t` in which every `free` releases a live allocation and
`malloc` returns no live block; the allocations live after `t` are the blocks
the records own, each once over all records; a record with the flag
`External` set owns one block, live in the trace and in the heap, and a
record with the flag clear owns none. On every record of `c`: the destructor
returns and adds to the trace the release of what the record owns, nothing
else; `setRangeStage` and copy assignment from another record return, and
`setNumbers` and `setString` return for at most 65535 elements; whatever
`setNumbers`, `setNumber`, `setString`, `setRangeStage` and copy assignment
return, the trace is then the trace before, the release of what the record
owned, and after it the allocation of what it owns, a block that is new. -/
theorem single_ownership (h0 : Heap) (c : Config) (hr : ReachableFrom h0 c) :
    (∃ t, c.heap.trace = h0.trace ++ t ∧ disciplined [] t = true ∧
      (liveAfter [] t).Perm (ownedBy c.objs) ∧ (ownedBy c.objs).Nodup ∧
      ∀ e ∈ c.objs,
        (e.isExternal → ∃ p blk, e.owned = [p] ∧ p ∈ liveAfter [] t ∧
          c.heap.blocks[p]? = some (some blk)) ∧
        (¬ e.isExternal → e.owned = [])) ∧
    (∀ (k : Nat) (e : QmlEvent), c.objs[k]? = some e →
      (∃ h1, QmlEvent.destroy (c.heap, e) = .ok h1 ∧
        h1.trace = c.heap.trace ++ released e) ∧
      (∀ (T : NumType) (xs : List Int),
        (xs.length ≤ 65535 → ∃ s, QmlEvent.setNumbers T xs (c.heap, e) = .ok s) ∧
        ∀ s, QmlEvent.setNumbers T xs (c.heap, e) = .ok s → Replaces c.heap e s) ∧
      (∀ (T : NumType) (i v : Int) (s : St),
        QmlEvent.setNumber T i v (c.heap, e) = .ok s → Replaces c.heap e s) ∧
      (∀ data : List (Fin 256),
        (data.length ≤ 65535 → ∃ s, QmlEvent.setString data (c.heap, e) = .ok s) ∧
        ∀ s, QmlEvent.setString data (c.heap, e) = .ok s → Replaces c.heap e s) ∧
      (∀ stage : Int, ∃ s, QmlEvent.setRangeStage stage (c.heap, e) = .ok s ∧
        Replaces c.heap e s) ∧
      (∀ (j : Nat) (other : QmlEvent), c.objs[j]? = some other → j ≠ k →
        ∃ s, QmlEvent.assign other (c.heap, e) = .ok s ∧ Replaces c.heap e s)) := by
  have hreach := hr.reachable
  have hinv := hreach.inv
  constructor
  · obtain ⟨t, h1, h2, h3, h4⟩ := hr.tracked
    refine ⟨t, h1, h2, h3, h4, ?_⟩
    intro e he
    obtain ⟨T, vs, hh⟩ := hreach.holds he
    rcases hh.owned_block with ⟨hext, p, hp, hblk⟩ | ⟨hin, hnone⟩
    · refine ⟨fun _ => ⟨p, _, hp, ?_, hblk⟩, fun hn => absurd hext hn⟩
      apply h3.mem_iff.mpr
      exact mem_ownedBy.mpr ⟨e, he, by rw [hp]; exact List.mem_singleton_self p⟩
    · exact ⟨fun hx => absurd hx hin, fun _ => hnone⟩
  · intro k e hk
    obtain ⟨T0, vs0, hh⟩ := hinv.holdsAt hk
    refine ⟨destroy_releases hh, ?_, ?_, ?_, ?_, ?_⟩
    · intro T xs
      refine ⟨fun hlen => ?_, fun s hrun => setNumbers_replaces hh hrun⟩
      obtain ⟨_, s, _, _, hrun, _⟩ := setNumbers_spec hh T xs hlen
      exact ⟨s, hrun⟩
    · intro T i v s hrun
      exact setNumber_replaces hh hrun
    · intro data
      refine ⟨fun hlen => ?_, fun s hrun => setString_replaces hh hrun⟩
      obtain ⟨_, s, _, _, hrun, _⟩ :=
        setNumbers_spec hh .qint8 (QmlEvent.toUtf8 data) (by rw [toUtf8_length]; exact hlen)
      exact ⟨s, hrun⟩
    · intro stage
      obtain ⟨h1, _, hrun, _⟩ := setRangeStage_spec hh stage
      exact ⟨_, hrun, setRangeStage_replaces hh hrun⟩
    · intro j other hj hne
      obtain ⟨T, vs, ho⟩ := hinv.holdsAt hj
      have hdis : ∀ p, Owns other p → ¬ Owns e p :=
        fun p hp => hinv.2 j k other e p hne hj hk hp
      obtain ⟨s, hrun, _⟩ := assign_spec hh ho hdis
      exact ⟨s, hrun, assign_replaces hh ho hdis hrun⟩

/-- Witness of claim C21: the state with the one record that holds 1000, -5,
130000 in a heap block, reached from the empty heap. -/
theorem single_ownership_witness :
    ∃ t, externalConfig.heap.trace = emptyHeap.trace ++ t ∧ disciplined [] t = true ∧
      (liveAfter [] t).Perm (ownedBy externalConfig.objs) :=
  (single_ownership emptyHeap externalConfig externalConfig_from_empty).1.imp
    fun _ ht => ⟨ht.1, ht.2.1, ht.2.2.1⟩

end QmlProfiler
